import Mathlib

/-! # App-submission processor (`.github/scripts/process-app-submission.js`)

A shallow embedding of `AppSubmissionProcessor`: the field extractors, the
parser, the validator and the YAML renderer as pure functions, and the workflow
(`checkForDuplicate`, `createPullRequest`, `process`) as functions that pass the
trace of the host calls.

Modelling conventions.

* A JavaScript string is a `List Char` (type `Str`).  The regular expressions of
  the script carry no `u` flag and only use the classes `\s`, `[^\n]`, `[^\/]`
  and `[\s\S]`, which treat both halves of a surrogate pair alike, so matching
  per character agrees with matching per UTF-16 code unit on well-formed text.
* A regular expression is embedded as a backtracking matcher in
  continuation-passing style, one combinator per regex construct, tried at
  every start index from left to right as `RegExp.prototype.exec` does.
* `fieldName` arguments are the literal heading text the pattern fragment
  denotes (`'License \\(Optional\\)'` denotes `License (Optional)`).
-/

namespace AppSubmission

/-- A JavaScript string, as its sequence of characters. -/
abbrev Str := List Char

/-! ## String primitives -/

/-- The characters matched by `\s` and removed by `String.prototype.trim`
(ECMAScript WhiteSpace and LineTerminator). -/
def isWhiteSpace (c : Char) : Bool :=
  let n := c.toNat
  n == 0x09 || n == 0x0A || n == 0x0B || n == 0x0C || n == 0x0D || n == 0x20 ||
  n == 0xA0 || n == 0x1680 || (0x2000 ≤ n && n ≤ 0x200A) || n == 0x2028 ||
  n == 0x2029 || n == 0x202F || n == 0x205F || n == 0x3000 || n == 0xFEFF

/-- The line feed test used by `\n` and `[^\n]`. -/
def isNewline (c : Char) : Bool := c == '\n'

/-- Model of `String.prototype.trim`. -/
def trim (s : Str) : Str :=
  ((s.dropWhile isWhiteSpace).reverse.dropWhile isWhiteSpace).reverse

/-- Model of `String.prototype.includes`. -/
def includes (s sub : Str) : Bool :=
  match s with
  | [] => sub.isEmpty
  | c :: cs => sub.isPrefixOf (c :: cs) || includes cs sub

/-- Model of `String.prototype.split('\n')`. -/
def splitLines : Str → List Str
  | [] => [[]]
  | c :: cs =>
    if c == '\n' then [] :: splitLines cs
    else
      match splitLines cs with
      | l :: ls => (c :: l) :: ls
      | [] => [[c]]

/-- Canonicalisation of a character under the `i` flag without the `u` flag:
`toUpperCase` restricted to the ASCII letters.  A character outside ASCII never
canonicalises to an ASCII character, so against an ASCII pattern character
this is the whole rule. -/
def canonicalize (c : Char) : Char := c.toUpper

/-! ## Backtracking regular-expression matcher -/

/-- One pattern character or class: consume one character satisfying `p`. -/
def mChar {α : Type} (p : Char → Bool) (k : Str → Option α) : Str → Option α
  | [] => none
  | c :: cs => if p c then k cs else none

/-- A literal sequence of pattern characters under the `i` flag. -/
def mLitI {α : Type} : Str → (Str → Option α) → Str → Option α
  | [], k => k
  | p :: ps, k => mChar (fun c => canonicalize c == canonicalize p) (mLitI ps k)

/-- A literal sequence of pattern characters, case-sensitive. -/
def mLit {α : Type} : Str → (Str → Option α) → Str → Option α
  | [], k => k
  | p :: ps, k => mChar (fun c => c == p) (mLit ps k)

/-- Greedy `p*` over a character class: take as many as possible, give back
one at a time while the continuation fails. -/
def mStar {α : Type} (p : Char → Bool) (k : Str → Option α) : Str → Option α
  | [] => k []
  | c :: cs =>
    if p c then
      match mStar p k cs with
      | some r => some r
      | none => k (c :: cs)
    else k (c :: cs)

/-- Greedy `p+` over a character class. -/
def mPlus {α : Type} (p : Char → Bool) (k : Str → Option α) : Str → Option α :=
  mChar p (mStar p k)

/-- Lazy `p*?` over a character class: take as few as possible, take one more
while the continuation fails. -/
def mLazyStar {α : Type} (p : Char → Bool) (k : Str → Option α) : Str → Option α
  | [] => k []
  | c :: cs =>
    match k (c :: cs) with
    | some r => some r
    | none => if p c then mLazyStar p k cs else none

/-- Greedy `p?` over a character class. -/
def mOpt {α : Type} (p : Char → Bool) (k : Str → Option α) (s : Str) : Option α :=
  match mChar p k s with
  | some r => some r
  | none => k s

/-- The assertion `$` without the `m` flag: only at the end of the input. -/
def mEnd {α : Type} (k : Str → Option α) : Str → Option α
  | [] => k []
  | _ :: _ => none

/-- The assertion `^` without the `m` flag: only at index 0. -/
def mBegin {α : Type} (atStart : Bool) (k : Str → Option α) (s : Str) : Option α :=
  if atStart then k s else none

/-- A positive lookahead `(?=...)`: the inner pattern must match here, nothing is
consumed. -/
def mLookahead {α : Type} (inner : (Str → Option Unit) → Str → Option Unit)
    (k : Str → Option α) (s : Str) : Option α :=
  match inner (fun _ => some ()) s with
  | some _ => k s
  | none => none

/-- Scan of `RegExp.prototype.exec` (no `g`, no `y`): try the pattern at index 0,
then 1, ..., then at the end of the input; the first success wins.  The flag
tells the pattern whether it is tried at index 0. -/
def searchFrom {α : Type} (m : Bool → Str → Option α) : Bool → Str → Option α
  | b, [] => m b []
  | b, c :: cs =>
    match m b (c :: cs) with
    | some r => some r
    | none => searchFrom m false cs

/-- Model of `String.prototype.match` with a non-global regular expression. -/
def jsMatch {α : Type} (m : Bool → Str → Option α) (s : Str) : Option α :=
  searchFrom m true s

/-- The text a capture group spanned: from where it started (`start`) to where
the remaining input is `rest`. -/
def captured (start rest : Str) : Str :=
  start.take (start.length - rest.length)

/-! ## The processor -/

/-- The empty-response marker of the issue form. -/
def noResponse : Str := "_No response_".toList

/-- The pattern of `extractValue`,
`### ${fieldName}\s*\n\s*([^\n]+)` with flag `i`; the result is capture 1. -/
def valuePattern (fieldName : Str) (_atStart : Bool) : Str → Option Str :=
  mLitI ("### ".toList ++ fieldName)
    (mStar isWhiteSpace
      (mChar isNewline
        (mStar isWhiteSpace
          (fun start => mPlus (fun c => !isNewline c) (fun rest => some (captured start rest)) start))))

/-- The pattern of `extractMultilineValue`,
`### ${fieldName}\s*\n\s*([\s\S]*?)(?=\n### |$)` with flag `i`; the result is
capture 1. -/
def multilinePattern (fieldName : Str) (_atStart : Bool) : Str → Option Str :=
  mLitI ("### ".toList ++ fieldName)
    (mStar isWhiteSpace
      (mChar isNewline
        (mStar isWhiteSpace
          (fun start =>
            mLazyStar (fun _ => true)
              (mLookahead
                (fun k s =>
                  match mLitI "\n### ".toList k s with
                  | some r => some r
                  | none => mEnd k s)
                (fun rest => some (captured start rest)))
              start))))

/-- Method `extractValue`: `match ? match[1].trim() : ''`. -/
def extractValue (issueBody fieldName : Str) : Str :=
  match jsMatch (valuePattern fieldName) issueBody with
  | some m1 => trim m1
  | none => []

/-- Method `extractMultilineValue`: `match ? match[1].trim() : ''`. -/
def extractMultilineValue (issueBody fieldName : Str) : Str :=
  match jsMatch (multilinePattern fieldName) issueBody with
  | some m1 => trim m1
  | none => []

/-- Model of `s.replace(/^<marker>\s*/, '')` for a one-character marker: the
pattern can only match at index 0, and what it matched is removed. -/
def stripMarker (marker : Char) (s : Str) : Str :=
  match jsMatch (fun atStart =>
      mBegin atStart (mChar (fun c => c == marker) (mStar isWhiteSpace (fun rest => some rest)))) s with
  | some rest => rest
  | none => s

/-- Method `extractCategories`. -/
def extractCategories (issueBody : Str) : List Str :=
  let categoriesSection := extractMultilineValue issueBody "Categories".toList
  if categoriesSection.isEmpty then []
  else
    (splitLines categoriesSection).foldl
      (fun categories line =>
        let trimmed := trim line
        if !trimmed.isEmpty && !includes trimmed noResponse
            && !includes trimmed "Select the categories".toList then
          let category := trim (stripMarker '*' (stripMarker '-' trimmed))
          if !category.isEmpty then categories ++ [category] else categories
        else categories)
      []

/-- Method `extractAntiFeatures`. -/
def extractAntiFeatures (issueBody : Str) : List Str :=
  let antiFeaturesText := extractMultilineValue issueBody "Anti-Features (Optional)".toList
  if antiFeaturesText.isEmpty || includes antiFeaturesText noResponse then []
  else
    ((splitLines antiFeaturesText).map trim).filter
      (fun line => !line.isEmpty && !includes line noResponse)

/-- The record built by `parseIssueData`. -/
structure SubmissionData where
  appId : Str
  gitUrl : Str
  appName : Str
  description : Str
  categories : List Str
  author : Str
  license : Str
  website : Str
  tracker : Str
  antiFeatures : List Str
  deriving DecidableEq, Repr

/-- Method `parseIssueData`. -/
def parseIssueData (issueBody : Str) : SubmissionData where
  appId := extractValue issueBody "App ID".toList
  gitUrl := extractValue issueBody "GitHub Repository URL".toList
  appName := extractValue issueBody "App Name".toList
  description := extractMultilineValue issueBody "App Description".toList
  categories := extractCategories issueBody
  author := extractValue issueBody "Author Name (Optional)".toList
  license := extractValue issueBody "License (Optional)".toList
  website := extractValue issueBody "Website (Optional)".toList
  tracker := extractValue issueBody "Issue Tracker (Optional)".toList
  antiFeatures := extractAntiFeatures issueBody

/-- The pattern of the URL check,
`^https:\/\/github\.com\/[^\/]+\/[^\/]+\/?$`. -/
def gitUrlPattern (atStart : Bool) : Str → Option Unit :=
  mBegin atStart
    (mLit "https://github.com/".toList
      (mPlus (fun c => !(c == '/'))
        (mChar (fun c => c == '/')
          (mPlus (fun c => !(c == '/'))
            (mOpt (fun c => c == '/')
              (mEnd (fun _ => some ())))))))

/-- The error pushed for a `gitUrl` of the wrong shape. -/
def invalidUrlError (gitUrl : Str) : Str :=
  "Invalid GitHub URL format: \"".toList ++ gitUrl ++ "\"".toList

/-- Method `validateData`: the `errors` array after the six checks. -/
def validateData (data : SubmissionData) : List Str :=
  let errors : List Str := []
  let errors := if data.appId.isEmpty then errors ++ ["App ID is missing".toList] else errors
  let errors :=
    if data.gitUrl.isEmpty then errors ++ ["GitHub Repository URL is missing".toList] else errors
  let errors := if data.appName.isEmpty then errors ++ ["App Name is missing".toList] else errors
  let errors :=
    if data.description.isEmpty then errors ++ ["Description is missing".toList] else errors
  let errors :=
    if data.categories.length == 0 then
      errors ++ ["At least one category must be selected".toList]
    else errors
  let errors :=
    if !data.gitUrl.isEmpty && (jsMatch gitUrlPattern data.gitUrl).isNone then
      errors ++ [invalidUrlError data.gitUrl]
    else errors
  errors

/-- The presence test of the optional fields:
`data.f && !data.f.includes('_No response_')`. -/
def isProvided (f : Str) : Bool := !f.isEmpty && !includes f noResponse

/-- Method `generateYamlEntry`. -/
def generateYamlEntry (data : SubmissionData) : Str :=
  let yamlEntry := data.appId ++ ":\n".toList
  let yamlEntry := yamlEntry ++ ("  git: ".toList ++ data.gitUrl ++ "\n".toList)
  let yamlEntry := yamlEntry ++ ("  name: \"".toList ++ data.appName ++ "\"\n".toList)
  let yamlEntry := yamlEntry ++ "  description: |\n".toList
  let yamlEntry :=
    (splitLines data.description).foldl
      (fun acc line => acc ++ ("    ".toList ++ line ++ "\n".toList)) yamlEntry
  let yamlEntry :=
    if data.categories.length > 0 then
      data.categories.foldl
        (fun acc category => acc ++ ("    - ".toList ++ category ++ "\n".toList))
        (yamlEntry ++ "  categories:\n".toList)
    else yamlEntry
  let yamlEntry :=
    if isProvided data.author then
      yamlEntry ++ ("  author: \"".toList ++ data.author ++ "\"\n".toList)
    else yamlEntry
  let yamlEntry :=
    if isProvided data.license then
      yamlEntry ++ ("  license: \"".toList ++ data.license ++ "\"\n".toList)
    else yamlEntry
  let yamlEntry :=
    if isProvided data.website then
      yamlEntry ++ ("  website: ".toList ++ data.website ++ "\n".toList)
    else yamlEntry
  let yamlEntry :=
    if isProvided data.tracker then
      yamlEntry ++ ("  tracker: ".toList ++ data.tracker ++ "\n".toList)
    else yamlEntry
  let yamlEntry :=
    if data.antiFeatures.length > 0 then
      data.antiFeatures.foldl
        (fun acc feature => acc ++ ("    - ".toList ++ feature ++ "\n".toList))
        (yamlEntry ++ "  anti_features:\n".toList)
    else yamlEntry
  yamlEntry

/-! ## The repository host and the workflow

The host (`this.github.rest`) is an abstract capability: every call is recorded
in a trace, and the host answers a call, given the trace up to and including
that call, with a value or with a thrown error.  Every call of the script
carries the same `owner` and `repo` of the context; they are left out of the
records.  File contents cross the host boundary base64-encoded
(`Buffer.from(..).toString('base64')` and back); the records hold the text.
`Date.now()` is the parameter `now`. -/

/-- An error thrown by a host call. -/
structure HostError where
  status : Nat
  message : Str
  deriving DecidableEq, Repr

/-- A call to the host, with the parameters the script passes. -/
inductive HostCall where
  | getContent (path : Str)
  | getBranch (branch : Str)
  | createRef (ref sha : Str)
  | createOrUpdateFileContents (path message content branch : Str) (sha : Option Str)
  | pullsCreate (title head base body : Str)
  | createComment (issueNumber : Nat) (body : Str)
  | addLabels (issueNumber : Nat) (labels : List Str)
  deriving DecidableEq, Repr

/-- The value of an awaited call or method: what it returned, or the error it
threw. -/
inductive Outcome (α : Type) where
  | ok (value : α)
  | error (err : HostError)
  deriving DecidableEq, Repr

/-- The `data` of a successful `repos.getContent`: decoded content and `sha`. -/
structure FileData where
  content : Str
  sha : Str
  deriving DecidableEq, Repr

/-- The host: the answer to each kind of call, given the trace up to and
including that call.  `getBranch` answers `data.commit.sha`, `pullsCreate`
answers `data.number`. -/
structure Host where
  getContent : List HostCall → Outcome FileData
  getBranch : List HostCall → Outcome Str
  createRef : List HostCall → Outcome Unit
  createOrUpdateFileContents : List HostCall → Outcome Unit
  pullsCreate : List HostCall → Outcome Nat
  createComment : List HostCall → Outcome Unit
  addLabels : List HostCall → Outcome Unit

/-- The part of `context` the script reads: `issue.number`, `issue.body`,
`issue.user.login` and `payload.repository.default_branch`. -/
structure Context where
  issueNumber : Nat
  issueBody : Str
  userLogin : Str
  defaultBranch : Option Str

/-- The value or error of a method, and the trace after it. -/
abbrev Run (α : Type) := Outcome α × List HostCall

/-- Decimal rendering of a number inside a template literal. -/
def decimal (n : Nat) : Str := Nat.toDigits 10 n

/-- Model of `Array.prototype.join`. -/
def joinWith (sep : Str) (items : List Str) : Str := List.intercalate sep items

/-- Method `commentError`. -/
def commentError (host : Host) (ctx : Context) (message : Str) (trace : List HostCall) :
    Run Unit :=
  let trace := trace ++ [HostCall.createComment ctx.issueNumber message]
  (host.createComment trace, trace)

/-- Method `checkForDuplicate`: the `catch` turns every error of the read into
`false`. -/
def checkForDuplicate (host : Host) (appId : Str) (trace : List HostCall) : Run Bool :=
  let trace := trace ++ [HostCall.getContent "apps.yaml".toList]
  match host.getContent trace with
  | Outcome.ok data => (Outcome.ok (includes data.content (appId ++ ":".toList)), trace)
  | Outcome.error _ => (Outcome.ok false, trace)

/-- Method `generatePRDescription`. -/
def generatePRDescription (ctx : Context) (data : SubmissionData) : Str :=
  let description :=
    "## New App Submission: ".toList ++ data.appName ++
    "\n\nThis PR was automatically generated from issue #".toList ++ decimal ctx.issueNumber ++
    ".\n\n### App Details\n- **App ID:** `".toList ++ data.appId ++
    "`\n- **Name:** ".toList ++ data.appName ++
    "\n- **Repository:** ".toList ++ data.gitUrl ++
    "\n- **Categories:** ".toList ++ joinWith ", ".toList data.categories
  let description :=
    if isProvided data.author then description ++ ("\n- **Author:** ".toList ++ data.author)
    else description
  let description :=
    if isProvided data.license then description ++ ("\n- **License:** ".toList ++ data.license)
    else description
  let description :=
    if isProvided data.website then description ++ ("\n- **Website:** ".toList ++ data.website)
    else description
  let description :=
    if isProvided data.tracker then
      description ++ ("\n- **Issue Tracker:** ".toList ++ data.tracker)
    else description
  let description := description ++ ("\n\n### Description\n".toList ++ data.description)
  let description :=
    if data.antiFeatures.length > 0 then
      description ++ ("\n\n### Anti-Features\n".toList ++
        joinWith "\n".toList (data.antiFeatures.map (fun f => "- ".toList ++ f)))
    else description
  description ++
    ("\n\n---\n\n**Submitted by:** @".toList ++ ctx.userLogin ++
     "\n**Original Issue:** #".toList ++ decimal ctx.issueNumber ++
     ("\n\n### Review Checklist\n- [ ] App is FOSS\n" ++
      "- [ ] GitHub repository has releases with APK files\n" ++
      "- [ ] App metadata is accurate\n- [ ] Categories are appropriate\n" ++
      "- [ ] No duplicate app ID\n\n/cc @").toList ++ ctx.userLogin)

/-- The commit message built in `createPullRequest`. -/
def commitMessage (ctx : Context) (data : SubmissionData) : Str :=
  "Add ".toList ++ data.appName ++ " (".toList ++ data.appId ++
  ") to F-Droid repository\n\nAutomatically generated from issue #".toList ++
  decimal ctx.issueNumber ++ "\n\nApp details:\n- Name: ".toList ++ data.appName ++
  "\n- Repository: ".toList ++ data.gitUrl ++
  "\n- Categories: ".toList ++ joinWith ", ".toList data.categories

/-- Method `createPullRequest`; the result is `pr.number`. -/
def createPullRequest (host : Host) (ctx : Context) (now : Nat) (data : SubmissionData)
    (yamlEntry : Str) (trace : List HostCall) : Run Nat :=
  let branchName := "add-app-".toList ++ data.appId ++ "-".toList ++ decimal now
  let trace := trace ++ [HostCall.getContent "apps.yaml".toList]
  let current : Str × Option Str :=
    match host.getContent trace with
    | Outcome.ok fileData => (fileData.content, some fileData.sha)
    | Outcome.error _ => ([], none)
  let appsYamlContent := current.1
  let appsYamlSha := current.2
  let newAppsYamlContent := appsYamlContent ++ "\n".toList ++ yamlEntry
  let defaultBranchName :=
    match ctx.defaultBranch with
    | some name => if name.isEmpty then "main".toList else name
    | none => "main".toList
  let trace := trace ++ [HostCall.getBranch defaultBranchName]
  match host.getBranch trace with
  | Outcome.error err => (Outcome.error err, trace)
  | Outcome.ok defaultBranchSha =>
    let trace := trace ++ [HostCall.createRef ("refs/heads/".toList ++ branchName) defaultBranchSha]
    match host.createRef trace with
    | Outcome.error err => (Outcome.error err, trace)
    | Outcome.ok _ =>
      let sha : Option Str :=
        match appsYamlSha with
        | some s => if s.isEmpty then none else some s
        | none => none
      let trace := trace ++ [HostCall.createOrUpdateFileContents "apps.yaml".toList
        (commitMessage ctx data) newAppsYamlContent branchName sha]
      match host.createOrUpdateFileContents trace with
      | Outcome.error err => (Outcome.error err, trace)
      | Outcome.ok _ =>
        let trace := trace ++ [HostCall.pullsCreate
          ("Add ".toList ++ data.appName ++ " to F-Droid repository".toList)
          branchName defaultBranchName (generatePRDescription ctx data)]
        match host.pullsCreate trace with
        | Outcome.error err => (Outcome.error err, trace)
        | Outcome.ok prNumber => (Outcome.ok prNumber, trace)

/-- The body of the comment posted by `commentSuccess`. -/
def successMessage (prNumber : Nat) : Str :=
  ("Submission Processed Successfully!\n      \nYour app submission has been processed " ++
   "and a Pull Request has been created: #").toList ++ decimal prNumber ++
  ("\n\n**Next Steps:**\n1. The maintainers will review your submission\n" ++
   "2. You may be asked to make changes if needed\n" ++
   "3. Once approved, your app will be available in the F-Droid repository!\n\n" ++
   "You can track the progress in PR #").toList ++ decimal prNumber ++
  ".\n\nThank you for contributing to the FOSS BU Community!".toList

/-- Method `commentSuccess`. -/
def commentSuccess (host : Host) (ctx : Context) (prNumber : Nat) (trace : List HostCall) :
    Run Unit :=
  let trace := trace ++ [HostCall.createComment ctx.issueNumber (successMessage prNumber)]
  (host.createComment trace, trace)

/-- Method `addLabels`. -/
def addLabels (host : Host) (ctx : Context) (trace : List HostCall) : Run Unit :=
  let trace := trace ++
    [HostCall.addLabels ctx.issueNumber ["processed".toList, "pending-review".toList]]
  (host.addLabels trace, trace)

/-- The body of the comment posted when validation fails. -/
def validationMessage (errors : List Str) : Str :=
  "Submission Error\n\nSome required fields are missing or invalid:\n".toList ++
  joinWith "\n".toList (errors.map (fun error => "- ".toList ++ error)) ++
  "\n\nPlease edit your issue to provide all required information.".toList

/-- The body of the comment posted for a duplicate. -/
def duplicateMessage (appId : Str) : Str :=
  "App Already Exists\n\nAn app with the ID \"".toList ++ appId ++
  ("\" already exists in the repository.\n" ++
   "Please choose a different App ID or check if this is a duplicate submission.").toList

/-- The body of the comment posted by the `catch` of `process`. -/
def processingErrorMessage (message : Str) : Str :=
  ("Processing Error\n\nAn error occurred while processing your submission. " ++
   "Please try again or contact the maintainers.\n\nError details: ").toList ++ message

/-- The `try` block of `process`. -/
def processSteps (host : Host) (ctx : Context) (now : Nat) : Run Unit :=
  let data := parseIssueData ctx.issueBody
  let errors := validateData data
  if errors.length > 0 then commentError host ctx (validationMessage errors) []
  else
    match checkForDuplicate host data.appId [] with
    | (Outcome.error err, trace) => (Outcome.error err, trace)
    | (Outcome.ok isDuplicate, trace) =>
      if isDuplicate then commentError host ctx (duplicateMessage data.appId) trace
      else
        let yamlEntry := generateYamlEntry data
        match createPullRequest host ctx now data yamlEntry trace with
        | (Outcome.error err, trace) => (Outcome.error err, trace)
        | (Outcome.ok prNumber, trace) =>
          match commentSuccess host ctx prNumber trace with
          | (Outcome.error err, trace) => (Outcome.error err, trace)
          | (Outcome.ok _, trace) => addLabels host ctx trace

/-- Method `process`: the `try` block, and on a thrown error the
`Processing Error` comment of the `catch`. -/
def process (host : Host) (ctx : Context) (now : Nat) : Run Unit :=
  match processSteps host ctx now with
  | (Outcome.ok u, trace) => (Outcome.ok u, trace)
  | (Outcome.error err, trace) =>
    commentError host ctx (processingErrorMessage err.message) trace

/-! ## Specification-side vocabulary -/

/-- The five missing-field messages, in the order of the checks. -/
def missingFieldErrors : List Str :=
  ["App ID is missing".toList, "GitHub Repository URL is missing".toList,
   "App Name is missing".toList, "Description is missing".toList,
   "At least one category must be selected".toList]

/-- The missing-field messages a record calls for: one per missing required
field, in the order appId, gitUrl, appName, description, categories. -/
def expectedMissing (d : SubmissionData) : List Str :=
  (if d.appId = [] then ["App ID is missing".toList] else []) ++
  (if d.gitUrl = [] then ["GitHub Repository URL is missing".toList] else []) ++
  (if d.appName = [] then ["App Name is missing".toList] else []) ++
  (if d.description = [] then ["Description is missing".toList] else []) ++
  (if d.categories = [] then ["At least one category must be selected".toList] else [])

/-- An error entry is a URL-format error when it starts with the fixed text of
that message. -/
def isUrlError (e : Str) : Bool := "Invalid GitHub URL format: ".toList.isPrefixOf e

/-- The documented URL shape: `https://github.com/` + owner + `/` + repo +
optional single trailing `/`, owner and repo non-empty and free of `/`. -/
def GitHubRepoUrl (g : Str) : Prop :=
  ∃ owner repo : Str, owner ≠ [] ∧ repo ≠ [] ∧ '/' ∉ owner ∧ '/' ∉ repo ∧
    (g = "https://github.com/".toList ++ owner ++ '/' :: repo ∨
     g = "https://github.com/".toList ++ owner ++ '/' :: repo ++ ['/'])

/-- The text of a list block: one line `<indent><item>\n` per item, in list
order. -/
def renderLines (indent : Str) (items : List Str) : Str :=
  (items.map (fun item => indent ++ item ++ "\n".toList)).flatten

/-- The documented rendering of the mandatory part of an entry: key line, git,
quoted name, block description, then the categories list when non-empty. -/
def entryCore (d : SubmissionData) : Str :=
  d.appId ++ ":\n  git: ".toList ++ d.gitUrl ++ "\n  name: \"".toList ++ d.appName ++
    "\"\n  description: |\n".toList ++
    renderLines "    ".toList (d.description.splitOn '\n') ++
    (if d.categories = [] then []
     else "  categories:\n".toList ++ renderLines "    - ".toList d.categories)

/-- The documented line of a double-quoted optional field. -/
def quotedLine (key value : Str) : Str :=
  "  ".toList ++ key ++ ": \"".toList ++ value ++ "\"\n".toList

/-- The documented line of a bare (unquoted) optional field. -/
def bareLine (key value : Str) : Str :=
  "  ".toList ++ key ++ ": ".toList ++ value ++ "\n".toList

/-- The segment of the output owed to the author field. -/
def authorSegment (d : SubmissionData) : Str :=
  if isProvided d.author then quotedLine "author".toList d.author else []

/-- The segment of the output owed to the license field. -/
def licenseSegment (d : SubmissionData) : Str :=
  if isProvided d.license then quotedLine "license".toList d.license else []

/-- The segment of the output owed to the website field. -/
def websiteSegment (d : SubmissionData) : Str :=
  if isProvided d.website then bareLine "website".toList d.website else []

/-- The segment of the output owed to the tracker field. -/
def trackerSegment (d : SubmissionData) : Str :=
  if isProvided d.tracker then bareLine "tracker".toList d.tracker else []

/-- The segment of the output owed to the anti-features list. -/
def antiFeaturesSegment (d : SubmissionData) : Str :=
  if d.antiFeatures = [] then []
  else "  anti_features:\n".toList ++ renderLines "    - ".toList d.antiFeatures

/-! ## Sample records -/

/-- The well-formed submission of the end-to-end example. -/
def sampleRecord : SubmissionData where
  appId := "sample".toList
  gitUrl := "https://github.com/acme/sample".toList
  appName := "Sample App".toList
  description := "<description text>".toList
  categories := ["Utilities".toList]
  author := []
  license := []
  website := []
  tracker := []
  antiFeatures := []

/-- The sample submission with a query string appended to its repository URL. -/
def queryStringRecord : SubmissionData :=
  { sampleRecord with gitUrl := "https://github.com/foo/bar?tab=readme".toList }

/-- A record whose author merely mentions the empty-response marker. -/
def sentinelInsideRecord : SubmissionData :=
  { sampleRecord with author := "see _No response_".toList }

/-- The sample submission with every optional field filled in. -/
def fullRecord : SubmissionData :=
  { sampleRecord with
    author := "Jane Doe".toList
    license := "MIT".toList
    website := "https://acme.example".toList
    tracker := "https://github.com/acme/sample/issues".toList
    antiFeatures := ["Ads".toList, "Tracking".toList] }

/-! ## The documented fragment format -/

/-- The field keys of an entry. -/
def fieldKeys : List Str :=
  ["git".toList, "name".toList, "description".toList, "categories".toList, "author".toList,
   "license".toList, "website".toList, "tracker".toList, "anti_features".toList]

/-- The keys whose value is a double-quoted scalar. -/
def quotedKeys : List Str := ["name".toList, "author".toList, "license".toList]

/-- A 4-space-indented block or list line. -/
def isBlockLine (l : Str) : Bool := "    ".toList.isPrefixOf l

/-- A 2-space-indented `field: value` line (`field:` alone for a field whose value
is the list that follows). -/
def isFieldLine (l : Str) : Bool :=
  fieldKeys.any (fun key =>
    ("  ".toList ++ key ++ ": ".toList).isPrefixOf l || l == "  ".toList ++ key ++ ":".toList)

/-- The field lines that open a block: the block-literal description and the two
list fields. -/
def opensBlock (l : Str) : Bool :=
  l == "  description: |".toList || l == "  categories:".toList || l == "  anti_features:".toList

/-- Every line is a field line or a block line, and a block line only occurs
under a field that opens a block (`inBlock` tells whether one is open). -/
def wellNested : Bool → List Str → Bool
  | _, [] => true
  | inBlock, l :: ls =>
    if isBlockLine l then inBlock && wellNested true ls
    else if isFieldLine l then wellNested (opensBlock l) ls
    else false

/-- Scan of the text after an opening `"`: the first `"` that is not escaped by
a backslash must be the last character (`escaped` tells whether the previous
character was an escaping backslash). -/
def closesAtEnd : Bool → Str → Bool
  | _, [] => false
  | true, _ :: rest => closesAtEnd false rest
  | false, c :: rest =>
    if c == '"' then rest.isEmpty
    else if c == '\\' then closesAtEnd true rest
    else closesAtEnd false rest

/-- A well-formed double-quoted scalar: an opening `"`, then text without an
unescaped `"`, then the closing `"` and nothing more. -/
def wellQuoted (v : Str) : Bool :=
  match v with
  | c :: rest => c == '"' && closesAtEnd false rest
  | [] => false

/-- On a line of a quoted key, the value is a well-formed double-quoted scalar. -/
def quotedValueOk (l : Str) : Bool :=
  quotedKeys.all (fun key =>
    !(("  ".toList ++ key ++ ": ".toList).isPrefixOf l) || wellQuoted (l.drop (key.length + 4)))

/-- The documented format of a rendered entry: split at line feeds, the text is
the key line `<appId>:`, then field and block lines properly nested with
well-formed quoted values, and it ends with a line feed. -/
def validFragment (appId out : Str) : Bool :=
  match out.splitOn '\n' with
  | first :: rest =>
    first == appId ++ ":".toList && rest.getLast? == some [] &&
      wellNested false rest.dropLast && rest.dropLast.all quotedValueOk
  | [] => false

/-- The sample submission with a double quote inside the app name. -/
def quoteInNameRecord : SubmissionData :=
  { sampleRecord with appName := "My \"Best\" App".toList }

/-- The sample submission with a line feed inside the repository name. -/
def newlineInUrlRecord : SubmissionData :=
  { sampleRecord with gitUrl := "https://github.com/acme/sample\nextra".toList }

/-- The lines of a rendered entry after the key line. -/
def entryRestLines (d : SubmissionData) : List Str :=
  ["  git: ".toList ++ d.gitUrl, "  name: \"".toList ++ d.appName ++ "\"".toList,
   "  description: |".toList] ++
  (d.description.splitOn '\n').map (fun l => "    ".toList ++ l) ++
  (if d.categories = [] then []
   else "  categories:".toList :: d.categories.map (fun c => "    - ".toList ++ c)) ++
  (if isProvided d.author then ["  author: \"".toList ++ d.author ++ "\"".toList] else []) ++
  (if isProvided d.license then ["  license: \"".toList ++ d.license ++ "\"".toList] else []) ++
  (if isProvided d.website then ["  website: ".toList ++ d.website] else []) ++
  (if isProvided d.tracker then ["  tracker: ".toList ++ d.tracker] else []) ++
  (if d.antiFeatures = [] then []
   else "  anti_features:".toList :: d.antiFeatures.map (fun f => "    - ".toList ++ f))

/-- Every suffix of a well-nested sequence of groups is accepted in any state. -/
def NestedFrom (ls : List Str) : Prop := ∀ b, wellNested b ls = true

/-- The single-line fields of a record hold no line feed. -/
def SingleLineFields (d : SubmissionData) : Prop :=
  '\n' ∉ d.appId ∧ '\n' ∉ d.gitUrl ∧ '\n' ∉ d.appName ∧ (∀ c ∈ d.categories, '\n' ∉ c) ∧
  '\n' ∉ d.author ∧ '\n' ∉ d.license ∧ '\n' ∉ d.website ∧ '\n' ∉ d.tracker ∧
  (∀ f ∈ d.antiFeatures, '\n' ∉ f)

/-- The fields rendered between double quotes hold neither `"` nor a backslash. -/
def PlainQuotedFields (d : SubmissionData) : Prop :=
  ('"' ∉ d.appName ∧ '\\' ∉ d.appName) ∧ ('"' ∉ d.author ∧ '\\' ∉ d.author) ∧
  ('"' ∉ d.license ∧ '\\' ∉ d.license)

/-! ## Vocabulary of the extractors -/

/-- The text starts with `lit`, letters compared case-insensitively. -/
def startsWithI (lit s : Str) : Bool :=
  (s.take lit.length).map canonicalize == lit.map canonicalize

/-- The text starts with the heading `### <fieldName>`, letters compared
case-insensitively. -/
def startsWithHeading (fieldName s : Str) : Bool :=
  startsWithI ("### ".toList ++ fieldName) s

/-- A line is the heading `### <fieldName>` (case-insensitively, surrounding
whitespace aside). -/
def isHeadingLine (fieldName l : Str) : Bool :=
  (trim l).map canonicalize == ("### ".toList ++ fieldName).map canonicalize

/-- Single-line extraction as documented: the trimmed content of the line
immediately following the first heading line, the empty string when there is no
heading line. -/
def lineAfterHeading (body fieldName : Str) : Str :=
  match (splitLines body).dropWhile (fun l => !isHeadingLine fieldName l) with
  | _ :: next :: _ => trim next
  | _ => []

/-- A form body as the issue form writes it: a blank line between a heading and
its value. -/
def formStyleBody : Str := "### App ID\n\ncom.example.app\n\n### App Name\n\nExample\n".toList

/-- A body whose App ID value region is blank. -/
def blankAppIdBody : Str :=
  ("### App ID\n\n### GitHub Repository URL\nhttps://github.com/acme/sample\n\n" ++
   "### App Name\nSample App\n\n### App Description\nA sample.\n\n" ++
   "### Categories\n- Utilities\n").toList

/-- A body whose App Description value region is blank. -/
def blankDescriptionBody : Str :=
  "### App Description\n\n### Categories\n- Games\n".toList

/-- The pieces of a body whose `App ID` heading is written in lower case and
followed by a blank line: text before the heading, the heading as written, the
whitespace after it, the value line, and the remainder. -/
def lowerCaseBodyParts : Str × Str × Str × Str × Str :=
  ("Please add my app.\n".toList, "### app id".toList, " \n\n".toList,
   "com.example.app  ".toList, "\n\n### App Name\nExample\n".toList)

/-- A body without any heading. -/
def noHeadingBody : Str := "Please add my app.\ncom.example.app\n".toList

/-! ## Vocabulary of the round-trip properties -/

/-- No line of the text begins with `### `. -/
def NoHeadingLine (s : Str) : Prop := ∀ l ∈ s.splitOn '\n', ¬ "### ".toList <+: l

/-- A description with an internal blank line. -/
def twoParagraphs : Str := "First paragraph.\n\nSecond paragraph.".toList

/-- A line of a Categories region: a name behind a `-` or `*` marker, a blank
line, or the empty-response marker. -/
inductive RegionLine where
  | dash (name : Str)
  | star (name : Str)
  | blank (ws : Str)
  | sentinel
  deriving DecidableEq, Repr

/-- The text of a region line. -/
def RegionLine.text : RegionLine → Str
  | RegionLine.dash name => "- ".toList ++ name
  | RegionLine.star name => "* ".toList ++ name
  | RegionLine.blank ws => ws
  | RegionLine.sentinel => noResponse

/-- The category name a region line stands for, if any. -/
def RegionLine.name? : RegionLine → Option Str
  | RegionLine.dash name => some name
  | RegionLine.star name => some name
  | RegionLine.blank _ => none
  | RegionLine.sentinel => none

/-- Whether a region line is a blank line. -/
def RegionLine.isBlank : RegionLine → Bool
  | RegionLine.blank _ => true
  | _ => false

/-- The text of a region: its lines joined by line feeds. -/
def regionText (ls : List RegionLine) : Str := joinWith "\n".toList (ls.map RegionLine.text)

/-- The category names of a region, in order. -/
def regionNames (ls : List RegionLine) : List Str := ls.filterMap RegionLine.name?

/-- An admissible category name: non-empty, without line feed, without leading
or trailing whitespace, not beginning with `-` or `*`, and containing neither
`_No response_` nor `Select the categories`. -/
def CategoryName (n : Str) : Prop :=
  n ≠ [] ∧ '\n' ∉ n ∧ (∀ c ∈ n.head?, isWhiteSpace c = false) ∧
  (∀ c ∈ n.getLast?, isWhiteSpace c = false) ∧
  (∀ c ∈ n.head?, c ≠ '-' ∧ c ≠ '*') ∧
  ¬ noResponse <:+: n ∧ ¬ "Select the categories".toList <:+: n

/-- A well-formed region line: an admissible name behind the marker, or a blank
line of whitespace without line feed, or the marker of an empty response. -/
def RegionLine.WellFormed : RegionLine → Prop
  | RegionLine.dash name => CategoryName name
  | RegionLine.star name => CategoryName name
  | RegionLine.blank ws => (∀ c ∈ ws, isWhiteSpace c = true) ∧ '\n' ∉ ws
  | RegionLine.sentinel => True

/-- What one line of the Categories section contributes (the body of the loop of
`extractCategories`). -/
def categoryOfLine (line : Str) : List Str :=
  let trimmed := trim line
  if !trimmed.isEmpty && !includes trimmed noResponse
      && !includes trimmed "Select the categories".toList then
    let category := trim (stripMarker '*' (stripMarker '-' trimmed))
    if !category.isEmpty then [category] else []
  else []

/-- The region of the round-trip example: `- Games`, `- Tools`, `_No response_`. -/
def gamesToolsRegion : List RegionLine :=
  [RegionLine.dash "Games".toList, RegionLine.dash "Tools".toList, RegionLine.sentinel]

/-- A body whose Anti-Features block holds a feature and the empty-response
marker. -/
def adsSentinelBody : Str :=
  "### App ID\nsample\n\n### Anti-Features (Optional)\n\nAds\n_No response_\n".toList

/-- Anti-features extraction as documented: nothing when the block is empty or is
exactly the marker, else the trimmed lines without the blank lines and without
the marker lines. -/
def antiFeaturesAsDocumented (t : Str) : List Str :=
  if t = [] ∨ t = noResponse then []
  else ((splitLines t).map trim).filter (fun line => decide (line ≠ []) && decide (line ≠ noResponse))

/-! ## Vocabulary of the workflow properties -/

/-- The kind of a host call. -/
inductive CallKind where
  | getContent
  | getBranch
  | createRef
  | createOrUpdateFileContents
  | pullsCreate
  | createComment
  | addLabels
  deriving DecidableEq, Repr

/-- The kind of a recorded call. -/
def HostCall.kind : HostCall → CallKind
  | HostCall.getContent _ => CallKind.getContent
  | HostCall.getBranch _ => CallKind.getBranch
  | HostCall.createRef _ _ => CallKind.createRef
  | HostCall.createOrUpdateFileContents _ _ _ _ _ => CallKind.createOrUpdateFileContents
  | HostCall.pullsCreate _ _ _ _ => CallKind.pullsCreate
  | HostCall.createComment _ _ => CallKind.createComment
  | HostCall.addLabels _ _ => CallKind.addLabels

/-- The file writes of a trace, in order: content, branch and version token. -/
def fileWrites (trace : List HostCall) : List (Str × Str × Option Str) :=
  trace.filterMap (fun call =>
    match call with
    | HostCall.createOrUpdateFileContents _ _ content branch sha => some (content, branch, sha)
    | _ => none)

/-- In `content`, which ends with the entry `e`, the line immediately before `e`
is an empty line: the text before `e` is a single line feed or ends with two. -/
def blankLineBefore (content e : Str) : Bool :=
  e.isSuffixOf content &&
    ((content.take (content.length - e.length)) == "\n".toList ||
      "\n\n".toList.isSuffixOf (content.take (content.length - e.length)))

/-- The default branch name used by `createPullRequest`:
`payload.repository.default_branch || 'main'`. -/
def defaultBranchOf (ctx : Context) : Str :=
  match ctx.defaultBranch with
  | some name => if name.isEmpty then "main".toList else name
  | none => "main".toList

/-- The branch name built by `createPullRequest`. -/
def branchNameOf (data : SubmissionData) (now : Nat) : Str :=
  "add-app-".toList ++ data.appId ++ "-".toList ++ decimal now

/-- A host on which every call succeeds: `apps.yaml` has the given content, the
default branch is at `deadbeef`, the pull request gets number 42. -/
def okHost (content : Str) : Host where
  getContent := fun _ => Outcome.ok ⟨content, "abc123".toList⟩
  getBranch := fun _ => Outcome.ok "deadbeef".toList
  createRef := fun _ => Outcome.ok ()
  createOrUpdateFileContents := fun _ => Outcome.ok ()
  pullsCreate := fun _ => Outcome.ok 42
  createComment := fun _ => Outcome.ok ()
  addLabels := fun _ => Outcome.ok ()

/-- A host on which posting a comment always fails. -/
def commentFailHost : Host :=
  { okHost [] with createComment := fun _ => Outcome.error ⟨503, "Service Unavailable".toList⟩ }

/-- A host on which reading `apps.yaml` fails with a server error (the file may
well exist), and every other call succeeds. -/
def readFailHost : Host :=
  { okHost [] with getContent := fun _ => Outcome.error ⟨500, "Internal Server Error".toList⟩ }

/-- A well-formed submission for the app `myapp`. -/
def myappContext : Context where
  issueNumber := 7
  issueBody :=
    ("### App ID\n\nmyapp\n\n### GitHub Repository URL\n\nhttps://github.com/acme/myapp\n\n" ++
     "### App Name\n\nMy App\n\n### App Description\n\nAn app.\n\n" ++
     "### Categories\n\n- Utilities\n").toList
  userLogin := "alice".toList
  defaultBranch := some "main".toList

/-- A submission without any form field. -/
def emptyFormContext : Context where
  issueNumber := 8
  issueBody := "Please add my app.".toList
  userLogin := "bob".toList
  defaultBranch := some "main".toList

/-- A configuration file whose only key is `myapp`. -/
def myappFile : Str := "myapp:\n  git: https://github.com/acme/myapp\n  name: \"My App\"\n".toList

/-- A configuration file that does not end with a line feed. -/
def unterminatedFile : Str := "other:\n  git: https://github.com/acme/other".toList

/-- A host on which every call succeeds. -/
def Host.AllSucceed (host : Host) : Prop :=
  (∀ trace, ∃ file, host.getContent trace = Outcome.ok file) ∧
  (∀ trace, ∃ sha, host.getBranch trace = Outcome.ok sha) ∧
  (∀ trace, host.createRef trace = Outcome.ok ()) ∧
  (∀ trace, host.createOrUpdateFileContents trace = Outcome.ok ()) ∧
  (∀ trace, ∃ number, host.pullsCreate trace = Outcome.ok number) ∧
  (∀ trace, host.createComment trace = Outcome.ok ()) ∧
  (∀ trace, host.addLabels trace = Outcome.ok ())

/-- The version token passed to the write: `if (appsYamlSha)`. -/
def shaParam (sha : Str) : Option Str := if sha.isEmpty then none else some sha

/-- The run made the calls of the given kinds and then, as its last call, posted
the `Processing Error` comment that carries the message of `err`. -/
def EndsWithProcessingError (ctx : Context) (err : HostError) (kinds : List CallKind)
    (trace : List HostCall) : Prop :=
  trace.map HostCall.kind = kinds ++ [CallKind.createComment] ∧
  trace.getLast? =
    some (HostCall.createComment ctx.issueNumber (processingErrorMessage err.message))

/-- A host on which creating the branch fails, and every other call succeeds. -/
def refFailHost : Host :=
  { okHost [] with createRef := fun _ => Outcome.error ⟨422, "Reference already exists".toList⟩ }

/-! ## Lemmas on the matcher -/

theorem mChar_isSome {α : Type} (p : Char → Bool) (k : Str → Option α) (s : Str) :
    (mChar p k s).isSome ↔ ∃ c t, s = c :: t ∧ p c = true ∧ (k t).isSome := by
  cases s with
  | nil => simp [mChar]
  | cons c cs =>
    by_cases h : p c = true
    · simp only [mChar, h, if_true]
      constructor
      · intro hk
        exact ⟨c, cs, rfl, h, hk⟩
      · rintro ⟨x, t, hx, -, hk⟩
        simp at hx
        obtain ⟨rfl, rfl⟩ := hx
        exact hk
    · simp only [mChar, h]
      constructor
      · intro hk
        simp at hk
      · rintro ⟨x, t, hx, hpx, -⟩
        simp at hx
        obtain ⟨rfl, rfl⟩ := hx
        exact absurd hpx h

theorem mLit_isSome {α : Type} (lit : Str) (k : Str → Option α) (s : Str) :
    (mLit lit k s).isSome ↔ ∃ t, s = lit ++ t ∧ (k t).isSome := by
  induction lit generalizing s with
  | nil => simp [mLit]
  | cons p ps ih =>
    simp only [mLit, mChar_isSome, ih]
    constructor
    · rintro ⟨c, t, rfl, hc, u, rfl, hu⟩
      have : c = p := by simpa using hc
      exact ⟨u, by simp [this], hu⟩
    · rintro ⟨t, rfl, ht⟩
      exact ⟨p, ps ++ t, by simp, by simp, t, rfl, ht⟩

theorem mStar_isSome {α : Type} (p : Char → Bool) (k : Str → Option α) (s : Str) :
    (mStar p k s).isSome ↔ ∃ a t, s = a ++ t ∧ (∀ c ∈ a, p c = true) ∧ (k t).isSome := by
  induction s with
  | nil =>
    simp only [mStar]
    constructor
    · intro h
      exact ⟨[], [], rfl, by simp, h⟩
    · rintro ⟨a, t, h, -, hk⟩
      have ht : t = [] := by
        have := congrArg List.length h
        simp at this
        exact List.length_eq_zero.mp (by omega)
      simpa [ht] using hk
  | cons c cs ih =>
    by_cases hp : p c = true
    · simp only [mStar, hp, if_true]
      constructor
      · intro h
        cases hm : mStar p k cs with
        | some r =>
          have : (mStar p k cs).isSome := by simp [hm]
          obtain ⟨a, t, rfl, ha, hk⟩ := ih.mp this
          exact ⟨c :: a, t, rfl, by simpa [hp] using ha, hk⟩
        | none =>
          rw [hm] at h
          exact ⟨[], c :: cs, rfl, by simp, h⟩
      · rintro ⟨a, t, h, ha, hk⟩
        cases a with
        | nil =>
          simp at h
          subst h
          cases hm : mStar p k cs with
          | some r => simp
          | none => simpa using hk
        | cons x a =>
          simp at h
          obtain ⟨rfl, rfl⟩ := h
          have : (mStar p k (a ++ t)).isSome :=
            ih.mpr ⟨a, t, rfl, fun y hy => ha y (List.mem_cons_of_mem _ hy), hk⟩
          cases hm : mStar p k (a ++ t) with
          | some r => simp
          | none => simp [hm] at this
    · simp only [mStar, hp]
      constructor
      · intro h
        exact ⟨[], c :: cs, rfl, by simp, by simpa using h⟩
      · rintro ⟨a, t, h, ha, hk⟩
        cases a with
        | nil =>
          simp at h
          subst h
          simpa using hk
        | cons x a =>
          simp at h
          obtain ⟨rfl, rfl⟩ := h
          exact absurd (ha c (List.mem_cons_self _ _)) hp

theorem mPlus_isSome {α : Type} (p : Char → Bool) (k : Str → Option α) (s : Str) :
    (mPlus p k s).isSome ↔
      ∃ a t, a ≠ [] ∧ s = a ++ t ∧ (∀ c ∈ a, p c = true) ∧ (k t).isSome := by
  simp only [mPlus, mChar_isSome, mStar_isSome]
  constructor
  · rintro ⟨c, t, rfl, hc, a, u, rfl, ha, hk⟩
    exact ⟨c :: a, u, by simp, rfl, by simpa [hc] using ha, hk⟩
  · rintro ⟨a, t, hne, rfl, ha, hk⟩
    cases a with
    | nil => exact absurd rfl hne
    | cons x a =>
      exact ⟨x, a ++ t, rfl, ha x (List.mem_cons_self _ _), a, t, rfl,
        fun y hy => ha y (List.mem_cons_of_mem _ hy), hk⟩

theorem mOpt_isSome {α : Type} (p : Char → Bool) (k : Str → Option α) (s : Str) :
    (mOpt p k s).isSome ↔ (mChar p k s).isSome ∨ (k s).isSome := by
  unfold mOpt
  cases h : mChar p k s <;> simp

theorem mEnd_isSome {α : Type} (k : Str → Option α) (s : Str) :
    (mEnd k s).isSome ↔ s = [] ∧ (k []).isSome := by
  cases s <;> simp [mEnd]

theorem searchFrom_mBegin_false {α : Type} (k : Str → Option α) (s : Str) :
    searchFrom (fun b => mBegin b k) false s = none := by
  induction s with
  | nil => simp [searchFrom, mBegin]
  | cons c cs ih => simp [searchFrom, mBegin, ih]

/-- A pattern that opens with `^` is only ever matched at index 0. -/
theorem jsMatch_mBegin {α : Type} (k : Str → Option α) (s : Str) :
    jsMatch (fun b => mBegin b k) s = k s := by
  cases s with
  | nil => simp [jsMatch, searchFrom, mBegin]
  | cons c cs =>
    simp only [jsMatch, searchFrom, mBegin, if_true, searchFrom_mBegin_false]
    cases k (c :: cs) <;> rfl

theorem mLitI_eq {α : Type} (lit : Str) (k : Str → Option α) (s : Str) :
    mLitI lit k s = if startsWithI lit s then k (s.drop lit.length) else none := by
  induction lit generalizing s with
  | nil => simp [mLitI, startsWithI]
  | cons p ps ih =>
    cases s with
    | nil => simp [mLitI, mChar, startsWithI]
    | cons c cs =>
      simp only [mLitI, mChar, ih, startsWithI, List.length_cons, List.take_succ_cons,
        List.map_cons, List.drop_succ_cons]
      by_cases hc : (canonicalize c == canonicalize p) = true
      · have hc' : canonicalize c = canonicalize p := by simpa using hc
        simp [hc']
      · have hc' : canonicalize c ≠ canonicalize p := by simpa using hc
        simp [hc']

theorem searchFrom_cons {α : Type} (m : Bool → Str → Option α) (b : Bool) (c : Char) (cs : Str) :
    searchFrom m b (c :: cs) =
      match m b (c :: cs) with
      | some r => some r
      | none => searchFrom m false cs := rfl

theorem mStar_cons_pos {α : Type} (p : Char → Bool) (k : Str → Option α) (c : Char) (cs : Str)
    (hp : p c = true) :
    mStar p k (c :: cs) =
      match mStar p k cs with
      | some r => some r
      | none => k (c :: cs) := by
  simp [mStar, hp]

theorem searchFrom_none {α : Type} (f : Str → Option α) (s : Str) (b : Bool)
    (h : ∀ i ≤ s.length, f (s.drop i) = none) : searchFrom (fun _ => f) b s = none := by
  induction s generalizing b with
  | nil => simpa [searchFrom] using h 0 (Nat.le_refl _)
  | cons c cs ih =>
    have h0 : f (c :: cs) = none := by simpa using h 0 (Nat.zero_le _)
    simp only [searchFrom, h0]
    exact ih false (fun i hi => by simpa using h (i + 1) (by simpa using hi))

theorem searchFrom_skip {α : Type} (f : Str → Option α) (pre s : Str) (b : Bool)
    (h : ∀ i < pre.length, f ((pre ++ s).drop i) = none) :
    searchFrom (fun _ => f) b (pre ++ s) = searchFrom (fun _ => f) (b && pre.isEmpty) s := by
  induction pre generalizing b with
  | nil => simp
  | cons c cs ih =>
    have h0 : f (c :: (cs ++ s)) = none := by simpa using h 0 (by simp)
    rw [List.cons_append, searchFrom_cons, h0]
    simp only []
    rw [ih false (fun i hi => by simpa using h (i + 1) (by simpa using hi))]
    simp

theorem searchFrom_hit {α : Type} (f : Str → Option α) (s : Str) (b : Bool) (r : α)
    (h : f s = some r) : searchFrom (fun _ => f) b s = some r := by
  cases s with
  | nil => simpa [searchFrom] using h
  | cons c cs => simp [searchFrom, h]

/-- Greedy star: a success further in wins over giving characters back. -/
theorem mStar_append_some {α : Type} (p : Char → Bool) (k : Str → Option α) (a t : Str) (r : α)
    (ha : ∀ c ∈ a, p c = true) (h : mStar p k t = some r) : mStar p k (a ++ t) = some r := by
  induction a with
  | nil => simpa using h
  | cons c cs ih =>
    have hc := ha c (List.mem_cons_self _ _)
    rw [List.cons_append, mStar_cons_pos _ _ _ _ hc,
      ih (fun x hx => ha x (List.mem_cons_of_mem _ hx))]

/-- Greedy star stops at the first character outside the class. -/
theorem mStar_stop {α : Type} (p : Char → Bool) (k : Str → Option α) (t : Str)
    (ht : ∀ c ∈ t.head?, p c = false) : mStar p k t = k t := by
  cases t with
  | nil => rfl
  | cons c cs =>
    have : p c = false := ht c (by simp)
    simp [mStar, this]

/-- Greedy star under a continuation that always succeeds takes the longest run. -/
theorem mStar_total {α : Type} (p : Char → Bool) (g : Str → α) (s : Str) :
    mStar p (fun rest => some (g rest)) s = some (g (s.dropWhile p)) := by
  induction s with
  | nil => rfl
  | cons c cs ih =>
    by_cases hc : p c = true
    · simp [mStar, hc, ih, List.dropWhile]
    · simp [mStar, hc, List.dropWhile]

/-- With no line feed in the run of class characters `a` and none at the head of
what follows, `\s*\n` finds nothing to match. -/
theorem mStar_newline_none {α : Type} (k : Str → Option α) (a t : Str)
    (ha : ∀ c ∈ a, isWhiteSpace c = true) (hn : '\n' ∉ a)
    (ht : ∀ c ∈ t.head?, isWhiteSpace c = false) :
    mStar isWhiteSpace (mChar isNewline k) (a ++ t) = none := by
  induction a with
  | nil =>
    rw [List.nil_append, mStar_stop _ _ _ ht]
    cases t with
    | nil => rfl
    | cons c cs =>
      have hw : isWhiteSpace c = false := ht c (by simp)
      have : isNewline c = false := by
        cases hc : isNewline c
        · rfl
        · have : c = '\n' := by simpa [isNewline] using hc
          rw [this] at hw
          exact absurd hw (by decide)
      simp [mChar, this]
  | cons c cs ih =>
    have hc := ha c (List.mem_cons_self _ _)
    have hne : isNewline c = false := by
      have : c ≠ '\n' := fun e => hn (e ▸ List.mem_cons_self _ _)
      simpa [isNewline] using this
    rw [List.cons_append, mStar_cons_pos _ _ _ _ hc,
      ih (fun x hx => ha x (List.mem_cons_of_mem _ hx)) (fun hm => hn (List.mem_cons_of_mem _ hm))]
    simp [mChar, hne]

/-! ## Validator -/

theorem count_optional (c : Prop) [Decidable c] (x m : Str) :
    List.count m (if c then [x] else []) = if c then (if x = m then 1 else 0) else 0 := by
  by_cases h : c <;> by_cases hx : x = m <;> simp [h, hx, List.count_cons]

/-- The URL pattern matches exactly the strings of the documented shape. -/
theorem gitUrlPattern_isSome_iff (g : Str) :
    (jsMatch gitUrlPattern g).isSome ↔ GitHubRepoUrl g := by
  unfold gitUrlPattern GitHubRepoUrl
  rw [jsMatch_mBegin]
  simp only [mLit_isSome, mPlus_isSome, mChar_isSome, mOpt_isSome, mEnd_isSome]
  constructor
  · rintro ⟨t, rfl, owner, t1, hne, rfl, howner, c, t2, rfl, hc, repo, t3, hrne, rfl, hrepo, h⟩
    have hc' : c = '/' := by simpa using hc
    subst hc'
    have ho : '/' ∉ owner := fun hm => by simpa using howner _ hm
    have hr : '/' ∉ repo := fun hm => by simpa using hrepo _ hm
    refine ⟨owner, repo, hne, hrne, ho, hr, ?_⟩
    rcases h with ⟨c2, t4, rfl, hc2, rfl, -⟩ | ⟨rfl, -⟩
    · have hc2' : c2 = '/' := by simpa using hc2
      subst hc2'
      right
      simp
    · left
      simp
  · rintro ⟨owner, repo, hne, hrne, ho, hr, h⟩
    have howner : ∀ c ∈ owner, (!(c == '/')) = true := by
      intro c hc
      have : c ≠ '/' := fun e => ho (e ▸ hc)
      simpa using this
    have hrepo : ∀ c ∈ repo, (!(c == '/')) = true := by
      intro c hc
      have : c ≠ '/' := fun e => hr (e ▸ hc)
      simpa using this
    rcases h with rfl | rfl
    · exact ⟨owner ++ '/' :: repo, by simp, owner, '/' :: repo, hne, rfl, howner, '/', repo, rfl,
        by simp, repo, [], hrne, by simp, hrepo, Or.inr ⟨rfl, by simp⟩⟩
    · exact ⟨owner ++ '/' :: repo ++ ['/'], by simp, owner, '/' :: repo ++ ['/'], hne, by simp,
        howner, '/', repo ++ ['/'], by simp, by simp, repo, ['/'], hrne, rfl, hrepo,
        Or.inl ⟨'/', [], rfl, by simp, rfl, by simp⟩⟩

theorem isUrlError_invalidUrlError (g : Str) : isUrlError (invalidUrlError g) = true := by
  simp [isUrlError, invalidUrlError, List.isPrefixOf]

/-- The result of `validateData` in closed form: the missing-field messages
called for, then the URL error when the URL check fires. -/
theorem validateData_eq (d : SubmissionData) :
    validateData d = expectedMissing d ++
      (if !d.gitUrl.isEmpty && (jsMatch gitUrlPattern d.gitUrl).isNone then
        [invalidUrlError d.gitUrl] else []) := by
  unfold validateData expectedMissing
  simp only [List.isEmpty_iff, List.nil_append, beq_iff_eq, List.length_eq_zero]
  by_cases h1 : d.appId = [] <;> by_cases h2 : d.gitUrl = [] <;>
    by_cases h3 : d.appName = [] <;> by_cases h4 : d.description = [] <;>
    by_cases h5 : d.categories = [] <;>
    simp [h1, h2, h3, h4, h5] <;> split <;> simp

theorem expectedMissing_filter_missing (d : SubmissionData) :
    (expectedMissing d).filter (fun e => decide (e ∈ missingFieldErrors)) = expectedMissing d := by
  rw [List.filter_eq_self]
  intro e he
  unfold expectedMissing at he
  simp only [List.mem_append] at he
  have : e ∈ missingFieldErrors := by
    unfold missingFieldErrors
    rcases he with (((he | he) | he) | he) | he <;> split at he <;> simp_all
  simpa using this

theorem expectedMissing_filter_url (d : SubmissionData) :
    (expectedMissing d).filter isUrlError = [] := by
  rw [List.filter_eq_nil_iff]
  intro e he
  unfold expectedMissing at he
  simp only [List.mem_append] at he
  rcases he with (((he | he) | he) | he) | he <;> split at he <;>
    simp at he <;> subst he <;> decide

theorem invalidUrlError_not_missing (g : Str) : invalidUrlError g ∉ missingFieldErrors := by
  simp [invalidUrlError, missingFieldErrors]

/-- C1: the missing-field entries of `validateData` are exactly one per missing
required field and none per present one, in the order appId, gitUrl, appName,
description, categories (as a list and by count of each message); a record with
all five missing yields exactly the five entries in that order. -/
theorem validateData_missing_field_entries (d : SubmissionData) :
    (validateData d).filter (fun e => decide (e ∈ missingFieldErrors)) = expectedMissing d ∧
    (validateData d).count "App ID is missing".toList = (if d.appId = [] then 1 else 0) ∧
    (validateData d).count "GitHub Repository URL is missing".toList
      = (if d.gitUrl = [] then 1 else 0) ∧
    (validateData d).count "App Name is missing".toList = (if d.appName = [] then 1 else 0) ∧
    (validateData d).count "Description is missing".toList
      = (if d.description = [] then 1 else 0) ∧
    (validateData d).count "At least one category must be selected".toList
      = (if d.categories = [] then 1 else 0) ∧
    validateData { d with appId := [], gitUrl := [], appName := [], description := [],
                          categories := [] } = missingFieldErrors := by
  refine ⟨?_, ?_, ?_, ?_, ?_, ?_, ?_⟩
  · rw [validateData_eq, List.filter_append, expectedMissing_filter_missing]
    split
    · simp [invalidUrlError_not_missing]
    · simp
  · rw [validateData_eq]; unfold expectedMissing
    simp [List.count_append, count_optional, invalidUrlError]
  · rw [validateData_eq]; unfold expectedMissing
    simp [List.count_append, count_optional, invalidUrlError]
  · rw [validateData_eq]; unfold expectedMissing
    simp [List.count_append, count_optional, invalidUrlError]
  · rw [validateData_eq]; unfold expectedMissing
    simp [List.count_append, count_optional, invalidUrlError]
  · rw [validateData_eq]; unfold expectedMissing
    simp [List.count_append, count_optional, invalidUrlError]
  · rw [validateData_eq]
    simp [expectedMissing, missingFieldErrors]

theorem validateData_filter_url (d : SubmissionData) :
    (validateData d).filter isUrlError =
      (if !d.gitUrl.isEmpty && (jsMatch gitUrlPattern d.gitUrl).isNone then
        [invalidUrlError d.gitUrl] else []) := by
  rw [validateData_eq, List.filter_append, expectedMissing_filter_url]
  split <;> simp [isUrlError_invalidUrlError]

theorem urlCheck_fires_iff (g : Str) :
    (!g.isEmpty && (jsMatch gitUrlPattern g).isNone) = true ↔ (g ≠ [] ∧ ¬ GitHubRepoUrl g) := by
  rw [← gitUrlPattern_isSome_iff]
  cases jsMatch gitUrlPattern g <;> cases g <;> simp

/-- C2: the URL-format entries of `validateData` are the single entry
`Invalid GitHub URL format: "<gitUrl>"` exactly when gitUrl is non-empty and not
of the documented shape, and there is none otherwise; `https://github.com/foo/bar`
and `https://github.com/foo/bar/` produce no URL error, `https://github.com/foo`,
`https://gitlab.com/foo/bar` and `https://github.com/foo/bar/extra` produce it. -/
theorem validateData_url_error (d : SubmissionData) :
    ((validateData d).filter isUrlError = [invalidUrlError d.gitUrl]
        ↔ (d.gitUrl ≠ [] ∧ ¬ GitHubRepoUrl d.gitUrl)) ∧
    ((validateData d).filter isUrlError = [] ↔ ¬ (d.gitUrl ≠ [] ∧ ¬ GitHubRepoUrl d.gitUrl)) ∧
    (invalidUrlError d.gitUrl ∈ validateData d ↔ (d.gitUrl ≠ [] ∧ ¬ GitHubRepoUrl d.gitUrl)) ∧
    invalidUrlError d.gitUrl
      = "Invalid GitHub URL format: \"".toList ++ d.gitUrl ++ "\"".toList ∧
    (validateData { d with gitUrl := "https://github.com/foo/bar".toList }).filter isUrlError
      = [] ∧
    (validateData { d with gitUrl := "https://github.com/foo/bar/".toList }).filter isUrlError
      = [] ∧
    (validateData { d with gitUrl := "https://github.com/foo".toList }).filter isUrlError
      = ["Invalid GitHub URL format: \"https://github.com/foo\"".toList] ∧
    (validateData { d with gitUrl := "https://gitlab.com/foo/bar".toList }).filter isUrlError
      = ["Invalid GitHub URL format: \"https://gitlab.com/foo/bar\"".toList] ∧
    (validateData { d with gitUrl := "https://github.com/foo/bar/extra".toList }).filter isUrlError
      = ["Invalid GitHub URL format: \"https://github.com/foo/bar/extra\"".toList] := by
  have key := urlCheck_fires_iff d.gitUrl
  refine ⟨?_, ?_, ?_, rfl, ?_, ?_, ?_, ?_, ?_⟩
  · rw [validateData_filter_url, ← key]
    split <;> simp_all
  · rw [validateData_filter_url, ← key]
    split <;> simp_all
  · rw [← key]
    constructor
    · intro hmem
      have : invalidUrlError d.gitUrl ∈ (validateData d).filter isUrlError :=
        List.mem_filter.mpr ⟨hmem, isUrlError_invalidUrlError _⟩
      rw [validateData_filter_url] at this
      split at this
      · assumption
      · simp at this
    · intro h
      have : invalidUrlError d.gitUrl ∈ (validateData d).filter isUrlError := by
        rw [validateData_filter_url, if_pos h]
        simp
      exact (List.mem_filter.mp this).1
  all_goals
    rw [validateData_filter_url]
    rfl

/-- C3 (as stated, refuted): the record with gitUrl
`https://github.com/foo/bar?tab=readme` passes `validateData` although its URL
carries a query string. -/
theorem validateData_accepts_query_string :
    validateData queryStringRecord = [] ∧
    queryStringRecord.gitUrl = "https://github.com/foo/bar?tab=readme".toList ∧
    '?' ∈ queryStringRecord.gitUrl := by
  decide

/-- C3 (amended): for every record that passes `validateData`, gitUrl is
`https://github.com/<owner>/<repo>` with an optional trailing `/`, owner and repo
non-empty and free of `/`. -/
theorem validateData_pass_gitUrl_shape (d : SubmissionData) (h : validateData d = []) :
    GitHubRepoUrl d.gitUrl := by
  rw [validateData_eq] at h
  have h' := (List.append_eq_nil.mp h)
  have hne : d.gitUrl ≠ [] := by
    intro he
    have := h'.1
    simp [expectedMissing, he] at this
  by_contra hshape
  have hf := (urlCheck_fires_iff d.gitUrl).mpr ⟨hne, hshape⟩
  have := h'.2
  rw [if_pos hf] at this
  simp at this

theorem validateData_pass_gitUrl_shape_witness :
    validateData sampleRecord = [] ∧ GitHubRepoUrl sampleRecord.gitUrl :=
  ⟨by decide, validateData_pass_gitUrl_shape sampleRecord (by decide)⟩

/-! ## Renderer -/

theorem splitLines_eq_splitOn (s : Str) : splitLines s = s.splitOn '\n' := by
  induction s with
  | nil => rfl
  | cons c cs ih =>
    simp only [List.splitOn] at ih ⊢
    rw [List.splitOnP_cons, splitLines, ih]
    by_cases h : (c == '\n') = true
    · simp [h]
    · simp only [h]
      cases hs : List.splitOnP (fun x => x == '\n') cs with
      | nil => exact absurd hs (List.splitOnP_ne_nil _ _)
      | cons l ls => simp [List.modifyHead]

theorem foldl_append_lines (indent : Str) (items : List Str) (init : Str) :
    items.foldl (fun acc item => acc ++ (indent ++ item ++ "\n".toList)) init
      = init ++ renderLines indent items := by
  induction items generalizing init with
  | nil => simp [renderLines]
  | cons x xs ih =>
    rw [List.foldl_cons, ih]
    simp [renderLines]

theorem includes_iff_infix (s sub : Str) : includes s sub = true ↔ sub <:+: s := by
  induction s with
  | nil => simp [includes, List.isEmpty_iff]
  | cons c cs ih =>
    rw [includes, Bool.or_eq_true, ih, List.isPrefixOf_iff_prefix, List.infix_cons_iff]

theorem isProvided_iff (f : Str) :
    isProvided f = true ↔ f ≠ [] ∧ ¬ noResponse <:+: f := by
  unfold isProvided
  rw [Bool.and_eq_true, Bool.not_eq_true', Bool.not_eq_true', ← includes_iff_infix]
  cases f <;> simp

theorem ite_append_acc (c : Prop) [Decidable c] (acc x : Str) :
    (if c then acc ++ x else acc) = acc ++ (if c then x else []) := by
  split <;> simp

theorem ite_length_append_acc (l : List Str) (acc x y : Str) :
    (if l.length > 0 then acc ++ x ++ y else acc) = acc ++ (if l = [] then [] else x ++ y) := by
  cases l <;> simp

/-- The result of `generateYamlEntry` in closed form. -/
theorem generateYamlEntry_eq (d : SubmissionData) :
    generateYamlEntry d = entryCore d ++
      (if isProvided d.author then quotedLine "author".toList d.author else []) ++
      (if isProvided d.license then quotedLine "license".toList d.license else []) ++
      (if isProvided d.website then bareLine "website".toList d.website else []) ++
      (if isProvided d.tracker then bareLine "tracker".toList d.tracker else []) ++
      (if d.antiFeatures = [] then []
       else "  anti_features:\n".toList ++ renderLines "    - ".toList d.antiFeatures) := by
  have e1 : ":\n  git: ".toList = ":\n".toList ++ "  git: ".toList := rfl
  have e2 : "\n  name: \"".toList = "\n".toList ++ "  name: \"".toList := rfl
  have e3 : "\"\n  description: |\n".toList = "\"\n".toList ++ "  description: |\n".toList := rfl
  have e4 : "  author: \"".toList = "  ".toList ++ "author".toList ++ ": \"".toList := rfl
  have e5 : "  license: \"".toList = "  ".toList ++ "license".toList ++ ": \"".toList := rfl
  have e6 : "  website: ".toList = "  ".toList ++ "website".toList ++ ": ".toList := rfl
  have e7 : "  tracker: ".toList = "  ".toList ++ "tracker".toList ++ ": ".toList := rfl
  unfold generateYamlEntry
  simp only [foldl_append_lines, ite_length_append_acc, ite_length_append_acc, ite_append_acc]
  unfold entryCore quotedLine bareLine
  simp only [splitLines_eq_splitOn, e1, e2, e3, e4, e5, e6, e7, List.append_assoc]

theorem isProvided_nil : isProvided [] = false := rfl

theorem quotedLine_ne_nil (key value : Str) : quotedLine key value ≠ [] := by
  simp [quotedLine]

theorem bareLine_ne_nil (key value : Str) : bareLine key value ≠ [] := by
  simp [bareLine]

/-- Two outputs that only differ in one optional segment differ exactly when
the segment is non-empty. -/
theorem segment_differs_iff (pre seg post : Str) :
    pre ++ seg ++ post ≠ pre ++ [] ++ post ↔ seg ≠ [] := by
  simp [List.append_assoc]

/-- With every optional field empty only the mandatory part is rendered. -/
theorem generateYamlEntry_core (d : SubmissionData)
    (ha : d.author = []) (hl : d.license = []) (hw : d.website = []) (ht : d.tracker = [])
    (hf : d.antiFeatures = []) : generateYamlEntry d = entryCore d := by
  rw [generateYamlEntry_eq, ha, hl, hw, ht, hf]
  simp [isProvided_nil]

/-- C4: with author, license, website, tracker and antiFeatures empty,
`generateYamlEntry` returns the key line, the git line, the quoted name line and
the `description: |` line, then one 4-space-indented line per '\n'-separated line
of the description, then, when categories is non-empty, `categories:` and one
`    - <category>` line per category in list order; the sample record renders to
the six-line entry of the end-to-end example. -/
theorem generateYamlEntry_without_optional (d : SubmissionData)
    (ha : d.author = []) (hl : d.license = []) (hw : d.website = []) (ht : d.tracker = [])
    (hf : d.antiFeatures = []) :
    generateYamlEntry d =
      d.appId ++ ":\n  git: ".toList ++ d.gitUrl ++ "\n  name: \"".toList ++ d.appName ++
        "\"\n  description: |\n".toList ++
        renderLines "    ".toList (d.description.splitOn '\n') ++
        (if d.categories = [] then []
         else "  categories:\n".toList ++ renderLines "    - ".toList d.categories) ∧
    generateYamlEntry sampleRecord =
      ("sample:\n  git: https://github.com/acme/sample\n  name: \"Sample App\"\n" ++
       "  description: |\n    <description text>\n  categories:\n    - Utilities\n").toList := by
  constructor
  · rw [generateYamlEntry_core d ha hl hw ht hf]
    rfl
  · decide

theorem generateYamlEntry_without_optional_witness :
    sampleRecord.author = [] ∧ sampleRecord.license = [] ∧ sampleRecord.website = [] ∧
    sampleRecord.tracker = [] ∧ sampleRecord.antiFeatures = [] ∧
    generateYamlEntry sampleRecord =
      sampleRecord.appId ++ ":\n  git: ".toList ++ sampleRecord.gitUrl ++
        "\n  name: \"".toList ++ sampleRecord.appName ++ "\"\n  description: |\n".toList ++
        renderLines "    ".toList (sampleRecord.description.splitOn '\n') ++
        (if sampleRecord.categories = [] then []
         else "  categories:\n".toList ++ renderLines "    - ".toList sampleRecord.categories) :=
  ⟨rfl, rfl, rfl, rfl, rfl,
    (generateYamlEntry_without_optional sampleRecord rfl rfl rfl rfl rfl).1⟩

/-- C5 (as stated, refuted): an author that is non-empty and different from the
marker `_No response_`, but mentions it, gets no line: the output equals the
output for the same record with author empty. -/
theorem generateYamlEntry_sentinel_inside :
    sentinelInsideRecord.author = "see _No response_".toList ∧
    sentinelInsideRecord.author ≠ [] ∧ sentinelInsideRecord.author ≠ noResponse ∧
    generateYamlEntry sentinelInsideRecord
      = generateYamlEntry { sentinelInsideRecord with author := [] } := by
  decide

/-- C5 (amended): each optional field among author, license, website, tracker gets
its line exactly when it is non-empty and does not contain `_No response_`: with
the other fields fixed the output is a fixed text, the field's line or nothing,
and a fixed text; and the output differs from the output with the field set to
the empty string exactly when the field is non-empty and does not contain the
marker. -/
theorem generateYamlEntry_optional_fields (d : SubmissionData) :
    (∃ pre post : Str, ∀ a : Str, generateYamlEntry { d with author := a } =
        pre ++ (if a ≠ [] ∧ ¬ noResponse <:+: a then "  author: \"".toList ++ a ++ "\"\n".toList
                else []) ++ post) ∧
    (∃ pre post : Str, ∀ a : Str, generateYamlEntry { d with license := a } =
        pre ++ (if a ≠ [] ∧ ¬ noResponse <:+: a then "  license: \"".toList ++ a ++ "\"\n".toList
                else []) ++ post) ∧
    (∃ pre post : Str, ∀ a : Str, generateYamlEntry { d with website := a } =
        pre ++ (if a ≠ [] ∧ ¬ noResponse <:+: a then "  website: ".toList ++ a ++ "\n".toList
                else []) ++ post) ∧
    (∃ pre post : Str, ∀ a : Str, generateYamlEntry { d with tracker := a } =
        pre ++ (if a ≠ [] ∧ ¬ noResponse <:+: a then "  tracker: ".toList ++ a ++ "\n".toList
                else []) ++ post) ∧
    (generateYamlEntry d ≠ generateYamlEntry { d with author := [] }
        ↔ (d.author ≠ [] ∧ ¬ noResponse <:+: d.author)) ∧
    (generateYamlEntry d ≠ generateYamlEntry { d with license := [] }
        ↔ (d.license ≠ [] ∧ ¬ noResponse <:+: d.license)) ∧
    (generateYamlEntry d ≠ generateYamlEntry { d with website := [] }
        ↔ (d.website ≠ [] ∧ ¬ noResponse <:+: d.website)) ∧
    (generateYamlEntry d ≠ generateYamlEntry { d with tracker := [] }
        ↔ (d.tracker ≠ [] ∧ ¬ noResponse <:+: d.tracker)) := by
  have hif : ∀ (a x : Str), (if a ≠ [] ∧ ¬ noResponse <:+: a then x else ([] : Str))
      = (if isProvided a = true then x else []) := by
    intro a x
    by_cases h : isProvided a = true
    · rw [if_pos h, if_pos ((isProvided_iff a).mp h)]
    · rw [if_neg h, if_neg (fun h' => h ((isProvided_iff a).mpr h'))]
  refine ⟨⟨entryCore d,
      licenseSegment d ++ websiteSegment d ++ trackerSegment d ++ antiFeaturesSegment d,
      fun a => ?_⟩,
    ⟨entryCore d ++ authorSegment d,
      websiteSegment d ++ trackerSegment d ++ antiFeaturesSegment d, fun a => ?_⟩,
    ⟨entryCore d ++ authorSegment d ++ licenseSegment d,
      trackerSegment d ++ antiFeaturesSegment d, fun a => ?_⟩,
    ⟨entryCore d ++ authorSegment d ++ licenseSegment d ++ websiteSegment d,
      antiFeaturesSegment d, fun a => ?_⟩,
    ?_, ?_, ?_, ?_⟩
  · rw [generateYamlEntry_eq, hif]
    simp only [List.append_assoc, entryCore, quotedLine, authorSegment, licenseSegment,
      websiteSegment, trackerSegment, antiFeaturesSegment]
    rfl
  · rw [generateYamlEntry_eq, hif]
    simp only [List.append_assoc, entryCore, quotedLine, authorSegment, licenseSegment,
      websiteSegment, trackerSegment, antiFeaturesSegment]
    rfl
  · rw [generateYamlEntry_eq, hif]
    simp only [List.append_assoc, entryCore, bareLine, authorSegment, licenseSegment,
      websiteSegment, trackerSegment, antiFeaturesSegment]
    rfl
  · rw [generateYamlEntry_eq, hif]
    simp only [List.append_assoc, entryCore, bareLine, authorSegment, licenseSegment,
      websiteSegment, trackerSegment, antiFeaturesSegment]
    rfl
  · have h1 : generateYamlEntry d = (entryCore d) ++ authorSegment d ++ (licenseSegment d ++ websiteSegment d ++ trackerSegment d ++ antiFeaturesSegment d) := by
      rw [generateYamlEntry_eq]
      simp only [List.append_assoc, authorSegment, licenseSegment, websiteSegment,
        trackerSegment, antiFeaturesSegment]
    have h2 : generateYamlEntry { d with author := [] } = (entryCore d) ++ [] ++ (licenseSegment d ++ websiteSegment d ++ trackerSegment d ++ antiFeaturesSegment d) := by
      rw [generateYamlEntry_eq]
      simp only [List.append_assoc, authorSegment, licenseSegment, websiteSegment,
        trackerSegment, antiFeaturesSegment, isProvided_nil, entryCore]
      rfl
    rw [h1, h2, segment_differs_iff, ← isProvided_iff]
    unfold authorSegment
    by_cases h : isProvided d.author = true <;> simp [h, quotedLine_ne_nil]
  · have h1 : generateYamlEntry d = (entryCore d ++ authorSegment d) ++ licenseSegment d ++ (websiteSegment d ++ trackerSegment d ++ antiFeaturesSegment d) := by
      rw [generateYamlEntry_eq]
      simp only [List.append_assoc, authorSegment, licenseSegment, websiteSegment,
        trackerSegment, antiFeaturesSegment]
    have h2 : generateYamlEntry { d with license := [] } = (entryCore d ++ authorSegment d) ++ [] ++ (websiteSegment d ++ trackerSegment d ++ antiFeaturesSegment d) := by
      rw [generateYamlEntry_eq]
      simp only [List.append_assoc, authorSegment, licenseSegment, websiteSegment,
        trackerSegment, antiFeaturesSegment, isProvided_nil, entryCore]
      rfl
    rw [h1, h2, segment_differs_iff, ← isProvided_iff]
    unfold licenseSegment
    by_cases h : isProvided d.license = true <;> simp [h, quotedLine_ne_nil]
  · have h1 : generateYamlEntry d = (entryCore d ++ authorSegment d ++ licenseSegment d) ++ websiteSegment d ++ (trackerSegment d ++ antiFeaturesSegment d) := by
      rw [generateYamlEntry_eq]
      simp only [List.append_assoc, authorSegment, licenseSegment, websiteSegment,
        trackerSegment, antiFeaturesSegment]
    have h2 : generateYamlEntry { d with website := [] } = (entryCore d ++ authorSegment d ++ licenseSegment d) ++ [] ++ (trackerSegment d ++ antiFeaturesSegment d) := by
      rw [generateYamlEntry_eq]
      simp only [List.append_assoc, authorSegment, licenseSegment, websiteSegment,
        trackerSegment, antiFeaturesSegment, isProvided_nil, entryCore]
      rfl
    rw [h1, h2, segment_differs_iff, ← isProvided_iff]
    unfold websiteSegment
    by_cases h : isProvided d.website = true <;> simp [h, bareLine_ne_nil]
  · have h1 : generateYamlEntry d = (entryCore d ++ authorSegment d ++ licenseSegment d ++ websiteSegment d) ++ trackerSegment d ++ (antiFeaturesSegment d) := by
      rw [generateYamlEntry_eq]
      simp only [List.append_assoc, authorSegment, licenseSegment, websiteSegment,
        trackerSegment, antiFeaturesSegment]
    have h2 : generateYamlEntry { d with tracker := [] } = (entryCore d ++ authorSegment d ++ licenseSegment d ++ websiteSegment d) ++ [] ++ (antiFeaturesSegment d) := by
      rw [generateYamlEntry_eq]
      simp only [List.append_assoc, authorSegment, licenseSegment, websiteSegment,
        trackerSegment, antiFeaturesSegment, isProvided_nil, entryCore]
      rfl
    rw [h1, h2, segment_differs_iff, ← isProvided_iff]
    unfold trackerSegment
    by_cases h : isProvided d.tracker = true <;> simp [h, bareLine_ne_nil]

/-- C6: with author, license, website and tracker all present (non-empty, not
containing the marker) and antiFeatures non-empty, the output is the mandatory
part (id, git, name, description, categories) followed exactly by the quoted
author line, the quoted license line, the bare website line, the bare tracker
line, `anti_features:` and one `    - <feature>` line per anti-feature in list
order. -/
theorem generateYamlEntry_all_optional (d : SubmissionData)
    (ha : d.author ≠ [] ∧ ¬ noResponse <:+: d.author)
    (hl : d.license ≠ [] ∧ ¬ noResponse <:+: d.license)
    (hw : d.website ≠ [] ∧ ¬ noResponse <:+: d.website)
    (ht : d.tracker ≠ [] ∧ ¬ noResponse <:+: d.tracker)
    (hf : d.antiFeatures ≠ []) :
    generateYamlEntry d =
      generateYamlEntry { d with author := [], license := [], website := [], tracker := [],
                                 antiFeatures := [] } ++
      ("  author: \"".toList ++ d.author ++ "\"\n  license: \"".toList ++ d.license ++
        "\"\n  website: ".toList ++ d.website ++ "\n  tracker: ".toList ++ d.tracker ++
        "\n  anti_features:\n".toList ++ renderLines "    - ".toList d.antiFeatures) ∧
    generateYamlEntry { d with author := [], license := [], website := [], tracker := [],
                               antiFeatures := [] } =
      d.appId ++ ":\n  git: ".toList ++ d.gitUrl ++ "\n  name: \"".toList ++ d.appName ++
        "\"\n  description: |\n".toList ++
        renderLines "    ".toList (d.description.splitOn '\n') ++
        (if d.categories = [] then []
         else "  categories:\n".toList ++ renderLines "    - ".toList d.categories) := by
  have hcore : generateYamlEntry _ = entryCore d :=
    generateYamlEntry_core
      { d with author := [], license := [], website := [], tracker := [], antiFeatures := [] }
      rfl rfl rfl rfl rfl
  refine ⟨?_, hcore⟩
  rw [hcore, generateYamlEntry_eq, if_pos ((isProvided_iff _).mpr ha),
    if_pos ((isProvided_iff _).mpr hl), if_pos ((isProvided_iff _).mpr hw),
    if_pos ((isProvided_iff _).mpr ht), if_neg hf]
  have e1 : "\"\n  license: \"".toList = "\"\n".toList ++ "  license: \"".toList := rfl
  have e2 : "\"\n  website: ".toList = "\"\n".toList ++ "  website: ".toList := rfl
  have e3 : "\n  tracker: ".toList = "\n".toList ++ "  tracker: ".toList := rfl
  have e4 : "\n  anti_features:\n".toList = "\n".toList ++ "  anti_features:\n".toList := rfl
  have e5 : "  author: \"".toList = "  ".toList ++ "author".toList ++ ": \"".toList := rfl
  have e6 : "  license: \"".toList = "  ".toList ++ "license".toList ++ ": \"".toList := rfl
  have e7 : "  website: ".toList = "  ".toList ++ "website".toList ++ ": ".toList := rfl
  have e8 : "  tracker: ".toList = "  ".toList ++ "tracker".toList ++ ": ".toList := rfl
  simp only [entryCore, quotedLine, bareLine, e1, e2, e3, e4, e5, e6, e7, e8,
    List.append_assoc]

theorem generateYamlEntry_all_optional_witness :
    (fullRecord.author ≠ [] ∧ ¬ noResponse <:+: fullRecord.author) ∧
    (fullRecord.license ≠ [] ∧ ¬ noResponse <:+: fullRecord.license) ∧
    (fullRecord.website ≠ [] ∧ ¬ noResponse <:+: fullRecord.website) ∧
    (fullRecord.tracker ≠ [] ∧ ¬ noResponse <:+: fullRecord.tracker) ∧
    fullRecord.antiFeatures ≠ [] ∧
    generateYamlEntry fullRecord =
      generateYamlEntry { fullRecord with author := [], license := [], website := [],
                                          tracker := [], antiFeatures := [] } ++
      ("  author: \"".toList ++ fullRecord.author ++ "\"\n  license: \"".toList ++
        fullRecord.license ++ "\"\n  website: ".toList ++ fullRecord.website ++
        "\n  tracker: ".toList ++ fullRecord.tracker ++
        "\n  anti_features:\n".toList ++ renderLines "    - ".toList fullRecord.antiFeatures) :=
  ⟨(isProvided_iff _).mp (by decide), (isProvided_iff _).mp (by decide),
    (isProvided_iff _).mp (by decide), (isProvided_iff _).mp (by decide), by decide,
    (generateYamlEntry_all_optional fullRecord ((isProvided_iff _).mp (by decide))
      ((isProvided_iff _).mp (by decide)) ((isProvided_iff _).mp (by decide))
      ((isProvided_iff _).mp (by decide)) (by decide)).1⟩

/-! ## Format of the rendered entry -/

theorem renderLines_nil (indent : Str) : renderLines indent [] = [] := rfl

theorem renderLines_cons (indent x : Str) (xs : List Str) :
    renderLines indent (x :: xs) = indent ++ x ++ "\n".toList ++ renderLines indent xs := by
  simp [renderLines]

theorem renderLines_append (indent : Str) (xs ys : List Str) :
    renderLines indent (xs ++ ys) = renderLines indent xs ++ renderLines indent ys := by
  simp [renderLines]

theorem renderLines_map (indent : Str) (xs : List Str) :
    renderLines [] (xs.map (fun l => indent ++ l)) = renderLines indent xs := by
  simp [renderLines, Function.comp_def]

/-- The rendered entry is its list of lines, each closed by a line feed. -/
theorem generateYamlEntry_eq_lines (d : SubmissionData) :
    generateYamlEntry d = renderLines [] ((d.appId ++ ":".toList) :: entryRestLines d) := by
  rw [generateYamlEntry_eq]
  unfold entryRestLines entryCore quotedLine bareLine
  simp only [renderLines_cons, renderLines_append, renderLines_map, apply_ite (renderLines []),
    renderLines_nil, List.cons_append, List.nil_append]
  simp [List.append_assoc]

theorem splitLines_ne_nil (s : Str) : splitLines s ≠ [] := by
  rw [splitLines_eq_splitOn]
  exact List.splitOnP_ne_nil _ _

theorem splitLines_line_append (l rest : Str) (h : '\n' ∉ l) :
    splitLines (l ++ '\n' :: rest) = l :: splitLines rest := by
  induction l with
  | nil => simp [splitLines]
  | cons c cs ih =>
    have hc : (c == '\n') = false := by
      have : c ≠ '\n' := fun e => h (e ▸ List.mem_cons_self _ _)
      simpa using this
    have hcs : '\n' ∉ cs := fun hm => h (List.mem_cons_of_mem _ hm)
    simp [splitLines, hc, ih hcs]

theorem splitLines_renderLines (ls : List Str) (h : ∀ l ∈ ls, '\n' ∉ l) :
    splitLines (renderLines [] ls) = ls ++ [[]] := by
  induction ls with
  | nil => rfl
  | cons x xs ih =>
    rw [renderLines_cons]
    have e : ([] : Str) ++ x ++ "\n".toList ++ renderLines [] xs
        = x ++ '\n' :: renderLines [] xs := by simp
    rw [e, splitLines_line_append _ _ (h x (List.mem_cons_self _ _)),
      ih (fun l hl => h l (List.mem_cons_of_mem _ hl))]
    rfl

theorem splitLines_no_newline (s : Str) : ∀ l ∈ splitLines s, '\n' ∉ l := by
  induction s with
  | nil => simp [splitLines]
  | cons c cs ih =>
    by_cases hc : (c == '\n') = true
    · simpa [splitLines, hc] using ih
    · rw [splitLines]
      simp only [hc]
      cases hs : splitLines cs with
      | nil => exact absurd hs (splitLines_ne_nil cs)
      | cons l ls =>
        rw [hs] at ih
        intro x hx
        rcases List.mem_cons.mp hx with rfl | hx
        · intro hm
          rcases List.mem_cons.mp hm with e | hm
          · exact hc (by simp [← e])
          · exact ih l (List.mem_cons_self _ _) hm
        · exact ih x (List.mem_cons_of_mem _ hx)

theorem closesAtEnd_plain (v : Str) (hq : '"' ∉ v) (hb : '\\' ∉ v) :
    closesAtEnd false (v ++ ['"']) = true := by
  induction v with
  | nil => simp [closesAtEnd]
  | cons c cs ih =>
    have h1 : (c == '"') = false := by
      have : c ≠ '"' := fun e => hq (e ▸ List.mem_cons_self _ _)
      simpa using this
    have h2 : (c == '\\') = false := by
      have : c ≠ '\\' := fun e => hb (e ▸ List.mem_cons_self _ _)
      simpa using this
    simp only [List.cons_append, closesAtEnd, h1, h2]
    exact ih (fun hm => hq (List.mem_cons_of_mem _ hm)) (fun hm => hb (List.mem_cons_of_mem _ hm))

theorem nestedFrom_nil : NestedFrom [] := fun _ => rfl

theorem wellNested_blocks (bs rest : List Str) (h : ∀ l ∈ bs, isBlockLine l = true) :
    wellNested true (bs ++ rest) = wellNested true rest := by
  induction bs with
  | nil => rfl
  | cons x xs ih =>
    simp only [List.cons_append, wellNested, h x (List.mem_cons_self _ _), if_true,
      Bool.true_and]
    exact ih (fun l hl => h l (List.mem_cons_of_mem _ hl))

theorem nestedFrom_group (f : Str) (bs rest : List Str) (h1 : isBlockLine f = false)
    (h2 : isFieldLine f = true) (h3 : ∀ l ∈ bs, isBlockLine l = true)
    (h4 : opensBlock f = true) (hr : NestedFrom rest) : NestedFrom (f :: (bs ++ rest)) := by
  intro b
  simp only [wellNested, h1, h2, h4, if_true, Bool.false_eq_true, if_false]
  rw [wellNested_blocks _ _ h3]
  exact hr true

theorem nestedFrom_field (f : Str) (rest : List Str) (h1 : isBlockLine f = false)
    (h2 : isFieldLine f = true) (hr : NestedFrom rest) : NestedFrom (f :: rest) := by
  intro b
  simp only [wellNested, h1, h2, if_true, Bool.false_eq_true, if_false]
  exact hr _

theorem nestedFrom_ite (c : Prop) [Decidable c] (seg rest : List Str)
    (h1 : NestedFrom (seg ++ rest)) (h2 : NestedFrom rest) :
    NestedFrom ((if c then seg else []) ++ rest) := by
  split
  · exact h1
  · exact h2

theorem nestedFrom_ite_not (c : Prop) [Decidable c] (seg rest : List Str)
    (h1 : NestedFrom (seg ++ rest)) (h2 : NestedFrom rest) :
    NestedFrom ((if c then [] else seg) ++ rest) := by
  split
  · exact h2
  · exact h1

theorem isBlockLine_indent (indent l : Str) (h : "    ".toList <+: indent) :
    isBlockLine (indent ++ l) = true := by
  rw [isBlockLine, List.isPrefixOf_iff_prefix]
  exact h.trans (List.prefix_append _ _)

theorem entryRestLines_nested (d : SubmissionData) : NestedFrom (entryRestLines d) := by
  have hb : ∀ (indent : Str) (xs : List Str), "    ".toList <+: indent →
      ∀ l ∈ xs.map (fun x => indent ++ x), isBlockLine l = true := by
    intro indent xs hi l hl
    obtain ⟨x, -, rfl⟩ := List.mem_map.mp hl
    exact isBlockLine_indent _ _ hi
  have h4 : "    ".toList <+: "    ".toList := List.prefix_refl _
  have h6 : "    ".toList <+: "    - ".toList := ⟨"- ".toList, rfl⟩
  have hlast : NestedFrom ((if d.antiFeatures = [] then []
      else "  anti_features:".toList :: d.antiFeatures.map (fun f => "    - ".toList ++ f)) ++ []) :=
    nestedFrom_ite_not _ _ _
      (nestedFrom_group _ _ _ rfl rfl (hb _ _ h6) rfl nestedFrom_nil) nestedFrom_nil
  rw [List.append_nil] at hlast
  have htracker := nestedFrom_ite (isProvided d.tracker = true) ["  tracker: ".toList ++ d.tracker] _
    (nestedFrom_field _ _ (by simp [isBlockLine, List.isPrefixOf])
      (by simp [isFieldLine, fieldKeys, List.isPrefixOf]) hlast) hlast
  have hwebsite := nestedFrom_ite (isProvided d.website = true) ["  website: ".toList ++ d.website] _
    (nestedFrom_field _ _ (by simp [isBlockLine, List.isPrefixOf])
      (by simp [isFieldLine, fieldKeys, List.isPrefixOf]) htracker) htracker
  have hlicense := nestedFrom_ite (isProvided d.license = true)
    ["  license: \"".toList ++ d.license ++ "\"".toList] _
    (nestedFrom_field _ _ (by simp [isBlockLine, List.isPrefixOf])
      (by simp [isFieldLine, fieldKeys, List.isPrefixOf]) hwebsite) hwebsite
  have hauthor := nestedFrom_ite (isProvided d.author = true)
    ["  author: \"".toList ++ d.author ++ "\"".toList] _
    (nestedFrom_field _ _ (by simp [isBlockLine, List.isPrefixOf])
      (by simp [isFieldLine, fieldKeys, List.isPrefixOf]) hlicense) hlicense
  have hcategories := nestedFrom_ite_not (d.categories = [])
    ("  categories:".toList :: d.categories.map (fun c => "    - ".toList ++ c)) _
    (nestedFrom_group _ _ _ rfl rfl (hb _ _ h6) rfl hauthor) hauthor
  have hdescription := nestedFrom_group "  description: |".toList
    ((d.description.splitOn '\n').map (fun l => "    ".toList ++ l)) _ rfl rfl (hb _ _ h4) rfl
    hcategories
  have hname := nestedFrom_field ("  name: \"".toList ++ d.appName ++ "\"".toList) _
    (by simp [isBlockLine, List.isPrefixOf]) (by simp [isFieldLine, fieldKeys, List.isPrefixOf])
    hdescription
  have hgit := nestedFrom_field ("  git: ".toList ++ d.gitUrl) _
    (by simp [isBlockLine, List.isPrefixOf]) (by simp [isFieldLine, fieldKeys, List.isPrefixOf])
    hname
  unfold entryRestLines
  simpa only [List.append_assoc, List.cons_append, List.nil_append] using hgit

theorem quotedValueOk_quoted (d : SubmissionData) (hq : PlainQuotedFields d) :
    quotedValueOk ("  name: \"".toList ++ d.appName ++ "\"".toList) = true ∧
    quotedValueOk ("  author: \"".toList ++ d.author ++ "\"".toList) = true ∧
    quotedValueOk ("  license: \"".toList ++ d.license ++ "\"".toList) = true := by
  obtain ⟨⟨a1, a2⟩, ⟨b1, b2⟩, ⟨c1, c2⟩⟩ := hq
  have ha := closesAtEnd_plain _ a1 a2
  have hb := closesAtEnd_plain _ b1 b2
  have hc := closesAtEnd_plain _ c1 c2
  refine ⟨?_, ?_, ?_⟩
  · simp [quotedValueOk, quotedKeys, wellQuoted, ha, List.isPrefixOf]
  · simp [quotedValueOk, quotedKeys, wellQuoted, hb, List.isPrefixOf]
  · simp [quotedValueOk, quotedKeys, wellQuoted, hc, List.isPrefixOf]

theorem entryRestLines_quoted (d : SubmissionData) (hq : PlainQuotedFields d) :
    (entryRestLines d).all quotedValueOk = true := by
  obtain ⟨h1, h2, h3⟩ := quotedValueOk_quoted d hq
  rw [List.all_eq_true]
  intro l hl
  unfold entryRestLines at hl
  simp only [List.mem_append] at hl
  rcases hl with ((((((hl | hl) | hl) | hl) | hl) | hl) | hl) | hl
  · simp only [List.mem_cons, List.mem_singleton, List.not_mem_nil, or_false] at hl
    rcases hl with rfl | rfl | rfl
    · simp [quotedValueOk, quotedKeys, wellQuoted, List.isPrefixOf]
    · exact h1
    · decide
  · obtain ⟨x, -, rfl⟩ := List.mem_map.mp hl
    simp [quotedValueOk, quotedKeys, wellQuoted, List.isPrefixOf]
  · split at hl
    · simp at hl
    · rcases List.mem_cons.mp hl with rfl | hl
      · decide
      · obtain ⟨x, -, rfl⟩ := List.mem_map.mp hl
        simp [quotedValueOk, quotedKeys, wellQuoted, List.isPrefixOf]
  · split at hl
    · rw [List.mem_singleton.mp hl]; exact h2
    · simp at hl
  · split at hl
    · rw [List.mem_singleton.mp hl]; exact h3
    · simp at hl
  · split at hl
    · rw [List.mem_singleton.mp hl]
      simp [quotedValueOk, quotedKeys, wellQuoted, List.isPrefixOf]
    · simp at hl
  · split at hl
    · rw [List.mem_singleton.mp hl]
      simp [quotedValueOk, quotedKeys, wellQuoted, List.isPrefixOf]
    · simp at hl
  · split at hl
    · simp at hl
    · rcases List.mem_cons.mp hl with rfl | hl
      · decide
      · obtain ⟨x, -, rfl⟩ := List.mem_map.mp hl
        simp [quotedValueOk, quotedKeys, wellQuoted, List.isPrefixOf]

theorem entryRestLines_no_newline (d : SubmissionData) (hs : SingleLineFields d) :
    ∀ l ∈ entryRestLines d, '\n' ∉ l := by
  obtain ⟨-, h2, h3, h4, h5, h6, h7, h8, h9⟩ := hs
  have hlit : ∀ (lit v : Str), '\n' ∉ lit → '\n' ∉ v → '\n' ∉ lit ++ v := by
    intro lit v a b hm
    rcases List.mem_append.mp hm with hm | hm
    · exact a hm
    · exact b hm
  intro l hl
  unfold entryRestLines at hl
  simp only [List.mem_append] at hl
  rcases hl with ((((((hl | hl) | hl) | hl) | hl) | hl) | hl) | hl
  · simp only [List.mem_cons, List.mem_singleton, List.not_mem_nil, or_false] at hl
    rcases hl with rfl | rfl | rfl
    · exact hlit _ _ (by decide) h2
    · exact hlit _ _ (hlit _ _ (by decide) h3) (by decide)
    · decide
  · obtain ⟨x, hx, rfl⟩ := List.mem_map.mp hl
    rw [← splitLines_eq_splitOn] at hx
    exact hlit _ _ (by decide) (splitLines_no_newline _ x hx)
  · split at hl
    · simp at hl
    · rcases List.mem_cons.mp hl with rfl | hl
      · decide
      · obtain ⟨x, hx, rfl⟩ := List.mem_map.mp hl
        exact hlit _ _ (by decide) (h4 x hx)
  · split at hl
    · rw [List.mem_singleton.mp hl]
      exact hlit _ _ (hlit _ _ (by decide) h5) (by decide)
    · simp at hl
  · split at hl
    · rw [List.mem_singleton.mp hl]
      exact hlit _ _ (hlit _ _ (by decide) h6) (by decide)
    · simp at hl
  · split at hl
    · rw [List.mem_singleton.mp hl]
      exact hlit _ _ (by decide) h7
    · simp at hl
  · split at hl
    · rw [List.mem_singleton.mp hl]
      exact hlit _ _ (by decide) h8
    · simp at hl
  · split at hl
    · simp at hl
    · rcases List.mem_cons.mp hl with rfl | hl
      · decide
      · obtain ⟨x, hx, rfl⟩ := List.mem_map.mp hl
        exact hlit _ _ (by decide) (h9 x hx)

/-- C7 (as stated, refuted): two records pass `validateData` and render to text
that is not in the documented format: an app name holding `"` gives a name value
with an unescaped `"` inside the quotes, and a repository name holding a line
feed gives a line that is neither a field line nor a block line. -/
theorem generateYamlEntry_invalid_fragment :
    validateData quoteInNameRecord = [] ∧
    generateYamlEntry quoteInNameRecord =
      ("sample:\n  git: https://github.com/acme/sample\n  name: \"My \"Best\" App\"\n" ++
       "  description: |\n    <description text>\n  categories:\n    - Utilities\n").toList ∧
    wellQuoted "\"My \"Best\" App\"".toList = false ∧
    validFragment quoteInNameRecord.appId (generateYamlEntry quoteInNameRecord) = false ∧
    validateData newlineInUrlRecord = [] ∧
    validFragment newlineInUrlRecord.appId (generateYamlEntry newlineInUrlRecord) = false := by
  decide

/-- C7 (amended): for every record that passes `validateData`, whose single-line
fields hold no line feed and whose name, author and license hold neither `"` nor
a backslash, `generateYamlEntry` returns text in the documented format: the key
line `<appId>:` with a non-empty key, then 2-space-indented field lines and
4-space-indented block lines, each block line under a field that opens a block,
with well-formed double-quoted name, author and license values. -/
theorem generateYamlEntry_valid_fragment (d : SubmissionData) (hv : validateData d = [])
    (hs : SingleLineFields d) (hq : PlainQuotedFields d) :
    d.appId ≠ [] ∧ validFragment d.appId (generateYamlEntry d) = true := by
  constructor
  · intro he
    rw [validateData_eq] at hv
    have := (List.append_eq_nil.mp hv).1
    simp [expectedMissing, he] at this
  · have hkey : '\n' ∉ d.appId ++ ":".toList := by
      intro hm
      rcases List.mem_append.mp hm with hm | hm
      · exact hs.1 hm
      · exact absurd hm (by decide)
    have hlines : ∀ l ∈ (d.appId ++ ":".toList) :: entryRestLines d, '\n' ∉ l := by
      intro l hl
      rcases List.mem_cons.mp hl with rfl | hl
      · exact hkey
      · exact entryRestLines_no_newline d hs l hl
    have hsplit : (generateYamlEntry d).splitOn '\n'
        = (d.appId ++ ":".toList) :: (entryRestLines d ++ [[]]) := by
      rw [← splitLines_eq_splitOn, generateYamlEntry_eq_lines, splitLines_renderLines _ hlines]
      rfl
    unfold validFragment
    rw [hsplit]
    simp [entryRestLines_quoted d hq, entryRestLines_nested d false]

theorem generateYamlEntry_valid_fragment_witness :
    validateData fullRecord = [] ∧ SingleLineFields fullRecord ∧ PlainQuotedFields fullRecord ∧
    fullRecord.appId ≠ [] ∧ validFragment fullRecord.appId (generateYamlEntry fullRecord) = true :=
  have hs : SingleLineFields fullRecord := by unfold SingleLineFields; decide
  have hq : PlainQuotedFields fullRecord := by unfold PlainQuotedFields; decide
  ⟨by decide, hs, hq, generateYamlEntry_valid_fragment fullRecord (by decide) hs hq⟩

/-! ## Extractors -/

theorem captured_append (line rest : Str) : captured (line ++ rest) rest = line := by
  simp [captured]

theorem dropWhile_line (line rest : Str) (hl : '\n' ∉ line) (hrest : ∀ c ∈ rest.head?, c = '\n') :
    (line ++ rest).dropWhile (fun c => !isNewline c) = rest := by
  induction line with
  | nil =>
    cases rest with
    | nil => rfl
    | cons c cs =>
      have : c = '\n' := hrest c (by simp)
      simp [List.dropWhile, this, isNewline]
  | cons c cs ih =>
    have hc : c ≠ '\n' := fun e => hl (e ▸ List.mem_cons_self _ _)
    have : isNewline c = false := by simpa [isNewline] using hc
    rw [List.cons_append, List.dropWhile_cons]
    simp only [this, Bool.not_false, if_true]
    exact ih (fun hm => hl (List.mem_cons_of_mem _ hm))

theorem not_newline_of_not_whiteSpace (c : Char) (h : isWhiteSpace c = false) :
    isNewline c = false := by
  cases hc : isNewline c
  · rfl
  · have e : c = '\n' := by simpa [isNewline] using hc
    rw [e] at h
    exact absurd h (by decide)

/-- The capture `([^\n]+)` tried at the start of a non-blank line takes the line up
to the next line feed. -/
theorem valueCapture_line (line rest : Str) (hne : line ≠ []) (hl : '\n' ∉ line)
    (hrest : ∀ c ∈ rest.head?, c = '\n') :
    mPlus (fun c => !isNewline c) (fun r => some (captured (line ++ rest) r)) (line ++ rest)
      = some line := by
  cases line with
  | nil => exact absurd rfl hne
  | cons c cs =>
    have hc : c ≠ '\n' := fun e => hl (e ▸ List.mem_cons_self _ _)
    have hn : isNewline c = false := by simpa [isNewline] using hc
    have hd := dropWhile_line cs rest (fun hm => hl (List.mem_cons_of_mem _ hm)) hrest
    rw [mPlus, List.cons_append, mChar]
    simp only [hn, Bool.not_false, if_true]
    rw [mStar_total, hd, ← List.cons_append, captured_append]

/-- The part of the `extractValue` pattern after the heading, run on whitespace
with a line feed followed by a non-blank line: the capture is that line. -/
theorem valueTail_line (w line rest : Str) (hw : ∀ c ∈ w, isWhiteSpace c = true)
    (hnl : '\n' ∈ w) (hline : ∀ c ∈ line.head?, isWhiteSpace c = false) (hne : line ≠ [])
    (hl : '\n' ∉ line) (hrest : ∀ c ∈ rest.head?, c = '\n') :
    mStar isWhiteSpace
      (mChar isNewline
        (mStar isWhiteSpace
          (fun start =>
            mPlus (fun c => !isNewline c) (fun r => some (captured start r)) start)))
      (w ++ (line ++ rest)) = some line := by
  have ht : ∀ c ∈ (line ++ rest).head?, isWhiteSpace c = false := by
    cases line with
    | nil => exact absurd rfl hne
    | cons c cs => simpa using hline
  have hB : ∀ w2 : Str, (∀ c ∈ w2, isWhiteSpace c = true) →
      mStar isWhiteSpace
        (fun start => mPlus (fun c => !isNewline c) (fun r => some (captured start r)) start)
        (w2 ++ (line ++ rest)) = some line := by
    intro w2 hw2
    apply mStar_append_some _ _ _ _ _ hw2
    rw [mStar_stop _ _ _ ht]
    exact valueCapture_line line rest hne hl hrest
  induction w with
  | nil => simp at hnl
  | cons c cs ih =>
    have hc := hw c (List.mem_cons_self _ _)
    have hcs : ∀ x ∈ cs, isWhiteSpace x = true := fun x hx => hw x (List.mem_cons_of_mem _ hx)
    rw [List.cons_append, mStar_cons_pos _ _ _ _ hc]
    by_cases hin : '\n' ∈ cs
    · rw [ih hcs hin]
    · rw [mStar_newline_none _ _ _ hcs hin ht]
      have hceq : c = '\n' := by
        rcases List.mem_cons.mp hnl with e | e
        · exact e.symm
        · exact absurd e hin
      subst hceq
      simp only [mChar, isNewline, beq_self_eq_true, if_true]
      exact hB cs hcs

theorem startsWithI_append (lit h t : Str) (hh : h.map canonicalize = lit.map canonicalize) :
    startsWithI lit (h ++ t) = true ∧ (h ++ t).drop lit.length = t := by
  have hlen : h.length = lit.length := by
    have := congrArg List.length hh
    simpa using this
  constructor
  · simp [startsWithI, ← hlen, hh]
  · simp [← hlen]

set_option maxRecDepth 1000000

/-- C8 (code at the failing input): with a blank App ID value region the
extractor runs on into the next heading, so appId is the text of that heading and
`validateData` reports no missing App ID. -/
theorem parseIssueData_blank_appId :
    (parseIssueData blankAppIdBody).appId = "### GitHub Repository URL".toList ∧
    "App ID is missing".toList ∉ validateData (parseIssueData blankAppIdBody) ∧
    validateData (parseIssueData blankAppIdBody) = [] := by
  decide

/-- C9 (code at the failing input): with a blank App Description value region
the multi-line extractor returns the next heading and that field's value. -/
theorem extractMultilineValue_blank_region :
    extractMultilineValue blankDescriptionBody "App Description".toList
      = "### Categories\n- Games".toList ∧
    "### ".toList <+: extractMultilineValue blankDescriptionBody "App Description".toList := by
  decide

/-- C10 (as stated, refuted): on a body with a blank line between the heading and
the value, the line immediately following the heading is blank, yet `extractValue`
returns the content of the first non-blank line. -/
theorem extractValue_skips_blank_lines :
    extractValue formStyleBody "App ID".toList = "com.example.app".toList ∧
    lineAfterHeading formStyleBody "App ID".toList = [] ∧
    extractValue formStyleBody "App ID".toList ≠ lineAfterHeading formStyleBody "App ID".toList := by
  decide

/-- C10 (amended): `extractValue` returns the empty string when the heading
`### <fieldName>` (letters compared case-insensitively) occurs nowhere in the
body; and when the first occurrence of the heading is followed by whitespace
holding at least one line feed and then a non-blank line that does not itself
begin with `### `, it returns the whitespace-trimmed content of that line, the
first non-blank line after the heading, up to the next line feed. -/
theorem extractValue_first_nonblank_line (fieldName : Str) :
    (∀ body : Str,
      (∀ i ≤ body.length, startsWithHeading fieldName (body.drop i) = false) →
      extractValue body fieldName = []) ∧
    (∀ pre h w line rest : Str,
      (∀ i < pre.length,
        startsWithHeading fieldName ((pre ++ (h ++ (w ++ (line ++ rest)))).drop i) = false) →
      h.map canonicalize = ("### ".toList ++ fieldName).map canonicalize →
      (∀ c ∈ w, isWhiteSpace c = true) → '\n' ∈ w →
      line ≠ [] → (∀ c ∈ line.head?, isWhiteSpace c = false) → '\n' ∉ line →
      ¬ "### ".toList <+: line →
      (∀ c ∈ rest.head?, c = '\n') →
      extractValue (pre ++ (h ++ (w ++ (line ++ rest)))) fieldName = trim line) := by
  constructor
  · intro body habsent
    have : jsMatch (valuePattern fieldName) body = none := by
      unfold jsMatch valuePattern
      apply searchFrom_none
      intro i hi
      have := habsent i hi
      unfold startsWithHeading at this
      rw [mLitI_eq, this]
      rfl
    simp [extractValue, this]
  · intro pre h w line rest hfirst hh hw hnl hne hline hl _ hrest
    have hhit : jsMatch (valuePattern fieldName) (pre ++ (h ++ (w ++ (line ++ rest))))
        = some line := by
      unfold jsMatch valuePattern
      rw [searchFrom_skip]
      · apply searchFrom_hit
        obtain ⟨h1, h2⟩ := startsWithI_append ("### ".toList ++ fieldName) h
          (w ++ (line ++ rest)) hh
        rw [mLitI_eq, h1, h2]
        simp only [if_true]
        exact valueTail_line w line rest hw hnl hline hne hl hrest
      · intro i hi
        have := hfirst i hi
        unfold startsWithHeading at this
        rw [mLitI_eq, this]
        rfl
    simp [extractValue, hhit]

theorem extractValue_first_nonblank_line_witness :
    extractValue noHeadingBody "App ID".toList = [] ∧
    extractValue
      ("Please add my app.\n### app id \n\ncom.example.app  \n\n### App Name\nExample\n").toList
      "App ID".toList = "com.example.app".toList :=
  ⟨(extractValue_first_nonblank_line "App ID".toList).1 noHeadingBody (by decide),
   (extractValue_first_nonblank_line "App ID".toList).2
      lowerCaseBodyParts.1 lowerCaseBodyParts.2.1 lowerCaseBodyParts.2.2.1
      lowerCaseBodyParts.2.2.2.1 lowerCaseBodyParts.2.2.2.2
      (by decide) (by decide) (by decide) (by decide) (by decide) (by decide) (by decide)
      (by decide) (by decide)⟩

/-! ## Trimming and line splitting -/

theorem trim_eq_rdropWhile (s : Str) :
    trim s = (s.dropWhile isWhiteSpace).rdropWhile isWhiteSpace := rfl

theorem trim_nil : trim [] = [] := rfl

theorem trim_cons_whiteSpace (c : Char) (s : Str) (hc : isWhiteSpace c = true) :
    trim (c :: s) = trim s := by
  simp [trim, List.dropWhile, hc]

theorem trim_dropWhile (s : Str) : trim (s.dropWhile isWhiteSpace) = trim s := by
  rw [trim_eq_rdropWhile, trim_eq_rdropWhile, List.dropWhile_idempotent]

theorem dropWhile_append_of_mem {p : Char → Bool} (l m : Str) (h : ∃ x ∈ l, p x = false) :
    (l ++ m).dropWhile p = l.dropWhile p ++ m := by
  induction l with
  | nil => simp at h
  | cons c cs ih =>
    by_cases hc : p c = true
    · obtain ⟨x, hx, hpx⟩ := h
      rcases List.mem_cons.mp hx with rfl | hx
      · rw [hc] at hpx; exact absurd hpx (by simp)
      · simp [List.dropWhile, hc, ih ⟨x, hx, hpx⟩]
    · simp [List.dropWhile, hc]

theorem trim_concat_whiteSpace (s : Str) (c : Char) (hc : isWhiteSpace c = true) :
    trim (s ++ [c]) = trim s := by
  by_cases h : ∃ x ∈ s, isWhiteSpace x = false
  · rw [trim_eq_rdropWhile, trim_eq_rdropWhile, dropWhile_append_of_mem _ _ h,
      List.rdropWhile_concat_pos _ _ _ hc]
  · have hall : ∀ x ∈ s, isWhiteSpace x = true := by
      intro x hx
      cases hw : isWhiteSpace x
      · exact absurd ⟨x, hx, hw⟩ h
      · rfl
    have h1 : (s ++ [c]).dropWhile isWhiteSpace = [] := by
      rw [List.dropWhile_eq_nil_iff]
      intro x hx
      rcases List.mem_append.mp hx with hx | hx
      · exact hall x hx
      · rw [List.mem_singleton.mp hx]; exact hc
    have h2 : s.dropWhile isWhiteSpace = [] := by
      rw [List.dropWhile_eq_nil_iff]
      exact hall
    rw [trim_eq_rdropWhile, trim_eq_rdropWhile, h1, h2]

theorem trim_head_not_whiteSpace (s : Str) : ∀ c ∈ (trim s).head?, isWhiteSpace c = false := by
  intro c hc
  rw [trim_eq_rdropWhile] at hc
  have hpre : (s.dropWhile isWhiteSpace).rdropWhile isWhiteSpace <+: s.dropWhile isWhiteSpace :=
    List.rdropWhile_prefix _ _
  obtain ⟨t, ht⟩ := hpre
  have hc' : c ∈ (s.dropWhile isWhiteSpace).head? := by
    rw [← ht]
    cases hr : (s.dropWhile isWhiteSpace).rdropWhile isWhiteSpace with
    | nil => rw [hr] at hc; simp at hc
    | cons x xs => rw [hr] at hc; simpa using hc
  have := List.head?_dropWhile_not isWhiteSpace s
  rw [Option.mem_def.mp hc'] at this
  simpa using this

theorem trim_getLast_not_whiteSpace (s : Str) :
    ∀ c ∈ (trim s).getLast?, isWhiteSpace c = false := by
  intro c hc
  rw [trim_eq_rdropWhile] at hc
  have hne : (s.dropWhile isWhiteSpace).rdropWhile isWhiteSpace ≠ [] := by
    intro h; rw [h] at hc; simp at hc
  have := List.rdropWhile_last_not isWhiteSpace _ hne
  rw [List.getLast?_eq_getLast _ hne] at hc
  have hc' : c = ((s.dropWhile isWhiteSpace).rdropWhile isWhiteSpace).getLast hne := by
    simpa using hc.symm
  rw [hc']
  simpa using this

/-- Text whose first and last characters are not whitespace is left alone by
`trim`. -/
theorem trim_eq_self (s : Str) (h1 : ∀ c ∈ s.head?, isWhiteSpace c = false)
    (h2 : ∀ c ∈ s.getLast?, isWhiteSpace c = false) : trim s = s := by
  have hd : s.dropWhile isWhiteSpace = s := by
    cases s with
    | nil => rfl
    | cons c cs =>
      have := h1 c (by simp)
      simp [List.dropWhile, this]
  rw [trim_eq_rdropWhile, hd, List.rdropWhile_eq_self_iff]
  intro hl
  have := h2 (s.getLast hl) (by rw [List.getLast?_eq_getLast _ hl]; simp)
  simp [this]

theorem trim_trim (s : Str) : trim (trim s) = trim s :=
  trim_eq_self _ (trim_head_not_whiteSpace s) (trim_getLast_not_whiteSpace s)

theorem splitLines_append_newline (a b : Str) :
    splitLines (a ++ '\n' :: b) = splitLines a ++ splitLines b := by
  induction a with
  | nil => simp [splitLines]
  | cons c cs ih =>
    by_cases hc : (c == '\n') = true
    · simp [splitLines, hc, ih]
    · rw [List.cons_append, splitLines, splitLines]
      simp only [hc, ih]
      cases hs : splitLines cs with
      | nil => exact absurd hs (splitLines_ne_nil cs)
      | cons l ls => simp

theorem splitLines_single (l : Str) (h : '\n' ∉ l) : splitLines l = [l] := by
  induction l with
  | nil => rfl
  | cons c cs ih =>
    have hc : (c == '\n') = false := by
      have : c ≠ '\n' := fun e => h (e ▸ List.mem_cons_self _ _)
      simpa using this
    simp [splitLines, hc, ih (fun hm => h (List.mem_cons_of_mem _ hm))]

theorem splitLines_append_line (s t : Str) (ht : '\n' ∉ t) :
    ∃ init last, splitLines s = init ++ [last] ∧ splitLines (s ++ t) = init ++ [last ++ t] := by
  induction s with
  | nil => exact ⟨[], [], rfl, by simp [splitLines_single t ht]⟩
  | cons c cs ih =>
    obtain ⟨init, last, h1, h2⟩ := ih
    by_cases hc : (c == '\n') = true
    · exact ⟨[] :: init, last, by simp [splitLines, hc, h1], by simp [splitLines, hc, h2]⟩
    · cases init with
      | nil =>
        refine ⟨[], c :: last, ?_, ?_⟩
        · simp only [splitLines, hc, h1]; rfl
        · rw [List.cons_append, splitLines]; simp only [hc, h2]; rfl
      | cons i is =>
        refine ⟨(c :: i) :: is, last, ?_, ?_⟩
        · simp only [splitLines, hc, h1]; rfl
        · rw [List.cons_append, splitLines]; simp only [hc, h2]; rfl

theorem splitLines_prepend_line (x b : Str) (hx : '\n' ∉ x) :
    ∃ l ls, splitLines b = l :: ls ∧ splitLines (x ++ b) = (x ++ l) :: ls := by
  induction x with
  | nil =>
    cases hs : splitLines b with
    | nil => exact absurd hs (splitLines_ne_nil b)
    | cons l ls => exact ⟨l, ls, rfl, by simpa using hs⟩
  | cons c cs ih =>
    obtain ⟨l, ls, h1, h2⟩ := ih (fun hm => hx (List.mem_cons_of_mem _ hm))
    have hc : (c == '\n') = false := by
      have : c ≠ '\n' := fun e => hx (e ▸ List.mem_cons_self _ _)
      simpa using this
    refine ⟨l, ls, h1, ?_⟩
    rw [List.cons_append, splitLines]
    simp only [hc, h2]
    rfl

theorem splitLines_joinWith (lines : List Str) (hne : lines ≠ [])
    (h : ∀ l ∈ lines, '\n' ∉ l) : splitLines (joinWith "\n".toList lines) = lines := by
  rw [splitLines_eq_splitOn]
  exact List.splitOn_intercalate lines '\n' h hne

/-! ## The multi-line pattern -/

/-- The part `\s*\n\s*` of both extractor patterns, run on whitespace holding a
line feed and followed by text that starts with a non-whitespace character: the
rest of the pattern is tried at the start of that text. -/
theorem headingTail_generic {α : Type} (K : Str → Option α) (w t : Str) (r : α)
    (hw : ∀ c ∈ w, isWhiteSpace c = true) (hnl : '\n' ∈ w)
    (ht : ∀ c ∈ t.head?, isWhiteSpace c = false) (hK : K t = some r) :
    mStar isWhiteSpace (mChar isNewline (mStar isWhiteSpace K)) (w ++ t) = some r := by
  have hB : ∀ w2 : Str, (∀ c ∈ w2, isWhiteSpace c = true) →
      mStar isWhiteSpace K (w2 ++ t) = some r := by
    intro w2 hw2
    apply mStar_append_some _ _ _ _ _ hw2
    rw [mStar_stop _ _ _ ht]
    exact hK
  induction w with
  | nil => simp at hnl
  | cons c cs ih =>
    have hc := hw c (List.mem_cons_self _ _)
    have hcs : ∀ x ∈ cs, isWhiteSpace x = true := fun x hx => hw x (List.mem_cons_of_mem _ hx)
    rw [List.cons_append, mStar_cons_pos _ _ _ _ hc]
    by_cases hin : '\n' ∈ cs
    · rw [ih hcs hin]
    · rw [mStar_newline_none _ _ _ hcs hin ht]
      have hceq : c = '\n' := by
        rcases List.mem_cons.mp hnl with e | e
        · exact e.symm
        · exact absurd e hin
      subst hceq
      simp only [mChar, isNewline, beq_self_eq_true, if_true]
      exact hB cs hcs

/-- Lazy star over any character: the continuation is tried at every position
from the left, and the first success wins. -/
theorem mLazyStar_first {α : Type} (k : Str → Option α) (text post : Str) (r : α)
    (hfail : ∀ j < text.length, k ((text ++ post).drop j) = none) (hk : k post = some r) :
    mLazyStar (fun _ => true) k (text ++ post) = some r := by
  induction text with
  | nil =>
    cases post with
    | nil => simpa [mLazyStar] using hk
    | cons c cs => simp [mLazyStar, hk]
  | cons c cs ih =>
    have h0 : k (c :: (cs ++ post)) = none := by simpa using hfail 0 (by simp)
    rw [List.cons_append, mLazyStar, h0]
    simp only [if_true]
    exact ih (fun j hj => by simpa using hfail (j + 1) (by simpa using hj))

theorem ofNat_upper_ne (m : Nat) (h1 : 65 ≤ m) (h2 : m ≤ 90) :
    Char.ofNat m ≠ '\n' ∧ Char.ofNat m ≠ '#' ∧ Char.ofNat m ≠ ' ' := by
  interval_cases m <;> decide

/-- The characters of `\n### ` only match themselves under the `i` flag. -/
theorem canonicalize_eq_marker (c p : Char) (hp : p = '\n' ∨ p = '#' ∨ p = ' ')
    (h : canonicalize c = canonicalize p) : c = p := by
  have hpc : canonicalize p = p := by
    rcases hp with rfl | rfl | rfl <;> decide
  rw [hpc] at h
  unfold canonicalize Char.toUpper at h
  simp only at h
  split at h
  · rename_i hr
    have := ofNat_upper_ne (c.toNat - 32) (by omega) (by omega)
    rcases hp with rfl | rfl | rfl
    · exact absurd h this.1
    · exact absurd h this.2.1
    · exact absurd h this.2.2
  · exact h

theorem startsWithI_boundary (s : Str) :
    startsWithI "\n### ".toList s = true ↔ "\n### ".toList <+: s := by
  constructor
  · intro h
    unfold startsWithI at h
    have h' : (s.take 5).map canonicalize = ['\n', '#', '#', '#', ' '].map canonicalize := by
      simpa using h
    rcases s with _ | ⟨a, _ | ⟨b, _ | ⟨c, _ | ⟨d, _ | ⟨e, t⟩⟩⟩⟩⟩ <;>
      simp only [List.take, List.map, List.cons.injEq, reduceCtorEq, and_false, false_and] at h'
    obtain ⟨ha, hb, hc, hd, he, -⟩ := h'
    have ha := canonicalize_eq_marker a '\n' (by simp) ha
    have hb := canonicalize_eq_marker b '#' (by simp) hb
    have hc := canonicalize_eq_marker c '#' (by simp) hc
    have hd := canonicalize_eq_marker d '#' (by simp) hd
    have he := canonicalize_eq_marker e ' ' (by simp) he
    subst ha hb hc hd he
    exact ⟨t, rfl⟩
  · rintro ⟨t, rfl⟩
    rfl

/-- Inside text that holds no `\n### `, and that is followed by nothing or by a
line feed, the lookahead `(?=\n### |$)` fails at every position. -/
theorem no_boundary_inside (text post : Str) (hno : ¬ "\n### ".toList <:+: text)
    (hpost : ∀ c ∈ post.head?, c = '\n') (j : Nat) (hj : j < text.length) :
    startsWithI "\n### ".toList ((text ++ post).drop j) = false ∧ (text ++ post).drop j ≠ [] := by
  have hdrop : (text ++ post).drop j = text.drop j ++ post := by
    rw [List.drop_append_of_le_length (Nat.le_of_lt hj)]
  have hu : text.drop j ≠ [] := by
    intro h
    have := congrArg List.length h
    simp at this
    omega
  constructor
  · cases hs : startsWithI "\n### ".toList ((text ++ post).drop j) with
    | false => rfl
    | true =>
      exfalso
      obtain ⟨r, hr⟩ := (startsWithI_boundary _).mp hs
      rw [hdrop] at hr
      have hinf : ∀ c : Str, text.drop j = "\n### ".toList ++ c → False := by
        intro c hc
        apply hno
        refine ⟨text.take j, c, ?_⟩
        rw [List.append_assoc, ← hc, List.take_append_drop]
      rcases List.append_eq_append_iff.mp hr with ⟨a, h1, -⟩ | ⟨c, h1, h2⟩
      · exact hinf a h1
      · cases c with
        | nil => exact hinf [] (by simpa using h1.symm)
        | cons x a =>
          have hx : x = '\n' := hpost x (by rw [h2]; simp)
          subst hx
          cases hd : text.drop j with
          | nil => exact hu hd
          | cons y ys =>
            rw [hd] at h1
            have h1' : ['\n', '#', '#', '#', ' '] = y :: (ys ++ '\n' :: a) := by simpa using h1
            rw [List.cons.injEq] at h1'
            have hmem : '\n' ∈ ['#', '#', '#', ' '] := by
              rw [h1'.2]
              simp
            exact absurd hmem (by decide)
  · rw [hdrop]
    intro h
    exact hu (List.append_eq_nil.mp h).1

/-- The lookahead `(?=\n### |$)` of the multi-line pattern. -/
theorem boundaryLookahead_eq {α : Type} (K : Str → Option α) (s : Str) :
    mLookahead
      (fun k s =>
        match mLitI "\n### ".toList k s with
        | some r => some r
        | none => mEnd k s) K s
      = if startsWithI "\n### ".toList s = true ∨ s = [] then K s else none := by
  simp only [mLookahead, mLitI_eq]
  generalize startsWithI "\n### ".toList s = b
  cases b <;> cases s <;> simp [mEnd]

/-- The capture of the multi-line pattern tried at the start of `text`: it runs
to the first `\n### ` or to the end of the input. -/
theorem multilineCapture_region (text post : Str) (hno : ¬ "\n### ".toList <:+: text)
    (hpost : post = [] ∨ "\n### ".toList <+: post) :
    mLazyStar (fun _ => true)
      (mLookahead
        (fun k s =>
          match mLitI "\n### ".toList k s with
          | some r => some r
          | none => mEnd k s)
        (fun rest => some (captured (text ++ post) rest)))
      (text ++ post) = some text := by
  have hhead : ∀ c ∈ post.head?, c = '\n' := by
    rcases hpost with rfl | ⟨t, rfl⟩
    · simp
    · intro c hc
      simpa using hc.symm
  apply mLazyStar_first
  · intro j hj
    obtain ⟨h1, h2⟩ := no_boundary_inside text post hno hhead j hj
    rw [boundaryLookahead_eq, if_neg]
    rintro (h | h)
    · rw [h1] at h; exact absurd h (by simp)
    · exact h2 h
  · rw [boundaryLookahead_eq, if_pos, captured_append]
    rcases hpost with rfl | h
    · exact Or.inr rfl
    · exact Or.inl ((startsWithI_boundary _).mpr h)

/-- The multi-line extractor on a well-formed region: when the first occurrence
of the heading is followed by whitespace holding a line feed and then by `text`,
which starts with a non-whitespace character, holds no `\n### ` and is followed
by the end of the input or by `\n### `, the result is `text`, trimmed. -/
theorem extractMultilineValue_region (fieldName pre h w text post : Str)
    (hfirst : ∀ i < pre.length,
      startsWithHeading fieldName ((pre ++ (h ++ (w ++ (text ++ post)))).drop i) = false)
    (hh : h.map canonicalize = ("### ".toList ++ fieldName).map canonicalize)
    (hw : ∀ c ∈ w, isWhiteSpace c = true) (hnl : '\n' ∈ w)
    (hne : text ≠ []) (hhead : ∀ c ∈ text.head?, isWhiteSpace c = false)
    (hno : ¬ "\n### ".toList <:+: text)
    (hpost : post = [] ∨ "\n### ".toList <+: post) :
    extractMultilineValue (pre ++ (h ++ (w ++ (text ++ post)))) fieldName = trim text := by
  have ht : ∀ c ∈ (text ++ post).head?, isWhiteSpace c = false := by
    cases text with
    | nil => exact absurd rfl hne
    | cons c cs => simpa using hhead
  have hhit : jsMatch (multilinePattern fieldName) (pre ++ (h ++ (w ++ (text ++ post))))
      = some text := by
    unfold jsMatch multilinePattern
    rw [searchFrom_skip]
    · apply searchFrom_hit
      obtain ⟨h1, h2⟩ := startsWithI_append ("### ".toList ++ fieldName) h
        (w ++ (text ++ post)) hh
      rw [mLitI_eq, h1, h2]
      simp only [if_true]
      exact headingTail_generic _ w (text ++ post) text hw hnl ht
        (multilineCapture_region text post hno hpost)
    · intro i hi
      have := hfirst i hi
      unfold startsWithHeading at this
      rw [mLitI_eq, this]
      rfl
  simp [extractMultilineValue, hhit]

theorem splitLines_chars (s : Str) : ∀ l ∈ splitLines s, ∀ c ∈ l, c ∈ s := by
  induction s with
  | nil => simp [splitLines]
  | cons x xs ih =>
    by_cases hx : (x == '\n') = true
    · intro l hl c hc
      simp only [splitLines, hx, if_true, List.mem_cons] at hl
      rcases hl with rfl | hl
      · simp at hc
      · exact List.mem_cons_of_mem _ (ih l hl c hc)
    · rw [splitLines]
      simp only [hx]
      cases hs : splitLines xs with
      | nil => exact absurd hs (splitLines_ne_nil xs)
      | cons l0 ls =>
        rw [hs] at ih
        intro l hl c hc
        rcases List.mem_cons.mp hl with rfl | hl
        · rcases List.mem_cons.mp hc with rfl | hc
          · exact List.mem_cons_self _ _
          · exact List.mem_cons_of_mem _ (ih l0 (List.mem_cons_self _ _) c hc)
        · exact List.mem_cons_of_mem _ (ih l (List.mem_cons_of_mem _ hl) c hc)

/-- Text without a line that begins with `### ` holds no `\n### `. -/
theorem noHeadingLine_no_boundary (s : Str) (h : NoHeadingLine s) :
    ¬ "\n### ".toList <:+: s := by
  rintro ⟨a, b, hs⟩
  have e : s = a ++ '\n' :: ("### ".toList ++ b) := by
    rw [← hs]
    simp
  obtain ⟨l, ls, -, h2⟩ := splitLines_prepend_line "### ".toList b (by decide)
  have hmem : "### ".toList ++ l ∈ s.splitOn '\n' := by
    rw [← splitLines_eq_splitOn, e, splitLines_append_newline, h2]
    simp
  exact h _ hmem ⟨l, rfl⟩

/-- Appending a gap of whitespace that is empty or opens with a line feed keeps a
text free of heading lines. -/
theorem noHeadingLine_append_gap (s gap : Str) (h : NoHeadingLine s)
    (hgap : ∀ c ∈ gap, isWhiteSpace c = true) (hhead : ∀ c ∈ gap.head?, c = '\n') :
    NoHeadingLine (s ++ gap) := by
  cases gap with
  | nil => simpa using h
  | cons x g =>
    have hx : x = '\n' := hhead x (by simp)
    subst hx
    intro l hl
    rw [← splitLines_eq_splitOn, splitLines_append_newline] at hl
    rcases List.mem_append.mp hl with hl | hl
    · rw [splitLines_eq_splitOn] at hl
      exact h l hl
    · rintro ⟨t, rfl⟩
      have hin : '#' ∈ g := splitLines_chars g _ hl '#' (by simp)
      have := hgap '#' (List.mem_cons_of_mem _ hin)
      exact absurd this (by decide)

theorem trim_append_whiteSpace (s t : Str) (ht : ∀ c ∈ t, isWhiteSpace c = true) :
    trim (s ++ t) = trim s := by
  induction t using List.reverseRecOn with
  | nil => simp
  | append_singleton xs x ih =>
    rw [← List.append_assoc, trim_concat_whiteSpace _ _ (ht x (by simp))]
    exact ih (fun c hc => ht c (by simp [hc]))

theorem trim_subset (s : Str) : ∀ c ∈ trim s, c ∈ s := by
  intro c hc
  rw [trim_eq_rdropWhile] at hc
  have h1 := (List.rdropWhile_prefix isWhiteSpace _).subset hc
  exact (List.dropWhile_suffix isWhiteSpace).subset h1

/-! ## What a successful match returns -/

theorem searchFrom_some {α : Type} (f : Str → Option α) (s : Str) (b : Bool) (r : α)
    (h : searchFrom (fun _ => f) b s = some r) : ∃ i, f (s.drop i) = some r := by
  induction s generalizing b with
  | nil => exact ⟨0, by simpa [searchFrom] using h⟩
  | cons c cs ih =>
    rw [searchFrom_cons] at h
    cases hf : f (c :: cs) with
    | some r' =>
      simp only [hf] at h
      exact ⟨0, by simpa [hf] using h⟩
    | none =>
      simp only [hf] at h
      obtain ⟨i, hi⟩ := ih false h
      exact ⟨i + 1, by simpa using hi⟩

theorem mChar_some {α : Type} (p : Char → Bool) (k : Str → Option α) (s : Str) (r : α)
    (h : mChar p k s = some r) : ∃ t, k t = some r := by
  cases s with
  | nil => simp [mChar] at h
  | cons c cs =>
    by_cases hp : p c = true
    · exact ⟨cs, by simpa [mChar, hp] using h⟩
    · simp [mChar, hp] at h

theorem mStar_some {α : Type} (p : Char → Bool) (k : Str → Option α) (s : Str) (r : α)
    (h : mStar p k s = some r) : ∃ t, k t = some r := by
  induction s with
  | nil => exact ⟨[], by simpa [mStar] using h⟩
  | cons c cs ih =>
    by_cases hp : p c = true
    · rw [mStar_cons_pos _ _ _ _ hp] at h
      cases hm : mStar p k cs with
      | some r' =>
        simp only [hm] at h
        exact ih (by rw [hm, h])
      | none =>
        simp only [hm] at h
        exact ⟨c :: cs, h⟩
    · exact ⟨c :: cs, by simpa [mStar, hp] using h⟩

theorem mLitI_some {α : Type} (lit : Str) (k : Str → Option α) (s : Str) (r : α)
    (h : mLitI lit k s = some r) : ∃ t, k t = some r := by
  rw [mLitI_eq] at h
  split at h
  · exact ⟨_, h⟩
  · simp at h

/-- The capture `([^\n]+)`, wherever it is tried, holds no line feed. -/
theorem valueCapture_no_newline (start m : Str)
    (h : mPlus (fun c => !isNewline c) (fun rest => some (captured start rest)) start = some m) :
    '\n' ∉ m := by
  cases start with
  | nil => simp [mPlus, mChar] at h
  | cons c cs =>
    by_cases hc : (!isNewline c) = true
    · rw [mPlus, mChar] at h
      simp only [hc, if_true] at h
      rw [mStar_total] at h
      have hsplit : c :: cs = (c :: cs.takeWhile (fun c => !isNewline c))
          ++ cs.dropWhile (fun c => !isNewline c) := by
        simp [List.takeWhile_append_dropWhile]
      have hm : m = c :: cs.takeWhile (fun c => !isNewline c) := by
        have h' := Option.some.inj h
        rw [← h']
        conv_lhs => rw [hsplit]
        exact captured_append _ _
      rw [hm]
      intro hmem
      rcases List.mem_cons.mp hmem with e | hmem
      · rw [← e] at hc
        exact absurd hc (by decide)
      · have := List.mem_takeWhile_imp hmem
        exact absurd this (by decide)
    · simp [mPlus, mChar, hc] at h

theorem valuePattern_no_newline (fieldName body m : Str)
    (h : jsMatch (valuePattern fieldName) body = some m) : '\n' ∉ m := by
  unfold jsMatch valuePattern at h
  obtain ⟨i, h1⟩ := searchFrom_some _ _ _ _ h
  obtain ⟨t1, h2⟩ := mLitI_some _ _ _ _ h1
  obtain ⟨t2, h3⟩ := mStar_some _ _ _ _ h2
  obtain ⟨t3, h4⟩ := mChar_some _ _ _ _ h3
  obtain ⟨t4, h5⟩ := mStar_some _ _ _ _ h4
  exact valueCapture_no_newline t4 m h5

/-- The result of `extractValue` is a single line. -/
theorem extractValue_no_newline (body fieldName : Str) : '\n' ∉ extractValue body fieldName := by
  unfold extractValue
  cases h : jsMatch (valuePattern fieldName) body with
  | none => simp
  | some m =>
    intro hmem
    exact valuePattern_no_newline fieldName body m h (trim_subset m _ hmem)

theorem extractValue_trimmed (body fieldName : Str) :
    (∀ c ∈ (extractValue body fieldName).head?, isWhiteSpace c = false) ∧
    (∀ c ∈ (extractValue body fieldName).getLast?, isWhiteSpace c = false) := by
  unfold extractValue
  cases h : jsMatch (valuePattern fieldName) body with
  | none => simp
  | some m => exact ⟨trim_head_not_whiteSpace m, trim_getLast_not_whiteSpace m⟩

theorem extractMultilineValue_trimmed (body fieldName : Str) :
    (∀ c ∈ (extractMultilineValue body fieldName).head?, isWhiteSpace c = false) ∧
    (∀ c ∈ (extractMultilineValue body fieldName).getLast?, isWhiteSpace c = false) := by
  unfold extractMultilineValue
  cases h : jsMatch (multilinePattern fieldName) body with
  | none => simp
  | some m => exact ⟨trim_head_not_whiteSpace m, trim_getLast_not_whiteSpace m⟩

/-! ## Re-extraction -/

theorem reextract_value_nil (fieldName : Str) :
    extractValue ("### ".toList ++ fieldName ++ "\n".toList) fieldName = [] := by
  have hnone : jsMatch (valuePattern fieldName) ("### ".toList ++ fieldName ++ "\n".toList)
      = none := by
    unfold jsMatch valuePattern
    apply searchFrom_none
    intro i _
    rw [mLitI_eq]
    split
    · have hd : (("### ".toList ++ fieldName ++ "\n".toList).drop i).drop
          ("### ".toList ++ fieldName).length = ['\n'].drop i := by
        rw [List.drop_drop, Nat.add_comm]
        exact List.drop_append i
      rw [hd]
      cases i with
      | zero => rfl
      | succ n => simp only [List.drop_succ_cons, List.drop_nil]; rfl
    · rfl
  unfold extractValue
  rw [hnone]

theorem reextract_value (fieldName v : Str) (hnl : '\n' ∉ v)
    (hhead : ∀ c ∈ v.head?, isWhiteSpace c = false)
    (hlast : ∀ c ∈ v.getLast?, isWhiteSpace c = false) :
    extractValue ("### ".toList ++ fieldName ++ "\n".toList ++ v) fieldName = v := by
  by_cases hv : v = []
  · subst hv
    simpa using reextract_value_nil fieldName
  · have hhit : jsMatch (valuePattern fieldName)
        ("### ".toList ++ fieldName ++ "\n".toList ++ v) = some v := by
      unfold jsMatch valuePattern
      apply searchFrom_hit
      obtain ⟨h1, h2⟩ := startsWithI_append ("### ".toList ++ fieldName)
        ("### ".toList ++ fieldName) ("\n".toList ++ (v ++ [])) rfl
      have e : "### ".toList ++ fieldName ++ "\n".toList ++ v
          = ("### ".toList ++ fieldName) ++ ("\n".toList ++ (v ++ [])) := by simp
      rw [e, mLitI_eq, h1, h2]
      simp only [if_true]
      exact valueTail_line "\n".toList v [] (by decide) (by decide) hhead hv hnl (by simp)
    unfold extractValue
    rw [hhit]
    exact trim_eq_self v hhead hlast

theorem reextract_multiline_nil (fieldName : Str) :
    extractMultilineValue ("### ".toList ++ fieldName ++ "\n".toList) fieldName = [] := by
  have hhit : jsMatch (multilinePattern fieldName) ("### ".toList ++ fieldName ++ "\n".toList)
      = some [] := by
    unfold jsMatch multilinePattern
    apply searchFrom_hit
    obtain ⟨h1, h2⟩ := startsWithI_append ("### ".toList ++ fieldName)
      ("### ".toList ++ fieldName) "\n".toList rfl
    rw [mLitI_eq, h1, h2]
    rfl
  unfold extractMultilineValue
  rw [hhit]
  rfl

theorem reextract_multiline (fieldName v : Str) (hno : NoHeadingLine v)
    (hhead : ∀ c ∈ v.head?, isWhiteSpace c = false)
    (hlast : ∀ c ∈ v.getLast?, isWhiteSpace c = false) :
    extractMultilineValue ("### ".toList ++ fieldName ++ "\n".toList ++ v) fieldName = v := by
  by_cases hv : v = []
  · subst hv
    simpa using reextract_multiline_nil fieldName
  · have e : "### ".toList ++ fieldName ++ "\n".toList ++ v
        = [] ++ (("### ".toList ++ fieldName) ++ ("\n".toList ++ (v ++ []))) := by simp
    rw [e, extractMultilineValue_region fieldName [] ("### ".toList ++ fieldName) "\n".toList v []
      (by simp) rfl (by decide) (by decide) hv hhead (noHeadingLine_no_boundary v hno)
      (Or.inl rfl)]
    exact trim_eq_self v hhead hlast


/-! ## Categories -/

theorem categories_foldl (lines : List Str) (acc : List Str) :
    lines.foldl
      (fun categories line =>
        let trimmed := trim line
        if !trimmed.isEmpty && !includes trimmed noResponse
            && !includes trimmed "Select the categories".toList then
          let category := trim (stripMarker '*' (stripMarker '-' trimmed))
          if !category.isEmpty then categories ++ [category] else categories
        else categories)
      acc = acc ++ lines.flatMap categoryOfLine := by
  induction lines generalizing acc with
  | nil => simp
  | cons l ls ih =>
    rw [List.foldl_cons, ih, List.flatMap_cons]
    unfold categoryOfLine
    simp only []
    split
    · split <;> simp
    · simp

theorem categoryOfLine_nil : categoryOfLine [] = [] := by decide

theorem categoryOfLine_trim (l : Str) : categoryOfLine l = categoryOfLine (trim l) := by
  unfold categoryOfLine
  rw [trim_trim]

/-- The result of `extractCategories` in closed form. -/
theorem extractCategories_eq (body : Str) :
    extractCategories body
      = (splitLines (extractMultilineValue body "Categories".toList)).flatMap categoryOfLine := by
  unfold extractCategories
  simp only []
  split
  · rename_i h
    rw [List.isEmpty_iff.mp h]
    decide
  · rw [categories_foldl]
    simp

/-- A per-line function that only looks at the trimmed line and yields nothing
for a blank line gives the same on a text and on the trimmed text. -/
theorem flatMap_lines_cons_whiteSpace {β : Type} (g : Str → List β)
    (hg : ∀ l, g l = g (trim l)) (hnil : g [] = []) (c : Char) (s : Str)
    (hc : isWhiteSpace c = true) :
    (splitLines (c :: s)).flatMap g = (splitLines s).flatMap g := by
  by_cases hn : (c == '\n') = true
  · simp [splitLines, hn, hnil]
  · rw [splitLines]
    simp only [hn]
    cases hs : splitLines s with
    | nil => exact absurd hs (splitLines_ne_nil s)
    | cons l ls =>
      simp only [Bool.false_eq_true, if_false, List.flatMap_cons]
      rw [hg (c :: l), trim_cons_whiteSpace _ _ hc, ← hg l]

theorem flatMap_lines_concat_whiteSpace {β : Type} (g : Str → List β)
    (hg : ∀ l, g l = g (trim l)) (hnil : g [] = []) (c : Char) (s : Str)
    (hc : isWhiteSpace c = true) :
    (splitLines (s ++ [c])).flatMap g = (splitLines s).flatMap g := by
  by_cases hn : c = '\n'
  · subst hn
    rw [splitLines_append_newline]
    simp [splitLines, hnil]
  · obtain ⟨init, last, h1, h2⟩ := splitLines_append_line s [c] (by simpa using Ne.symm hn)
    rw [h1, h2]
    simp only [List.flatMap_append, List.flatMap_cons, List.flatMap_nil, List.append_nil]
    rw [hg (last ++ [c]), trim_concat_whiteSpace _ _ hc, ← hg last]

theorem flatMap_lines_trim {β : Type} (g : Str → List β)
    (hg : ∀ l, g l = g (trim l)) (hnil : g [] = []) (s : Str) :
    (splitLines (trim s)).flatMap g = (splitLines s).flatMap g := by
  have hfront : ∀ t : Str,
      (splitLines (t.dropWhile isWhiteSpace)).flatMap g = (splitLines t).flatMap g := by
    intro t
    induction t with
    | nil => rfl
    | cons c cs ih =>
      by_cases hc : isWhiteSpace c = true
      · rw [List.dropWhile_cons_of_pos hc, ih, flatMap_lines_cons_whiteSpace g hg hnil c cs hc]
      · rw [List.dropWhile_cons_of_neg hc]
  have hback : ∀ t : Str,
      (splitLines (t.rdropWhile isWhiteSpace)).flatMap g = (splitLines t).flatMap g := by
    intro t
    induction t using List.reverseRecOn with
    | nil => rfl
    | append_singleton xs x ih =>
      by_cases hx : isWhiteSpace x = true
      · rw [List.rdropWhile_concat_pos _ _ _ hx, ih,
          flatMap_lines_concat_whiteSpace g hg hnil x xs hx]
      · rw [List.rdropWhile_concat_neg _ _ _ hx]
  rw [trim_eq_rdropWhile, hback, hfront]

theorem stripMarker_hit (marker : Char) (s : Str) :
    stripMarker marker (marker :: s) = s.dropWhile isWhiteSpace := by
  unfold stripMarker
  rw [jsMatch_mBegin, mChar]
  simp only [beq_self_eq_true, if_true]
  rw [mStar_total isWhiteSpace (fun rest => rest)]

theorem stripMarker_miss (marker : Char) (s : Str) (h : ∀ c ∈ s.head?, c ≠ marker) :
    stripMarker marker s = s := by
  unfold stripMarker
  rw [jsMatch_mBegin]
  cases s with
  | nil => rfl
  | cons c cs =>
    have : (c == marker) = false := by simpa using h c (by simp)
    simp [mChar, this]

theorem not_infix_cons (sub s : Str) (c : Char) (hhead : ∀ x ∈ sub.head?, x ≠ c)
    (hne : sub ≠ []) (h : ¬ sub <:+: s) : ¬ sub <:+: c :: s := by
  rw [List.infix_cons_iff]
  rintro (⟨t, ht⟩ | h')
  · cases sub with
    | nil => exact hne rfl
    | cons x xs =>
      simp only [List.cons_append, List.cons.injEq] at ht
      exact hhead x (by simp) ht.1
  · exact h h'

theorem dropWhile_eq_self_of_head (s : Str) (h : ∀ c ∈ s.head?, isWhiteSpace c = false) :
    s.dropWhile isWhiteSpace = s := by
  cases s with
  | nil => rfl
  | cons c cs =>
    have := h c (by simp)
    simp [List.dropWhile, this]

/-- A marker line of an admissible name contributes exactly the name. -/
theorem categoryOfLine_marked (marker : Char) (n : Str) (hm : marker = '-' ∨ marker = '*')
    (hn : CategoryName n) : categoryOfLine (marker :: ' ' :: n) = [n] := by
  obtain ⟨hne, -, hhead, hlast, hmark, hsent, hplace⟩ := hn
  have hmws : isWhiteSpace marker = false := by
    rcases hm with rfl | rfl <;> decide
  have hlast' : ∀ c ∈ (marker :: ' ' :: n).getLast?, isWhiteSpace c = false := by
    intro c hc
    apply hlast c
    cases n with
    | nil => exact absurd rfl hne
    | cons x xs => simpa using hc
  have htrim : trim (marker :: ' ' :: n) = marker :: ' ' :: n :=
    trim_eq_self _ (by simpa using hmws) hlast'
  have hs1 : includes (marker :: ' ' :: n) noResponse = false := by
    cases hi : includes (marker :: ' ' :: n) noResponse
    · rfl
    · exfalso
      refine not_infix_cons _ _ marker ?_ (by decide)
        (not_infix_cons _ _ ' ' (by decide) (by decide) hsent) (( includes_iff_infix _ _).mp hi)
      rcases hm with rfl | rfl <;> decide
  have hs2 : includes (marker :: ' ' :: n) "Select the categories".toList = false := by
    cases hi : includes (marker :: ' ' :: n) "Select the categories".toList
    · rfl
    · exfalso
      refine not_infix_cons _ _ marker ?_ (by decide)
        (not_infix_cons _ _ ' ' (by decide) (by decide) hplace) (( includes_iff_infix _ _).mp hi)
      rcases hm with rfl | rfl <;> decide
  have hstrip : stripMarker '*' (stripMarker '-' (marker :: ' ' :: n)) = n := by
    have hd : (' ' :: n).dropWhile isWhiteSpace = n := by
      rw [List.dropWhile_cons_of_pos (by decide)]
      exact dropWhile_eq_self_of_head n hhead
    rcases hm with rfl | rfl
    · rw [stripMarker_hit, hd]
      exact stripMarker_miss _ _ (fun c hc => (hmark c hc).2)
    · rw [stripMarker_miss '-' _ (by simp), stripMarker_hit, hd]
  have hn' : trim n = n := trim_eq_self n hhead hlast
  unfold categoryOfLine
  simp only [htrim, hs1, hs2, hstrip, hn']
  cases n with
  | nil => exact absurd rfl hne
  | cons x xs => simp

/-- What a well-formed region line contributes: its name, if it has one. -/
theorem categoryOfLine_regionLine (l : RegionLine) (h : l.WellFormed) :
    categoryOfLine l.text = l.name?.toList := by
  cases l with
  | dash n => exact categoryOfLine_marked '-' n (Or.inl rfl) h
  | star n => exact categoryOfLine_marked '*' n (Or.inr rfl) h
  | blank ws =>
    have : trim ws = [] := by
      rw [trim_eq_rdropWhile, (List.dropWhile_eq_nil_iff).mpr h.1]
      rfl
    rw [categoryOfLine_trim]
    show categoryOfLine (trim ws) = []
    rw [this]
    exact categoryOfLine_nil
  | sentinel => decide

theorem flatMap_regionLines (ls : List RegionLine) (h : ∀ l ∈ ls, l.WellFormed) :
    (ls.map RegionLine.text).flatMap categoryOfLine = regionNames ls := by
  induction ls with
  | nil => rfl
  | cons l ls ih =>
    rw [List.map_cons, List.flatMap_cons, categoryOfLine_regionLine l (h l (List.mem_cons_self _ _)),
      ih (fun x hx => h x (List.mem_cons_of_mem _ hx))]
    cases hl : l.name? <;> simp [regionNames, List.filterMap_cons, hl]

theorem regionLine_no_newline (l : RegionLine) (h : l.WellFormed) : '\n' ∉ l.text := by
  cases l with
  | dash n =>
    intro hm
    rcases List.mem_append.mp hm with hm | hm
    · exact absurd hm (by decide)
    · exact h.2.1 hm
  | star n =>
    intro hm
    rcases List.mem_append.mp hm with hm | hm
    · exact absurd hm (by decide)
    · exact h.2.1 hm
  | blank ws => exact h.2
  | sentinel => decide

theorem regionLine_not_heading (l : RegionLine) (h : l.WellFormed) :
    ¬ "### ".toList <+: l.text := by
  cases l with
  | dash n => rintro ⟨t, ht⟩; simp [RegionLine.text] at ht
  | star n => rintro ⟨t, ht⟩; simp [RegionLine.text] at ht
  | blank ws =>
    rintro ⟨t, ht⟩
    have hin : '#' ∈ ws := by
      show '#' ∈ (RegionLine.blank ws).text
      rw [← ht]
      simp
    exact absurd (h.1 '#' hin) (by decide)
  | sentinel => decide

/-- C11: on a body whose first `### Categories` heading is followed by a region
of lines `- <name>` or `* <name>` with admissible names, blank lines and
`_No response_` lines interleaved (at least one line not blank), the region ending
at the end of the text or at the next `### ` heading, `extractCategories` returns
exactly the names, in order; the region `- Games`, `- Tools`, `_No response_`
yields `Games`, `Tools`. -/
theorem extractCategories_region (pre post : Str) (ls : List RegionLine)
    (hfirst : ∀ i < pre.length,
      startsWithHeading "Categories".toList
        ((pre ++ ("### Categories".toList ++ ("\n".toList ++ (regionText ls ++ post)))).drop i)
        = false)
    (hwf : ∀ l ∈ ls, l.WellFormed) (hsome : ∃ l ∈ ls, l.isBlank = false)
    (hpost : post = [] ∨ "\n### ".toList <+: post) :
    extractCategories
      (pre ++ ("### Categories".toList ++ ("\n".toList ++ (regionText ls ++ post))))
      = regionNames ls := by
  have hne : ls.map RegionLine.text ≠ [] := by
    obtain ⟨l, hl, -⟩ := hsome
    intro h
    rw [List.map_eq_nil_iff] at h
    rw [h] at hl
    simp at hl
  have hlines : splitLines (regionText ls) = ls.map RegionLine.text := by
    apply splitLines_joinWith _ hne
    intro t ht
    obtain ⟨l, hl, rfl⟩ := List.mem_map.mp ht
    exact regionLine_no_newline l (hwf l hl)
  have hnohead : NoHeadingLine (regionText ls) := by
    intro t ht
    rw [← splitLines_eq_splitOn, hlines] at ht
    obtain ⟨l, hl, rfl⟩ := List.mem_map.mp ht
    exact regionLine_not_heading l (hwf l hl)
  have hchar : ∃ c ∈ regionText ls, isWhiteSpace c = false := by
    obtain ⟨l, hl, hb⟩ := hsome
    have hmem : l.text ∈ splitLines (regionText ls) := by
      rw [hlines]
      exact List.mem_map_of_mem _ hl
    have hin := splitLines_chars _ _ hmem
    cases l with
    | dash n => exact ⟨'-', hin '-' (by simp [RegionLine.text]), by decide⟩
    | star n => exact ⟨'*', hin '*' (by simp [RegionLine.text]), by decide⟩
    | blank ws => simp [RegionLine.isBlank] at hb
    | sentinel => exact ⟨'_', hin '_' (by decide), by decide⟩
  have htext : (regionText ls).dropWhile isWhiteSpace ≠ [] := by
    intro h
    obtain ⟨c, hc, hw⟩ := hchar
    rw [(List.dropWhile_eq_nil_iff.mp h) c hc] at hw
    exact absurd hw (by simp)
  have hhead : ∀ c ∈ ((regionText ls).dropWhile isWhiteSpace).head?, isWhiteSpace c = false := by
    intro c hc
    have := List.head?_dropWhile_not isWhiteSpace (regionText ls)
    rw [Option.mem_def.mp hc] at this
    simpa using this
  have hno : ¬ "\n### ".toList <:+: (regionText ls).dropWhile isWhiteSpace := by
    intro h
    exact noHeadingLine_no_boundary _ hnohead
      (h.trans (List.dropWhile_suffix isWhiteSpace).isInfix)
  have hw : ∀ c ∈ '\n' :: (regionText ls).takeWhile isWhiteSpace, isWhiteSpace c = true := by
    intro c hc
    rcases List.mem_cons.mp hc with rfl | hc
    · decide
    · exact List.mem_takeWhile_imp hc
  have hbody : pre ++ ("### Categories".toList ++ ("\n".toList ++ (regionText ls ++ post)))
      = pre ++ ("### Categories".toList ++
          (('\n' :: (regionText ls).takeWhile isWhiteSpace) ++
            ((regionText ls).dropWhile isWhiteSpace ++ post))) := by
    have : "\n".toList ++ (regionText ls ++ post)
        = ('\n' :: (regionText ls).takeWhile isWhiteSpace) ++
            ((regionText ls).dropWhile isWhiteSpace ++ post) := by
      show '\n' :: (regionText ls ++ post) = _
      rw [List.cons_append, ← List.append_assoc, List.takeWhile_append_dropWhile]
    rw [this]
  have hsection : extractMultilineValue
      (pre ++ ("### Categories".toList ++ ("\n".toList ++ (regionText ls ++ post))))
      "Categories".toList = trim (regionText ls) := by
    rw [hbody] at hfirst ⊢
    rw [extractMultilineValue_region "Categories".toList pre "### Categories".toList _ _ post
      hfirst rfl hw (List.mem_cons_self _ _) htext hhead hno hpost, trim_dropWhile]
  rw [extractCategories_eq, hsection,
    flatMap_lines_trim categoryOfLine categoryOfLine_trim categoryOfLine_nil, hlines,
    flatMap_regionLines ls hwf]

theorem extractCategories_region_witness :
    extractCategories
      ("### App ID\nsample\n\n".toList ++ ("### Categories".toList ++ ("\n".toList ++
        (regionText gamesToolsRegion ++ "\n### Author Name (Optional)\nJane\n".toList))))
      = ["Games".toList, "Tools".toList] ∧
    regionText gamesToolsRegion = "- Games\n- Tools\n_No response_".toList :=
  ⟨extractCategories_region "### App ID\nsample\n\n".toList
      "\n### Author Name (Optional)\nJane\n".toList gamesToolsRegion (by decide)
      (by
        intro l hl
        simp only [gamesToolsRegion, List.mem_cons, List.mem_singleton, List.not_mem_nil,
          or_false] at hl
        rcases hl with rfl | rfl | rfl
        · unfold RegionLine.WellFormed CategoryName; decide
        · unfold RegionLine.WellFormed CategoryName; decide
        · trivial)
      ⟨RegionLine.sentinel, by decide, rfl⟩ (Or.inr (by decide)),
   by decide⟩

/-! ## Anti-features -/

theorem splitLines_infix (s : Str) :
    (∀ l0 ls, splitLines s = l0 :: ls → l0 <+: s) ∧ (∀ l ∈ splitLines s, l <:+: s) := by
  induction s with
  | nil =>
    constructor
    · intro l0 ls h
      simp only [splitLines, List.cons.injEq] at h
      rw [← h.1]
    · intro l hl
      simp only [splitLines, List.mem_singleton] at hl
      rw [hl]
  | cons c cs ih =>
    obtain ⟨ih1, ih2⟩ := ih
    by_cases hc : (c == '\n') = true
    · constructor
      · intro l0 ls h
        simp only [splitLines, hc, if_true, List.cons.injEq] at h
        rw [← h.1]
        exact List.nil_prefix
      · intro l hl
        simp only [splitLines, hc, if_true, List.mem_cons] at hl
        rcases hl with rfl | hl
        · exact List.nil_infix
        · exact (ih2 l hl).trans (List.suffix_cons c cs).isInfix
    · cases hs : splitLines cs with
      | nil => exact absurd hs (splitLines_ne_nil cs)
      | cons l1 ls1 =>
        have hsplit : splitLines (c :: cs) = (c :: l1) :: ls1 := by
          rw [splitLines]
          simp only [hc, hs]
          rfl
        have hpre : c :: l1 <+: c :: cs := by
          obtain ⟨t, ht⟩ := ih1 l1 ls1 hs
          exact ⟨t, by simp [ht]⟩
        constructor
        · intro l0 ls h
          rw [hsplit] at h
          simp only [List.cons.injEq] at h
          rw [← h.1]
          exact hpre
        · intro l hl
          rw [hsplit] at hl
          rcases List.mem_cons.mp hl with rfl | hl
          · exact hpre.isInfix
          · exact (ih2 l (by rw [hs]; exact List.mem_cons_of_mem _ hl)).trans
              (List.suffix_cons c cs).isInfix

theorem trim_infix (s : Str) : trim s <:+: s :=
  (List.rdropWhile_prefix isWhiteSpace _).isInfix.trans
    (List.dropWhile_suffix isWhiteSpace).isInfix

/-- C12 (as stated, refuted): for the block `Ads\n_No response_`, which is
neither empty nor exactly the marker, `extractAntiFeatures` returns the empty
list, not the line `Ads` that the documented rule keeps. -/
theorem extractAntiFeatures_sentinel_line :
    extractMultilineValue adsSentinelBody "Anti-Features (Optional)".toList
      = "Ads\n_No response_".toList ∧
    extractAntiFeatures adsSentinelBody = [] ∧
    antiFeaturesAsDocumented "Ads\n_No response_".toList = ["Ads".toList] := by
  decide

/-- C12 (amended): with `t` the Anti-Features block text returned by
`extractMultilineValue`, `extractAntiFeatures` returns the empty list if `t` is
empty or contains `_No response_` anywhere, and otherwise the lines of `t`, each
trimmed, with the blank lines dropped and the others kept in order. -/
theorem extractAntiFeatures_block (body : Str) :
    extractAntiFeatures body =
      if extractMultilineValue body "Anti-Features (Optional)".toList = [] ∨
          noResponse <:+: extractMultilineValue body "Anti-Features (Optional)".toList then []
      else ((splitLines (extractMultilineValue body "Anti-Features (Optional)".toList)).map
        trim).filter (fun line => decide (line ≠ [])) := by
  unfold extractAntiFeatures
  simp only []
  generalize extractMultilineValue body "Anti-Features (Optional)".toList = t
  by_cases h1 : t = []
  · subst h1
    rfl
  · have hemp : t.isEmpty = false := by
      cases t with
      | nil => exact absurd rfl h1
      | cons c cs => rfl
    by_cases h2 : noResponse <:+: t
    · have hinc := ( includes_iff_infix t noResponse).mpr h2
      rw [if_pos (by simp [hinc]), if_pos (Or.inr h2)]
    · have hinc : includes t noResponse = false := by
        cases hi : includes t noResponse
        · rfl
        · exact absurd (( includes_iff_infix _ _).mp hi) h2
      rw [if_neg (by simp [hemp, hinc]), if_neg (by simp [h1, h2])]
      apply List.filter_congr
      intro l hl
      obtain ⟨x, hx, rfl⟩ := List.mem_map.mp hl
      have hsub : includes (trim x) noResponse = false := by
        cases hi : includes (trim x) noResponse
        · rfl
        · exfalso
          exact h2 ((( includes_iff_infix _ _).mp hi).trans
            (( trim_infix x).trans (( splitLines_infix t).2 x hx)))
      rw [hsub]
      cases trim x <;> simp

/-- C13: when the first `### App Description` heading is followed by a blank
line, then a description `D` that is non-empty, has no leading or trailing
whitespace and no line beginning with `### `, then a gap of whitespace (empty, or
opening with a line feed, such as the blank line) and the next `### ` heading or
the end of the text, parsing yields description = `D` exactly. -/
theorem parseIssueData_description_verbatim (pre D gap post : Str)
    (hfirst : ∀ i < pre.length,
      startsWithHeading "App Description".toList
        ((pre ++ ("### App Description".toList ++ ("\n\n".toList ++ ((D ++ gap) ++ post)))).drop i)
        = false)
    (hne : D ≠ []) (hhead : ∀ c ∈ D.head?, isWhiteSpace c = false)
    (hlast : ∀ c ∈ D.getLast?, isWhiteSpace c = false) (hlines : NoHeadingLine D)
    (hgap : ∀ c ∈ gap, isWhiteSpace c = true) (hgaphead : ∀ c ∈ gap.head?, c = '\n')
    (hpost : post = [] ∨ "\n### ".toList <+: post) :
    (parseIssueData
      (pre ++ ("### App Description".toList ++ ("\n\n".toList ++ ((D ++ gap) ++ post))))).description
      = D := by
  have htext : (D ++ gap) ≠ [] := by
    intro h
    exact hne (List.append_eq_nil.mp h).1
  have hh : ∀ c ∈ (D ++ gap).head?, isWhiteSpace c = false := by
    cases D with
    | nil => exact absurd rfl hne
    | cons c cs => simpa using hhead
  have hno := noHeadingLine_no_boundary _ (noHeadingLine_append_gap D gap hlines hgap hgaphead)
  have := extractMultilineValue_region "App Description".toList pre "### App Description".toList
    "\n\n".toList (D ++ gap) post hfirst rfl (by decide) (by decide) htext hh hno hpost
  show extractMultilineValue _ _ = D
  rw [this, trim_append_whiteSpace _ _ hgap, trim_eq_self _ hhead hlast]

theorem parseIssueData_description_verbatim_witness :
    (parseIssueData
      ("### App ID\nsample\n\n### App Description\n\nFirst paragraph.\n\nSecond paragraph." ++
       "\n\n### Categories\n- Utilities\n").toList).description
      = "First paragraph.\n\nSecond paragraph.".toList :=
  parseIssueData_description_verbatim "### App ID\nsample\n\n".toList twoParagraphs "\n".toList
    "\n### Categories\n- Utilities\n".toList (by decide) (by decide) (by decide) (by decide)
    (by unfold NoHeadingLine; decide) (by decide) (by decide) (Or.inr (by decide))

/-- C14: extraction is idempotent over already-extracted text: if `v` is the
result of `extractValue` (respectively `extractMultilineValue`) for a field name
on a body and `v` has no line beginning with `### `, then the same extractor
applied to `### <fieldName>\n` followed by `v` returns `v` again. -/
theorem extractors_idempotent (body fieldName : Str) :
    (NoHeadingLine (extractValue body fieldName) →
      extractValue ("### ".toList ++ fieldName ++ "\n".toList ++ extractValue body fieldName)
        fieldName = extractValue body fieldName) ∧
    (NoHeadingLine (extractMultilineValue body fieldName) →
      extractMultilineValue
        ("### ".toList ++ fieldName ++ "\n".toList ++ extractMultilineValue body fieldName)
        fieldName = extractMultilineValue body fieldName) := by
  constructor
  · intro _
    exact reextract_value fieldName _ (extractValue_no_newline body fieldName)
      (extractValue_trimmed body fieldName).1 (extractValue_trimmed body fieldName).2
  · intro hno
    exact reextract_multiline fieldName _ hno
      (extractMultilineValue_trimmed body fieldName).1
      (extractMultilineValue_trimmed body fieldName).2

theorem extractors_idempotent_witness :
    (NoHeadingLine (extractValue formStyleBody "App ID".toList) ∧
      extractValue
        ("### ".toList ++ "App ID".toList ++ "\n".toList ++
          extractValue formStyleBody "App ID".toList)
        "App ID".toList = extractValue formStyleBody "App ID".toList) ∧
    (NoHeadingLine (extractMultilineValue blankAppIdBody "App Description".toList) ∧
      extractMultilineValue
        ("### ".toList ++ "App Description".toList ++ "\n".toList ++
          extractMultilineValue blankAppIdBody "App Description".toList)
        "App Description".toList
        = extractMultilineValue blankAppIdBody "App Description".toList) :=
  have h1 : NoHeadingLine (extractValue formStyleBody "App ID".toList) := by
    unfold NoHeadingLine; decide
  have h2 : NoHeadingLine (extractMultilineValue blankAppIdBody "App Description".toList) := by
    unfold NoHeadingLine; decide
  ⟨⟨h1, (extractors_idempotent formStyleBody "App ID".toList).1 h1⟩,
   ⟨h2, (extractors_idempotent blankAppIdBody "App Description".toList).2 h2⟩⟩

/-! ## Workflow -/

theorem processSteps_rejected (host : Host) (ctx : Context) (now : Nat)
    (herr : validateData (parseIssueData ctx.issueBody) ≠ []) :
    processSteps host ctx now =
      commentError host ctx (validationMessage (validateData (parseIssueData ctx.issueBody))) [] := by
  have hlen : (validateData (parseIssueData ctx.issueBody)).length > 0 :=
    List.length_pos.mpr herr
  unfold processSteps
  simp only [hlen, if_true]

theorem validateData_no_newline (body : Str) :
    ∀ e ∈ validateData (parseIssueData body), '\n' ∉ e := by
  intro e he
  rw [validateData_eq] at he
  rcases List.mem_append.mp he with he | he
  · unfold expectedMissing at he
    simp only [List.mem_append] at he
    rcases he with (((he | he) | he) | he) | he <;> split at he <;>
      simp at he <;> subst he <;> decide
  · split at he
    · rw [List.mem_singleton.mp he]
      intro hm
      unfold invalidUrlError at hm
      rcases List.mem_append.mp hm with hm | hm
      · rcases List.mem_append.mp hm with hm | hm
        · exact absurd hm (by decide)
        · exact extractValue_no_newline body "GitHub Repository URL".toList hm
      · exact absurd hm (by decide)
    · simp at he

/-- Every error of the list is a line `- <error>` of the validation comment. -/
theorem validationMessage_lines (errors : List Str) (hne : errors ≠ [])
    (hnl : ∀ e ∈ errors, '\n' ∉ e) :
    ∀ e ∈ errors, ("- ".toList ++ e) ∈ splitLines (validationMessage errors) := by
  intro e he
  have hjoin : splitLines (joinWith "\n".toList (errors.map (fun error => "- ".toList ++ error)))
      = errors.map (fun error => "- ".toList ++ error) := by
    apply splitLines_joinWith
    · simpa using hne
    · intro l hl
      obtain ⟨x, hx, rfl⟩ := List.mem_map.mp hl
      intro hm
      rcases List.mem_append.mp hm with hm | hm
      · exact absurd hm (by decide)
      · exact hnl x hx hm
  have hshape : validationMessage errors =
      "Submission Error\n\nSome required fields are missing or invalid:".toList ++ '\n' ::
        (joinWith "\n".toList (errors.map (fun error => "- ".toList ++ error)) ++ '\n' ::
          "\nPlease edit your issue to provide all required information.".toList) := by
    unfold validationMessage
    simp
  rw [hshape, splitLines_append_newline, splitLines_append_newline, hjoin]
  simp only [List.mem_append, List.mem_map]
  exact Or.inr (Or.inl ⟨e, he, rfl⟩)

/-- C15 (as stated, refuted): when posting the validation comment fails, the
`catch` of `process` posts a second comment, so the run makes two host calls. -/
theorem process_rejected_two_calls :
    validateData (parseIssueData emptyFormContext.issueBody) ≠ [] ∧
    (process commentFailHost emptyFormContext 0).2 =
      [HostCall.createComment 8
         (validationMessage (validateData (parseIssueData emptyFormContext.issueBody))),
       HostCall.createComment 8 (processingErrorMessage "Service Unavailable".toList)] ∧
    (process commentFailHost emptyFormContext 0).2.length = 2 := by
  decide

/-- C15 (amended): when `validateData` reports errors, the first host call of
`process` is a comment whose body has the line `- <error>` for every error of the
list; if that call succeeds it is the only host call, if it fails the only
further call is the `Processing Error` comment of the `catch`; in no case is
there a getContent, getBranch, createRef, createOrUpdateFileContents,
pulls.create or addLabels call. -/
theorem process_rejected (host : Host) (ctx : Context) (now : Nat)
    (herr : validateData (parseIssueData ctx.issueBody) ≠ []) :
    (∀ e ∈ validateData (parseIssueData ctx.issueBody),
      ("- ".toList ++ e)
        ∈ splitLines (validationMessage (validateData (parseIssueData ctx.issueBody)))) ∧
    (host.createComment
        [HostCall.createComment ctx.issueNumber
          (validationMessage (validateData (parseIssueData ctx.issueBody)))] = Outcome.ok () →
      (process host ctx now).2 =
        [HostCall.createComment ctx.issueNumber
          (validationMessage (validateData (parseIssueData ctx.issueBody)))]) ∧
    (∀ err, host.createComment
        [HostCall.createComment ctx.issueNumber
          (validationMessage (validateData (parseIssueData ctx.issueBody)))] = Outcome.error err →
      (process host ctx now).2 =
        [HostCall.createComment ctx.issueNumber
          (validationMessage (validateData (parseIssueData ctx.issueBody))),
         HostCall.createComment ctx.issueNumber (processingErrorMessage err.message)]) ∧
    (∀ call ∈ (process host ctx now).2, call.kind = CallKind.createComment) := by
  have hsteps := processSteps_rejected host ctx now herr
  have h2 : host.createComment
      [HostCall.createComment ctx.issueNumber
        (validationMessage (validateData (parseIssueData ctx.issueBody)))] = Outcome.ok () →
      (process host ctx now).2 =
        [HostCall.createComment ctx.issueNumber
          (validationMessage (validateData (parseIssueData ctx.issueBody)))] := by
    intro hok
    unfold process
    rw [hsteps]
    simp [commentError, hok]
  have h3 : ∀ err, host.createComment
      [HostCall.createComment ctx.issueNumber
        (validationMessage (validateData (parseIssueData ctx.issueBody)))] = Outcome.error err →
      (process host ctx now).2 =
        [HostCall.createComment ctx.issueNumber
          (validationMessage (validateData (parseIssueData ctx.issueBody))),
         HostCall.createComment ctx.issueNumber (processingErrorMessage err.message)] := by
    intro err herror
    unfold process
    rw [hsteps]
    simp [commentError, herror]
  refine ⟨validationMessage_lines _ herr (validateData_no_newline ctx.issueBody), h2, h3, ?_⟩
  intro call hcall
  cases hc : host.createComment
      [HostCall.createComment ctx.issueNumber
        (validationMessage (validateData (parseIssueData ctx.issueBody)))] with
  | ok u =>
    rw [h2 hc] at hcall
    rw [List.mem_singleton.mp hcall]
    rfl
  | error err =>
    rw [h3 err hc] at hcall
    simp only [List.mem_cons, List.mem_singleton, List.not_mem_nil, or_false] at hcall
    rcases hcall with rfl | rfl <;> rfl

theorem process_rejected_witness :
    validateData (parseIssueData emptyFormContext.issueBody) ≠ [] ∧
    (process (okHost []) emptyFormContext 0).2 =
      [HostCall.createComment emptyFormContext.issueNumber
        (validationMessage (validateData (parseIssueData emptyFormContext.issueBody)))] :=
  ⟨by decide, (process_rejected (okHost []) emptyFormContext 0 (by decide)).2.1 rfl⟩

theorem processSteps_duplicate (host : Host) (ctx : Context) (now : Nat) (file : FileData)
    (hvalid : validateData (parseIssueData ctx.issueBody) = [])
    (hfile : host.getContent [HostCall.getContent "apps.yaml".toList] = Outcome.ok file)
    (hdup : ((parseIssueData ctx.issueBody).appId ++ ":".toList) <:+: file.content) :
    processSteps host ctx now =
      commentError host ctx (duplicateMessage (parseIssueData ctx.issueBody).appId)
        [HostCall.getContent "apps.yaml".toList] := by
  have hinc := ( includes_iff_infix _ _).mpr hdup
  unfold processSteps checkForDuplicate
  simp only [hvalid, List.length_nil, gt_iff_lt, Nat.lt_irrefl, if_false, List.nil_append, hfile,
    hinc, if_true]

/-- The trace of `process` when the `try` block ends in a comment: that comment,
and the `Processing Error` comment if posting it failed. -/
theorem process_trace_of_comment (host : Host) (ctx : Context) (now : Nat) (message : Str)
    (trace : List HostCall)
    (h : processSteps host ctx now = commentError host ctx message trace) :
    (∀ u, host.createComment (trace ++ [HostCall.createComment ctx.issueNumber message])
        = Outcome.ok u →
      (process host ctx now).2 = trace ++ [HostCall.createComment ctx.issueNumber message]) ∧
    (∀ err, host.createComment (trace ++ [HostCall.createComment ctx.issueNumber message])
        = Outcome.error err →
      (process host ctx now).2 = trace ++ [HostCall.createComment ctx.issueNumber message] ++
        [HostCall.createComment ctx.issueNumber (processingErrorMessage err.message)]) := by
  constructor
  · intro u hu
    unfold process
    rw [h]
    unfold commentError
    simp only [hu]
  · intro err herror
    unfold process
    rw [h]
    unfold commentError
    simp only [herror]

/-- C16: for a valid record with appId `a` and a host on which the read of
`apps.yaml` returns a text containing `a:`, the run of `process` reads the file,
posts the `App Already Exists` comment naming `a`, and makes no other call except
the `Processing Error` comment when posting failed: no branch creation, no file
write, no pull request. -/
theorem process_duplicate (host : Host) (ctx : Context) (now : Nat) (file : FileData)
    (hvalid : validateData (parseIssueData ctx.issueBody) = [])
    (hfile : host.getContent [HostCall.getContent "apps.yaml".toList] = Outcome.ok file)
    (hdup : ((parseIssueData ctx.issueBody).appId ++ ":".toList) <:+: file.content) :
    (∃ rest, (process host ctx now).2 =
        HostCall.getContent "apps.yaml".toList ::
          HostCall.createComment ctx.issueNumber
            (duplicateMessage (parseIssueData ctx.issueBody).appId) :: rest ∧
        ∀ call ∈ rest, call.kind = CallKind.createComment) ∧
    (∀ call ∈ (process host ctx now).2,
      call.kind ≠ CallKind.createRef ∧ call.kind ≠ CallKind.createOrUpdateFileContents ∧
      call.kind ≠ CallKind.pullsCreate) ∧
    duplicateMessage (parseIssueData ctx.issueBody).appId =
      "App Already Exists\n\nAn app with the ID \"".toList ++
        (parseIssueData ctx.issueBody).appId ++
        ("\" already exists in the repository.\n" ++
         "Please choose a different App ID or check if this is a duplicate submission.").toList := by
  have hsteps := processSteps_duplicate host ctx now file hvalid hfile hdup
  have htrace : ∃ rest, (process host ctx now).2 =
      HostCall.getContent "apps.yaml".toList ::
        HostCall.createComment ctx.issueNumber
          (duplicateMessage (parseIssueData ctx.issueBody).appId) :: rest ∧
      ∀ call ∈ rest, call.kind = CallKind.createComment := by
    obtain ⟨h1, h2⟩ := process_trace_of_comment host ctx now _ _ hsteps
    cases hc : host.createComment
        ([HostCall.getContent "apps.yaml".toList] ++
          [HostCall.createComment ctx.issueNumber
            (duplicateMessage (parseIssueData ctx.issueBody).appId)]) with
    | ok u => exact ⟨[], h1 u hc, by simp⟩
    | error err =>
      refine ⟨[HostCall.createComment ctx.issueNumber (processingErrorMessage err.message)],
        h2 err hc, ?_⟩
      intro call hcall
      rw [List.mem_singleton.mp hcall]
      rfl
  refine ⟨htrace, ?_, rfl⟩
  obtain ⟨rest, hrest, hkind⟩ := htrace
  intro call hcall
  rw [hrest] at hcall
  rcases List.mem_cons.mp hcall with rfl | hcall
  · exact ⟨by simp [HostCall.kind], by simp [HostCall.kind], by simp [HostCall.kind]⟩
  · rcases List.mem_cons.mp hcall with rfl | hcall
    · exact ⟨by simp [HostCall.kind], by simp [HostCall.kind], by simp [HostCall.kind]⟩
    · rw [hkind call hcall]
      exact ⟨by simp, by simp, by simp⟩

theorem process_duplicate_witness :
    validateData (parseIssueData myappContext.issueBody) = [] ∧
    (parseIssueData myappContext.issueBody).appId = "myapp".toList ∧
    "myapp:".toList <:+: myappFile ∧
    ∀ call ∈ (process (okHost myappFile) myappContext 0).2,
      call.kind ≠ CallKind.createRef ∧ call.kind ≠ CallKind.createOrUpdateFileContents ∧
      call.kind ≠ CallKind.pullsCreate :=
  ⟨by decide, by decide, by decide,
   (process_duplicate (okHost myappFile) myappContext 0 ⟨myappFile, "abc123".toList⟩
      (by decide) rfl (by decide)).2.1⟩

/-- C17 (code at the failing input): against a file whose only key is `myapp`,
the appId `app` is reported as a duplicate although no line begins with `app:`. -/
theorem checkForDuplicate_suffix_of_key :
    (checkForDuplicate (okHost myappFile) "app".toList []).1 = Outcome.ok true ∧
    (∀ l ∈ splitLines myappFile, ¬ "app:".toList <+: l) ∧
    (process (okHost myappFile)
      { myappContext with issueBody := "### App ID\napp\n".toList ++ myappContext.issueBody } 0).2.map
      HostCall.kind = [CallKind.getContent, CallKind.createComment] := by
  decide

/-- C18 (as stated, refuted): when both reads of `apps.yaml` fail with a
server error, the run goes on to create the branch, write the file and open the
pull request, and posts the success comment; no `Processing Error` comment is
posted. -/
theorem process_read_error_swallowed :
    validateData (parseIssueData myappContext.issueBody) = [] ∧
    (process readFailHost myappContext 1700000000000).2.map HostCall.kind =
      [CallKind.getContent, CallKind.getContent, CallKind.getBranch, CallKind.createRef,
       CallKind.createOrUpdateFileContents, CallKind.pullsCreate, CallKind.createComment,
       CallKind.addLabels] ∧
    HostCall.createComment 7 (successMessage 42)
      ∈ (process readFailHost myappContext 1700000000000).2 ∧
    HostCall.createComment 7 (processingErrorMessage "Internal Server Error".toList)
      ∉ (process readFailHost myappContext 1700000000000).2 := by
  decide

theorem checkForDuplicate_read_error (host : Host) (appId : Str) (trace : List HostCall)
    (err : HostError)
    (h : host.getContent (trace ++ [HostCall.getContent "apps.yaml".toList]) = Outcome.error err) :
    checkForDuplicate host appId trace
      = (Outcome.ok false, trace ++ [HostCall.getContent "apps.yaml".toList]) := by
  unfold checkForDuplicate
  simp only [h]

theorem processingErrorMessage_mentions (message : Str) :
    message <:+ processingErrorMessage message :=
  List.suffix_append _ _

/-- The `try` block on a valid record that the duplicate check lets through. -/
theorem processSteps_submit (host : Host) (ctx : Context) (now : Nat)
    (hvalid : validateData (parseIssueData ctx.issueBody) = [])
    (hnodup : checkForDuplicate host (parseIssueData ctx.issueBody).appId []
      = (Outcome.ok false, [HostCall.getContent "apps.yaml".toList])) :
    processSteps host ctx now =
      match createPullRequest host ctx now (parseIssueData ctx.issueBody)
          (generateYamlEntry (parseIssueData ctx.issueBody))
          [HostCall.getContent "apps.yaml".toList] with
      | (Outcome.error err, trace) => (Outcome.error err, trace)
      | (Outcome.ok prNumber, trace) =>
        match commentSuccess host ctx prNumber trace with
        | (Outcome.error err, trace) => (Outcome.error err, trace)
        | (Outcome.ok _, trace) => addLabels host ctx trace := by
  unfold processSteps
  simp only [hvalid, List.length_nil, gt_iff_lt, Nat.lt_irrefl, if_false, hnodup,
    Bool.false_eq_true]

/-- C18 (amended): an error of the read of `apps.yaml` in the duplicate check,
whatever it is, gives the answer "no duplicate" and the run goes on. On a valid
record that the duplicate check lets through, when the branch lookup, the branch
creation, the file write, the opening of the pull request, the success comment or
the labelling fails with `err` (the calls before it having succeeded), the run
makes no later submission call: its only further call, and its last, is one
`Processing Error` comment, whose body ends with the message of `err`. -/
theorem process_call_failure (host : Host) (ctx : Context) (now : Nat) (err : HostError)
    (hvalid : validateData (parseIssueData ctx.issueBody) = []) :
    (∀ appId trace,
      host.getContent (trace ++ [HostCall.getContent "apps.yaml".toList]) = Outcome.error err →
      checkForDuplicate host appId trace
        = (Outcome.ok false, trace ++ [HostCall.getContent "apps.yaml".toList])) ∧
    err.message <:+ processingErrorMessage err.message ∧
    (checkForDuplicate host (parseIssueData ctx.issueBody).appId []
        = (Outcome.ok false, [HostCall.getContent "apps.yaml".toList]) →
      ((∀ t, host.getBranch t = Outcome.error err) →
        EndsWithProcessingError ctx err
          [CallKind.getContent, CallKind.getContent, CallKind.getBranch]
          (process host ctx now).2) ∧
      ((∀ t, ∃ sha, host.getBranch t = Outcome.ok sha) →
        (∀ t, host.createRef t = Outcome.error err) →
        EndsWithProcessingError ctx err
          [CallKind.getContent, CallKind.getContent, CallKind.getBranch, CallKind.createRef]
          (process host ctx now).2) ∧
      ((∀ t, ∃ sha, host.getBranch t = Outcome.ok sha) →
        (∀ t, host.createRef t = Outcome.ok ()) →
        (∀ t, host.createOrUpdateFileContents t = Outcome.error err) →
        EndsWithProcessingError ctx err
          [CallKind.getContent, CallKind.getContent, CallKind.getBranch, CallKind.createRef,
           CallKind.createOrUpdateFileContents]
          (process host ctx now).2) ∧
      ((∀ t, ∃ sha, host.getBranch t = Outcome.ok sha) →
        (∀ t, host.createRef t = Outcome.ok ()) →
        (∀ t, host.createOrUpdateFileContents t = Outcome.ok ()) →
        (∀ t, host.pullsCreate t = Outcome.error err) →
        EndsWithProcessingError ctx err
          [CallKind.getContent, CallKind.getContent, CallKind.getBranch, CallKind.createRef,
           CallKind.createOrUpdateFileContents, CallKind.pullsCreate]
          (process host ctx now).2) ∧
      ((∀ t, ∃ sha, host.getBranch t = Outcome.ok sha) →
        (∀ t, host.createRef t = Outcome.ok ()) →
        (∀ t, host.createOrUpdateFileContents t = Outcome.ok ()) →
        (∀ t, ∃ number, host.pullsCreate t = Outcome.ok number) →
        (∀ t, host.createComment t = Outcome.error err) →
        EndsWithProcessingError ctx err
          [CallKind.getContent, CallKind.getContent, CallKind.getBranch, CallKind.createRef,
           CallKind.createOrUpdateFileContents, CallKind.pullsCreate, CallKind.createComment]
          (process host ctx now).2) ∧
      ((∀ t, ∃ sha, host.getBranch t = Outcome.ok sha) →
        (∀ t, host.createRef t = Outcome.ok ()) →
        (∀ t, host.createOrUpdateFileContents t = Outcome.ok ()) →
        (∀ t, ∃ number, host.pullsCreate t = Outcome.ok number) →
        (∀ t, host.createComment t = Outcome.ok ()) →
        (∀ t, host.addLabels t = Outcome.error err) →
        EndsWithProcessingError ctx err
          [CallKind.getContent, CallKind.getContent, CallKind.getBranch, CallKind.createRef,
           CallKind.createOrUpdateFileContents, CallKind.pullsCreate, CallKind.createComment,
           CallKind.addLabels]
          (process host ctx now).2)) := by
  refine ⟨fun appId trace h => checkForDuplicate_read_error host appId trace err h,
    processingErrorMessage_mentions _, fun hnodup => ?_⟩
  have hsteps := processSteps_submit host ctx now hvalid hnodup
  refine ⟨?_, ?_, ?_, ?_, ?_, ?_⟩
  · intro hgb
    unfold EndsWithProcessingError process
    rw [hsteps]
    unfold createPullRequest
    simp [hgb, commentError, HostCall.kind]
  · intro hgb hcr
    choose baseSha hgb using hgb
    unfold EndsWithProcessingError process
    rw [hsteps]
    unfold createPullRequest
    simp [hgb, hcr, commentError, HostCall.kind]
  · intro hgb hcr hwr
    choose baseSha hgb using hgb
    unfold EndsWithProcessingError process
    rw [hsteps]
    unfold createPullRequest
    simp [hgb, hcr, hwr, commentError, HostCall.kind]
  · intro hgb hcr hwr hpc
    choose baseSha hgb using hgb
    unfold EndsWithProcessingError process
    rw [hsteps]
    unfold createPullRequest
    simp [hgb, hcr, hwr, hpc, commentError, HostCall.kind]
  · intro hgb hcr hwr hpc hcc
    choose baseSha hgb using hgb
    choose number hpc using hpc
    unfold EndsWithProcessingError process
    rw [hsteps]
    unfold createPullRequest
    simp [hgb, hcr, hwr, hpc, hcc, commentError, commentSuccess, HostCall.kind]
  · intro hgb hcr hwr hpc hcc hal
    choose baseSha hgb using hgb
    choose number hpc using hpc
    unfold EndsWithProcessingError process
    rw [hsteps]
    unfold createPullRequest
    simp [hgb, hcr, hwr, hpc, hcc, hal, commentError, commentSuccess, addLabels, HostCall.kind]

theorem process_call_failure_witness :
    validateData (parseIssueData myappContext.issueBody) = [] ∧
    EndsWithProcessingError myappContext ⟨422, "Reference already exists".toList⟩
      [CallKind.getContent, CallKind.getContent, CallKind.getBranch, CallKind.createRef]
      (process refFailHost myappContext 1700000000000).2 :=
  ⟨by decide,
   ((process_call_failure refFailHost myappContext 1700000000000
      ⟨422, "Reference already exists".toList⟩ (by decide)).2.2 (by decide)).2.1
      (fun _ => ⟨"deadbeef".toList, rfl⟩) (fun _ => rfl)⟩

/-- The run of `createPullRequest` when the read returns the file and the later
calls succeed. -/
theorem createPullRequest_file (host : Host) (ctx : Context) (now : Nat) (data : SubmissionData)
    (yamlEntry : Str) (trace : List HostCall) (file : FileData) (baseSha : Str) (number : Nat)
    (hfile : host.getContent (trace ++ [HostCall.getContent "apps.yaml".toList]) = Outcome.ok file)
    (hbranch : host.getBranch
      (trace ++ [HostCall.getContent "apps.yaml".toList] ++ [HostCall.getBranch (defaultBranchOf ctx)])
      = Outcome.ok baseSha)
    (href : ∀ t, host.createRef t = Outcome.ok ())
    (hwrite : ∀ t, host.createOrUpdateFileContents t = Outcome.ok ())
    (hpull : host.pullsCreate
      (trace ++ [HostCall.getContent "apps.yaml".toList] ++ [HostCall.getBranch (defaultBranchOf ctx)]
        ++ [HostCall.createRef ("refs/heads/".toList ++ branchNameOf data now) baseSha]
        ++ [HostCall.createOrUpdateFileContents "apps.yaml".toList (commitMessage ctx data)
              (file.content ++ "\n".toList ++ yamlEntry) (branchNameOf data now) (shaParam file.sha)]
        ++ [HostCall.pullsCreate
              ("Add ".toList ++ data.appName ++ " to F-Droid repository".toList)
              (branchNameOf data now) (defaultBranchOf ctx) (generatePRDescription ctx data)])
      = Outcome.ok number) :
    createPullRequest host ctx now data yamlEntry trace =
      (Outcome.ok number,
       trace ++ [HostCall.getContent "apps.yaml".toList] ++ [HostCall.getBranch (defaultBranchOf ctx)]
        ++ [HostCall.createRef ("refs/heads/".toList ++ branchNameOf data now) baseSha]
        ++ [HostCall.createOrUpdateFileContents "apps.yaml".toList (commitMessage ctx data)
              (file.content ++ "\n".toList ++ yamlEntry) (branchNameOf data now) (shaParam file.sha)]
        ++ [HostCall.pullsCreate
              ("Add ".toList ++ data.appName ++ " to F-Droid repository".toList)
              (branchNameOf data now) (defaultBranchOf ctx) (generatePRDescription ctx data)]) := by
  unfold createPullRequest
  simp only [hfile]
  have hb' := hbranch
  unfold defaultBranchOf at hb'
  rw [hb']
  simp only [href, hwrite]
  have hp' := hpull
  unfold defaultBranchOf branchNameOf shaParam at hp'
  rw [hp']
  rfl

theorem successMessage_mentions (number : Nat) :
    ("#".toList ++ decimal number) <:+: successMessage number := by
  refine ⟨("Submission Processed Successfully!\n      \nYour app submission has been processed " ++
      "and a Pull Request has been created: ").toList,
    ("\n\n**Next Steps:**\n1. The maintainers will review your submission\n" ++
     "2. You may be asked to make changes if needed\n" ++
     "3. Once approved, your app will be available in the F-Droid repository!\n\n" ++
     "You can track the progress in PR #").toList ++ decimal number ++
    ".\n\nThank you for contributing to the FOSS BU Community!".toList, ?_⟩
  unfold successMessage
  have e : ("Submission Processed Successfully!\n      \nYour app submission has been processed " ++
      "and a Pull Request has been created: #").toList
      = ("Submission Processed Successfully!\n      \nYour app submission has been processed " ++
      "and a Pull Request has been created: ").toList ++ "#".toList := by decide
  rw [e]
  simp only [List.append_assoc]

/-- C19: for a valid, non-duplicate record on a host on which every call
succeeds, the run of `process` reads `apps.yaml` twice, reads the default branch,
then creates the branch, writes the file and opens the pull request, once each
and in that order, the write and the pull request on the branch just created;
then it posts the success comment, which mentions the number returned by
`pulls.create`, and adds the labels `processed` and `pending-review`. -/
theorem process_success (host : Host) (ctx : Context) (now : Nat)
    (hvalid : validateData (parseIssueData ctx.issueBody) = [])
    (hall : host.AllSucceed)
    (hnodup : ∀ file, host.getContent [HostCall.getContent "apps.yaml".toList] = Outcome.ok file →
      ¬ ((parseIssueData ctx.issueBody).appId ++ ":".toList) <:+: file.content) :
    ∃ (file : FileData) (baseSha : Str) (number : Nat),
      process host ctx now =
        (Outcome.ok (),
         [HostCall.getContent "apps.yaml".toList,
          HostCall.getContent "apps.yaml".toList,
          HostCall.getBranch (defaultBranchOf ctx),
          HostCall.createRef
            ("refs/heads/".toList ++ branchNameOf (parseIssueData ctx.issueBody) now) baseSha,
          HostCall.createOrUpdateFileContents "apps.yaml".toList
            (commitMessage ctx (parseIssueData ctx.issueBody))
            (file.content ++ "\n".toList ++ generateYamlEntry (parseIssueData ctx.issueBody))
            (branchNameOf (parseIssueData ctx.issueBody) now) (shaParam file.sha),
          HostCall.pullsCreate
            ("Add ".toList ++ (parseIssueData ctx.issueBody).appName ++
              " to F-Droid repository".toList)
            (branchNameOf (parseIssueData ctx.issueBody) now) (defaultBranchOf ctx)
            (generatePRDescription ctx (parseIssueData ctx.issueBody)),
          HostCall.createComment ctx.issueNumber (successMessage number),
          HostCall.addLabels ctx.issueNumber ["processed".toList, "pending-review".toList]]) ∧
      host.pullsCreate ((process host ctx now).2.take 6) = Outcome.ok number ∧
      ("#".toList ++ decimal number) <:+: successMessage number := by
  obtain ⟨hgc, hgb, hcr, hwr, hpc, hcc, hal⟩ := hall
  obtain ⟨file1, hfile1⟩ := hgc [HostCall.getContent "apps.yaml".toList]
  obtain ⟨file, hfile⟩ := hgc ([HostCall.getContent "apps.yaml".toList] ++
    [HostCall.getContent "apps.yaml".toList])
  obtain ⟨baseSha, hbase⟩ := hgb ([HostCall.getContent "apps.yaml".toList] ++
    [HostCall.getContent "apps.yaml".toList] ++ [HostCall.getBranch (defaultBranchOf ctx)])
  obtain ⟨number, hnumber⟩ := hpc
    ([HostCall.getContent "apps.yaml".toList] ++ [HostCall.getContent "apps.yaml".toList] ++
      [HostCall.getBranch (defaultBranchOf ctx)] ++
      [HostCall.createRef
        ("refs/heads/".toList ++ branchNameOf (parseIssueData ctx.issueBody) now) baseSha] ++
      [HostCall.createOrUpdateFileContents "apps.yaml".toList
        (commitMessage ctx (parseIssueData ctx.issueBody))
        (file.content ++ "\n".toList ++ generateYamlEntry (parseIssueData ctx.issueBody))
        (branchNameOf (parseIssueData ctx.issueBody) now) (shaParam file.sha)] ++
      [HostCall.pullsCreate
        ("Add ".toList ++ (parseIssueData ctx.issueBody).appName ++
          " to F-Droid repository".toList)
        (branchNameOf (parseIssueData ctx.issueBody) now) (defaultBranchOf ctx)
        (generatePRDescription ctx (parseIssueData ctx.issueBody))])
  have hpr := createPullRequest_file host ctx now (parseIssueData ctx.issueBody)
    (generateYamlEntry (parseIssueData ctx.issueBody)) [HostCall.getContent "apps.yaml".toList]
    file baseSha number hfile hbase hcr hwr hnumber
  have hinc : includes file1.content ((parseIssueData ctx.issueBody).appId ++ ":".toList)
      = false := by
    cases hi : includes file1.content ((parseIssueData ctx.issueBody).appId ++ ":".toList)
    · rfl
    · exact absurd (( includes_iff_infix _ _).mp hi) (hnodup file1 hfile1)
  have hrun : process host ctx now =
      (Outcome.ok (),
       [HostCall.getContent "apps.yaml".toList] ++ [HostCall.getContent "apps.yaml".toList] ++
        [HostCall.getBranch (defaultBranchOf ctx)] ++
        [HostCall.createRef
          ("refs/heads/".toList ++ branchNameOf (parseIssueData ctx.issueBody) now) baseSha] ++
        [HostCall.createOrUpdateFileContents "apps.yaml".toList
          (commitMessage ctx (parseIssueData ctx.issueBody))
          (file.content ++ "\n".toList ++ generateYamlEntry (parseIssueData ctx.issueBody))
          (branchNameOf (parseIssueData ctx.issueBody) now) (shaParam file.sha)] ++
        [HostCall.pullsCreate
          ("Add ".toList ++ (parseIssueData ctx.issueBody).appName ++
            " to F-Droid repository".toList)
          (branchNameOf (parseIssueData ctx.issueBody) now) (defaultBranchOf ctx)
          (generatePRDescription ctx (parseIssueData ctx.issueBody))] ++
        [HostCall.createComment ctx.issueNumber (successMessage number)] ++
        [HostCall.addLabels ctx.issueNumber ["processed".toList, "pending-review".toList]]) := by
    unfold process processSteps checkForDuplicate
    simp only [hvalid, List.length_nil, gt_iff_lt, Nat.lt_irrefl, if_false, List.nil_append,
      hfile1, hinc, Bool.false_eq_true]
    rw [hpr]
    simp only [commentSuccess, addLabels, hcc, hal]
  refine ⟨file, baseSha, number, hrun, ?_, successMessage_mentions number⟩
  rw [hrun]
  exact hnumber

theorem process_success_witness :
    validateData (parseIssueData myappContext.issueBody) = [] ∧
    (process (okHost "other:\n".toList) myappContext 1700000000000).2.map HostCall.kind =
      [CallKind.getContent, CallKind.getContent, CallKind.getBranch, CallKind.createRef,
       CallKind.createOrUpdateFileContents, CallKind.pullsCreate, CallKind.createComment,
       CallKind.addLabels] :=
  ⟨by decide, by
    obtain ⟨file, baseSha, number, h, -, -⟩ :=
      process_success (okHost "other:\n".toList) myappContext 1700000000000 (by decide)
        ⟨fun _ => ⟨_, rfl⟩, fun _ => ⟨_, rfl⟩, fun _ => rfl, fun _ => rfl, fun _ => ⟨_, rfl⟩,
          fun _ => rfl, fun _ => rfl⟩
        (by
          intro file hfile
          have : file = ⟨"other:\n".toList, "abc123".toList⟩ := by
            simpa [okHost] using hfile.symm
          rw [this]
          decide)
    rw [h]
    rfl⟩

theorem fileWrites_append (a b : List HostCall) : fileWrites (a ++ b) = fileWrites a ++ fileWrites b := by
  simp [fileWrites, List.filterMap_append]

/-- The file write of `createPullRequest`, once the default branch was read and
the branch created: the content is the current content, a line feed and the
entry. -/
theorem createPullRequest_fileWrites (host : Host) (ctx : Context) (now : Nat)
    (data : SubmissionData) (yamlEntry : Str) (trace : List HostCall)
    (hbranch : ∀ t, ∃ sha, host.getBranch t = Outcome.ok sha)
    (href : ∀ t, host.createRef t = Outcome.ok ()) :
    fileWrites (createPullRequest host ctx now data yamlEntry trace).2 =
      fileWrites trace ++
        [match host.getContent (trace ++ [HostCall.getContent "apps.yaml".toList]) with
         | Outcome.ok file =>
           (file.content ++ "\n".toList ++ yamlEntry, branchNameOf data now, shaParam file.sha)
         | Outcome.error _ => ("\n".toList ++ yamlEntry, branchNameOf data now, none)] := by
  unfold createPullRequest
  simp only []
  obtain ⟨baseSha, hbase⟩ := hbranch
    (trace ++ [HostCall.getContent "apps.yaml".toList] ++ [HostCall.getBranch (defaultBranchOf ctx)])
  unfold defaultBranchOf at hbase
  rw [hbase]
  simp only [href]
  cases hfile : host.getContent (trace ++ [HostCall.getContent "apps.yaml".toList]) with
  | ok file =>
    simp only []
    split <;> (try split) <;>
      simp [fileWrites_append, fileWrites, branchNameOf, shaParam]
  | error err =>
    simp only []
    split <;> (try split) <;>
      simp [fileWrites_append, fileWrites, branchNameOf]

theorem blankLineBefore_iff (c e : Str) :
    blankLineBefore (c ++ "\n".toList ++ e) e = true ↔ (c = [] ∨ c.getLast? = some '\n') := by
  have htake : (c ++ "\n".toList ++ e).take ((c ++ "\n".toList ++ e).length - e.length)
      = c ++ ['\n'] := by
    have : (c ++ "\n".toList ++ e).length - e.length = (c ++ ['\n']).length := by
      simp
      omega
    rw [this]
    exact List.take_left' rfl
  have hsuf : e.isSuffixOf (c ++ "\n".toList ++ e) = true := by
    rw [List.isSuffixOf_iff_suffix]
    exact List.suffix_append _ _
  unfold blankLineBefore
  rw [htake, hsuf, Bool.true_and, Bool.or_eq_true, List.isSuffixOf_iff_suffix]
  constructor
  · rintro (h | h)
    · left
      have h' : c ++ ['\n'] = ['\n'] := by simpa using h
      cases c with
      | nil => rfl
      | cons x xs =>
        have := congrArg List.length h'
        simp at this
    · right
      obtain ⟨t, ht⟩ := h
      have h2 : t ++ ['\n'] ++ ['\n'] = c ++ ['\n'] := by simpa using ht
      have h3 := List.append_inj_left' h2 rfl
      rw [← h3]
      simp
  · rintro (rfl | h)
    · left
      rfl
    · right
      cases hc : c using List.reverseRecOn with
      | nil => rw [hc] at h; simp at h
      | append_singleton xs x =>
        rw [hc] at h
        have hx : x = '\n' := by simpa using h
        subst hx
        exact ⟨xs, by simp⟩

/-- C20 (as stated, refuted): for an existing content that does not end with a
line feed, the written content has no blank line before the new entry. -/
theorem createPullRequest_no_blank_line :
    fileWrites
      (createPullRequest (okHost unterminatedFile) myappContext 0 sampleRecord
        (generateYamlEntry sampleRecord) []).2
      = [(unterminatedFile ++ "\n".toList ++ generateYamlEntry sampleRecord,
          branchNameOf sampleRecord 0, some "abc123".toList)] ∧
    blankLineBefore (unterminatedFile ++ "\n".toList ++ generateYamlEntry sampleRecord)
      (generateYamlEntry sampleRecord) = false := by
  decide

/-- C20 (amended): once the default branch was read and the branch created, the
content written by `createPullRequest` is the existing content `c` (empty when
the read reported not-found), one line feed and the entry `e`: it starts with `c`
unchanged and ends with `e`; there is a blank line immediately before `e` exactly
when `c` is empty or ends with a line feed; the version token is passed when the
read returned the file (with its non-empty token) and not passed when the read
reported not-found. -/
theorem createPullRequest_written_content (host : Host) (ctx : Context) (now : Nat)
    (data : SubmissionData) (e : Str) (trace : List HostCall)
    (hbranch : ∀ t, ∃ sha, host.getBranch t = Outcome.ok sha)
    (href : ∀ t, host.createRef t = Outcome.ok ()) :
    (∀ file, host.getContent (trace ++ [HostCall.getContent "apps.yaml".toList]) = Outcome.ok file →
      file.sha ≠ [] →
      fileWrites (createPullRequest host ctx now data e trace).2 =
        fileWrites trace ++
          [(file.content ++ "\n".toList ++ e, branchNameOf data now, some file.sha)]) ∧
    (∀ err, host.getContent (trace ++ [HostCall.getContent "apps.yaml".toList])
        = Outcome.error err → err.status = 404 →
      fileWrites (createPullRequest host ctx now data e trace).2 =
        fileWrites trace ++ [([] ++ "\n".toList ++ e, branchNameOf data now, none)]) ∧
    (∀ c : Str, c <+: c ++ "\n".toList ++ e ∧ e <:+ c ++ "\n".toList ++ e ∧
      (blankLineBefore (c ++ "\n".toList ++ e) e = true ↔ (c = [] ∨ c.getLast? = some '\n'))) := by
  have hw := createPullRequest_fileWrites host ctx now data e trace hbranch href
  refine ⟨?_, ?_, ?_⟩
  · intro file hfile hsha
    rw [hw, hfile]
    have : shaParam file.sha = some file.sha := by
      unfold shaParam
      cases hs : file.sha with
      | nil => exact absurd hs hsha
      | cons x xs => rfl
    simp only [this]
  · intro err herr _
    rw [hw, herr]
    rfl
  · intro c
    exact ⟨⟨"\n".toList ++ e, by simp⟩, List.suffix_append _ _, blankLineBefore_iff c e⟩

theorem createPullRequest_written_content_witness :
    fileWrites
      (createPullRequest (okHost myappFile) myappContext 0 sampleRecord
        (generateYamlEntry sampleRecord) []).2
      = [(myappFile ++ "\n".toList ++ generateYamlEntry sampleRecord,
          branchNameOf sampleRecord 0, some "abc123".toList)] :=
  (createPullRequest_written_content (okHost myappFile) myappContext 0 sampleRecord
    (generateYamlEntry sampleRecord) [] (fun _ => ⟨_, rfl⟩) (fun _ => rfl)).1
    ⟨myappFile, "abc123".toList⟩ rfl (by decide)

end AppSubmission
